import Mathlib

/-!
# json-processor: path query, path assignment, transform and validate

A shallow embedding of `queryPath`, `setPath`, `executeTransform`,
`executeValidate`, `executeParse`, `executeQuery` and the dispatcher `Execute`
from `src/json-processor/plugin.go`, together with the Go standard-library
functions they call (`strings.Split`, `strings.Contains`, `strings.Index`,
string slicing, `strconv.Atoi`, map lookup and map assignment), and of
`convertUnits` from `src/calculator/plugin.go`.

Modelling conventions.

* A Go `string` is a `List Char`.  All characters the code inspects
  (`.`, `[`, `]`, `+`, `-`, the digits) are ASCII, so byte-wise and
  character-wise splitting, searching and slicing coincide on UTF-8 text.
* A decoded JSON value (`interface{}` holding `nil`, `bool`, `float64`,
  `string`, `[]interface{}` or `map[string]interface{}`) is a `Json` tree.
  A decoded number is a finite `float64`, hence a rational; the code never
  inspects it and carries it as is.
* A Go map is an association list read by its first matching key; `m[k] = v`
  replaces the first binding of `k` or appends one.  Two maps are the same map
  when they bind the same keys to structurally equal values (`Json.Equiv`).
* `setPath` mutates its argument in place; the model returns the state of
  that argument after the call.  Values are trees without sharing: `setLoop`,
  `setPath` and `executeTransform` describe the code on values in which no map
  is reachable in two ways.
* A run-time panic of the Go code is the outcome `Result.panic`, `none` for
  `executeTransform` and `executeValidate`, and `ActionResult.panic` for the
  handlers that take the parameter map.
* The entries of the `mappings` parameter are a list in the order in which the
  `range` loop visits them; Go leaves that order unspecified.
* `json.Unmarshal` is a parameter of the functions that decode text.
* Go maps are references.  Namespace `Shared` repeats the query, the
  assignment and the transform over an explicit store of maps, where a value
  taken from `data` and stored in `result` is the same map; the tree model
  is used where no assignment goes through such a value, and the statements
  that fail on shared maps are refuted in `Shared`.
* Namespace `Action` holds the handlers as `Execute` calls them, from the
  parameter map to the output map.
* In `convertUnits`, `float64` is `Float`; no arithmetic is evaluated.
-/

namespace JsonProcessor

/-- Go strings, as character lists. -/
abbrev Str := List Char

/-- Decoded JSON values: the dynamic types `encoding/json` produces. -/
inductive Json where
  | null : Json
  | bool : Bool → Json
  | num : Rat → Json
  | str : Str → Json
  | arr : List Json → Json
  | obj : List (Str × Json) → Json

/-- Go maps `map[string]interface{}`. -/
abbrev Obj := List (Str × Json)

/-- Outcome of a call of `queryPath`: the returned pair, or a run-time panic. -/
inductive Result where
  | panic : Result
  | ret : Json → Bool → Result

/-- Sequencing of outcomes: continue from a found value, keep anything else. -/
def Result.next (r : Result) (f : Json → Result) : Result :=
  match r with
  | Result.ret cur true => f cur
  | other => other

/-! ## Standard-library functions -/

/-- Model of `strings.Split(s, ".")`: cut at every `.`; always at least one part. -/
def splitDot : Str → List Str
  | [] => [[]]
  | c :: cs =>
    if c = '.' then [] :: splitDot cs
    else
      match splitDot cs with
      | [] => [[c]]
      | p :: ps => (c :: p) :: ps

/-- Model of `strings.Contains(s, string(c))`. -/
def strContains (s : Str) (c : Char) : Bool :=
  s.contains c

/-- Model of `strings.Index(s, string(c))`: first position of `c`, or `-1`. -/
def strIndex (s : Str) (c : Char) : Int :=
  if s.contains c then (s.indexOf c : Nat) else -1

/-- Model of the slice expression `s[lo:hi]`: panics (`none`) unless
`0 ≤ lo ≤ hi ≤ len(s)`. -/
def strSlice (s : Str) (lo hi : Int) : Option Str :=
  if 0 ≤ lo ∧ lo ≤ hi ∧ hi ≤ (s.length : Int) then
    some ((s.drop lo.toNat).take (hi.toNat - lo.toNat))
  else none

/-- Value of a decimal digit character. -/
def digitVal (c : Char) : Nat :=
  c.toNat - 48

/-- Base-10 value of a digit string, most significant digit first. -/
def digitsVal (ds : Str) : Nat :=
  ds.foldl (fun acc c => 10 * acc + digitVal c) 0

/-- Unsigned part of `strconv.Atoi`: one or more ASCII digits. -/
def parseDigits (ds : Str) : Option Nat :=
  if ds ≠ [] ∧ ds.all Char.isDigit then some (digitsVal ds) else none

/-- Model of `strconv.Atoi` on a 64-bit platform: an optional `+` or `-`,
then one or more decimal digits, the value within `[-2^63, 2^63 - 1]`;
`none` is a non-nil `err`. -/
def atoi (s : Str) : Option Int :=
  match s with
  | [] => none
  | c :: ds =>
    if c = '+' then
      match parseDigits ds with
      | some n => if n < 2 ^ 63 then some (n : Int) else none
      | none => none
    else if c = '-' then
      match parseDigits ds with
      | some n => if n ≤ 2 ^ 63 then some (-(n : Int)) else none
      | none => none
    else
      match parseDigits (c :: ds) with
      | some n => if n < 2 ^ 63 then some (n : Int) else none
      | none => none

/-- Model of the map read `v, exists := m[k]`. -/
def mapGet : Obj → Str → Option Json
  | [], _ => none
  | (k', v) :: rest, k => if k' = k then some v else mapGet rest k

/-- Model of the map write `m[k] = v`. -/
def mapSet : Obj → Str → Json → Obj
  | [], k, v => [(k, v)]
  | (k', v') :: rest, k, v =>
    if k' = k then (k, v) :: rest else (k', v') :: mapSet rest k v

/-! ## The code -/

/-- The `for _, part := range parts` loop of `queryPath`. -/
def queryLoop : Json → List Str → Result
  | current, [] => Result.ret current true
  | current, part :: rest =>
    if strContains part '[' && strContains part ']' then
      match strSlice part 0 (strIndex part '['),
            strSlice part (strIndex part '[' + 1) (strIndex part ']') with
      | some arrayPart, some indexPart =>
        match current with
        | Json.obj o =>
          match mapGet o arrayPart with
          | some (Json.arr a) =>
            match atoi indexPart with
            | some index =>
              if 0 ≤ index ∧ index < (a.length : Int) then
                match a[index.toNat]? with
                | some e => queryLoop e rest
                | none => Result.panic
              else Result.ret Json.null false
            | none => Result.ret Json.null false
          | some _ => Result.ret Json.null false
          | none => Result.ret Json.null false
        | _ => Result.ret Json.null false
      | _, _ => Result.panic
    else
      match current with
      | Json.obj o =>
        match mapGet o part with
        | some value => queryLoop value rest
        | none => Result.ret Json.null false
      | _ => Result.ret Json.null false

/-- Embedding of `queryPath(data, path)`. -/
def queryPath (data : Json) (path : Str) : Result :=
  if path = [] then Result.ret data true
  else queryLoop data (splitDot path)

/-- The `for i, part := range parts` loop of `setPath`; the result is the
content of `current` when the loop ends.  The map found under `part` is
rebuilt in place of the one it replaces: this is the state the Go loop leaves
when that map is reachable from `current` in no other way.  A write into a
map that is also held elsewhere is visible there as well, which a tree cannot
show; `Shared.setLoop` is the loop over a store of maps. -/
def setLoop : Obj → List Str → Json → Obj
  | current, [], _ => current
  | current, [part], value => mapSet current part value
  | current, part :: next :: rest, value =>
    match mapGet current part with
    | none => mapSet current part (Json.obj (setLoop [] (next :: rest) value))
    | some (Json.obj o) => mapSet current part (Json.obj (setLoop o (next :: rest) value))
    | some _ => current

/-- Embedding of `setPath(data, path, value)`: the content of `data` after the
call, `data` and `value` being trees that share no map.  `Shared.setPath` is
the same function on maps that may be shared. -/
def setPath (data : Obj) (path : Str) (value : Json) : Obj :=
  if path = [] then data
  else setLoop data (splitDot path) value


mutual
/-- Every array inside the value has a length that a Go `int` can hold
(slices longer than `2^63 - 1` do not exist). -/
def Json.fits : Json → Bool
  | Json.arr a => decide (a.length < 2 ^ 63) && fitsList a
  | Json.obj o => fitsObj o
  | _ => true
/-- Every element of the slice fits. -/
def fitsList : List Json → Bool
  | [] => true
  | x :: xs => x.fits && fitsList xs
/-- Every value bound in the map fits. -/
def fitsObj : List (Str × Json) → Bool
  | [] => true
  | (_, v) :: rest => v.fits && fitsObj rest
end

/-- The object reached from `o` by following the keys `ks` literally, each
bound to an object. -/
def descend : Obj → List Str → Option Obj
  | o, [] => some o
  | o, k :: ks =>
    match mapGet o k with
    | some (Json.obj o') => descend o' ks
    | _ => none

/-- Element `n` of the array, found; `(null, false)` when `n` is out of range. -/
def indexResult (a : List Json) (n : Nat) : Result :=
  match a[n]? with
  | some e => Result.ret e true
  | none => Result.ret Json.null false

/-- The token is numeric: an optional `+` or `-` followed by one or more digits. -/
def isNumeric (X : Str) : Prop :=
  ∃ ds, ds ≠ [] ∧ ds.all Char.isDigit = true ∧ (X = ds ∨ X = '+' :: ds ∨ X = '-' :: ds)

/-! ## Reference resolver, following the specification -/

/-- Path segments of the specification: `Field(name)` and `Index(n)`. -/
inductive Segment where
  | field : Str → Segment
  | index : Nat → Segment

namespace Spec

/-- Specification grammar `segment := fieldName ('[' digits ']')?`: a plain
segment is `Field(name)`, a bracketed one is `Field(name)` followed by
`Index(digits)`; anything else does not conform. -/
def parseSegment (s : Str) : Option (List Segment) :=
  match s.dropWhile (fun c => c != '[') with
  | [] => if s.contains ']' then none else some [Segment.field s]
  | _ :: rest =>
    if rest.getLast? = some ']' ∧ rest.dropLast ≠ [] ∧ rest.dropLast.all Char.isDigit = true
        ∧ (s.takeWhile (fun c => c != '[')).contains ']' = false then
      some [Segment.field (s.takeWhile (fun c => c != '[')),
            Segment.index (digitsVal rest.dropLast)]
    else none

/-- Segments of a list of dot-separated parts. -/
def parseParts : List Str → Option (List Segment)
  | [] => some []
  | s :: ss =>
    match parseSegment s, parseParts ss with
    | some a, some b => some (a ++ b)
    | _, _ => none

/-- Specification grammar `path := segment ('.' segment)*`; the empty string
is the identity path of zero segments. -/
def parsePath (path : Str) : Option (List Segment) :=
  if path = [] then some [] else parseParts (splitDot path)

/-- Specification resolver: walk the segments left to right. -/
def resolve : Json → List Segment → Json × Bool
  | current, [] => (current, true)
  | Json.obj o, Segment.field name :: rest =>
    match mapGet o name with
    | some v => resolve v rest
    | none => (Json.null, false)
  | Json.arr a, Segment.index n :: rest =>
    match a[n]? with
    | some e => resolve e rest
    | none => (Json.null, false)
  | _, _ :: _ => (Json.null, false)

end Spec

/-! ## Transform and validate -/

/-- One iteration of the `for oldPath, newPathInterface := range mappings`
loop of `executeTransform`, acting on `result`; `none` is a panic raised by
`queryPath`. -/
def transformStep (data : Json) (result : Obj) (rule : Str × Json) : Option Obj :=
  match rule.2 with
  | Json.str newPath =>
    match queryPath data rule.1 with
    | Result.panic => none
    | Result.ret value true => some (setPath result newPath value)
    | Result.ret _ false => some result
  | _ => some result

/-- The `range mappings` loop over the entries in the order they are visited. -/
def transformLoop (data : Json) : List (Str × Json) → Obj → Option Obj
  | [], result => some result
  | rule :: rest, result =>
    match transformStep data result rule with
    | some result' => transformLoop data rest result'
    | none => none

/-- Embedding of `executeTransform`: `mappings` lists the entries of the
`mappings` parameter in the order in which the `range` loop visits them (Go
leaves that order unspecified); the value is the `result` output, `none` when
the call panics.  Each rule stores a copy of the value it found, and `data` is
the same for every rule.  The Go code stores the value itself: the two agree
as long as no rule assigns below a destination that holds a map taken from
`data`, which is the case when no two destinations overlap
(`Shared.executeTransform_keeps_data`).  `Shared.executeTransform` is the
function with the maps shared, and returns the store in which `data` can be
read after the call. -/
def executeTransform (data : Json) (mappings : List (Str × Json)) : Option Obj :=
  transformLoop data mappings []

/-- Message `fmt.Sprintf("Required field missing: %s", fieldStr)`. -/
def missingMsg (fieldStr : Str) : Str :=
  "Required field missing: ".toList ++ fieldStr

/-- Message `fmt.Sprintf("Invalid JSON: %s", err.Error())`. -/
def invalidMsg (err : Str) : Str :=
  "Invalid JSON: ".toList ++ err

/-- The `for _, field := range requiredFields` loop of `executeValidate`,
carrying `valid` and `errors`; `none` is a panic raised by `queryPath`. -/
def validateLoop (data : Json) : List Json → Bool → List Str → Option (Bool × List Str)
  | [], valid, errors => some (valid, errors)
  | field :: rest, valid, errors =>
    match field with
    | Json.str fieldStr =>
      match queryPath data fieldStr with
      | Result.panic => none
      | Result.ret _ true => validateLoop data rest valid errors
      | Result.ret _ false => validateLoop data rest false (errors ++ [missingMsg fieldStr])
    | _ => validateLoop data rest valid errors

/-- Embedding of `executeValidate`.  `unmarshal` stands for `json.Unmarshal`
(its error carried as the text of `err.Error()`), `required` for the
`required_fields` parameter when it is present and a list.  The value is the
pair of outputs `(valid, errors)`, `none` when the call panics. -/
def executeValidate (unmarshal : Str → Except Str Json) (jsonStr : Str)
    (required : Option (List Json)) : Option (Bool × List Str) :=
  match unmarshal jsonStr with
  | Except.error err =>
    -- `valid` is false: the required-field loop is guarded by `ok && valid`
    some (false, [invalidMsg err])
  | Except.ok data =>
    match required with
    | some requiredFields => validateLoop data requiredFields true []
    | none => some (true, [])

/-- The error list the specification prescribes for a decoded document: one
`Required field missing` message per string entry whose path is not found, in
the order of the list. -/
def expectedErrors (data : Json) (fields : List Json) : List Str :=
  fields.filterMap (fun f =>
    match f with
    | Json.str p =>
      match queryPath data p with
      | Result.ret _ false => some (missingMsg p)
      | _ => none
    | _ => none)

/-! ## Structural equality and overlapping destinations -/

/-- Structural equality of decoded values: objects are equal as maps, whatever
the order of their keys; arrays element by element. -/
inductive Json.Equiv : Json → Json → Prop where
  | refl (x : Json) : Json.Equiv x x
  | obj (o1 o2 : Obj) :
      (∀ k, mapGet o1 k = none ↔ mapGet o2 k = none) →
      (∀ (k : Str) (x y : Json), mapGet o1 k = some x → mapGet o2 k = some y → Json.Equiv x y) →
      Json.Equiv (Json.obj o1) (Json.obj o2)
  | arr (a b : List Json) :
      a.length = b.length →
      (∀ (i : Nat) (x y : Json), a[i]? = some x → b[i]? = some y → Json.Equiv x y) →
      Json.Equiv (Json.arr a) (Json.arr b)

/-- Structural equality of two maps: the same keys, bound to structurally
equal values. -/
def ObjEquiv (o1 o2 : Obj) : Prop :=
  (∀ k, mapGet o1 k = none ↔ mapGet o2 k = none) ∧
  (∀ (k : Str) (x y : Json), mapGet o1 k = some x → mapGet o2 k = some y → Json.Equiv x y)

/-- The binding of the first segment after the assignment loop, from its
binding `cur` before: `rest` are the segments that follow it. -/
def setBinding : Option Json → List Str → Json → Option Json
  | _, [], v => some v
  | none, next :: rest, v => some (Json.obj (setLoop [] (next :: rest) v))
  | some (Json.obj o), next :: rest, v => some (Json.obj (setLoop o (next :: rest) v))
  | some x, _ :: _, _ => some x

/-- Structural equality of two outcomes of a transform: both panic, or both
return structurally equal objects. -/
def OutcomeEquiv : Option Obj → Option Obj → Prop
  | some r1, some r2 => Json.Equiv (Json.obj r1) (Json.obj r2)
  | none, none => True
  | _, _ => False

/-- Two destination paths overlap: the segment list of one is a prefix of, or
equal to, that of the other. -/
def Overlap (p q : Str) : Prop :=
  splitDot p <+: splitDot q ∨ splitDot q <+: splitDot p

/-- Two rules do not target overlapping destination paths. -/
def RulesApart (r1 r2 : Str × Json) : Prop :=
  ∀ p q, r1.2 = Json.str p → r2.2 = Json.str q → ¬ Overlap p q

/-- No part holds both brackets: `queryPath` reads each part as a plain key. -/
def PlainParts (parts : List Str) : Prop :=
  ∀ seg ∈ parts, ¬ ('[' ∈ seg ∧ ']' ∈ seg)

/-- State of `result` while the rules are applied, `written` being the
destinations assigned so far with their values: every assigned destination
reads back its value, and every path of plain keys that is not at or below an
assigned destination is absent or an object. -/
def TransformInv (result : Obj) (written : List (List Str × Json)) : Prop :=
  (∀ w ∈ written, PlainParts w.1) ∧
  (∀ w ∈ written, queryLoop (Json.obj result) w.1 = Result.ret w.2 true) ∧
  (∀ Q, PlainParts Q → (∀ w ∈ written, ¬ w.1 <+: Q) →
    queryLoop (Json.obj result) Q = Result.ret Json.null false ∨
      ∃ o, queryLoop (Json.obj result) Q = Result.ret (Json.obj o) true)

/-! ## Transform over a store of shared maps

Go maps are references: `setPath(result, newPath, value)` stores the very map
that `queryPath` found inside `data`, and a later write below `newPath` goes
into that map.  The definitions below repeat `queryPath`, `setPath` and
`executeTransform` over an explicit store of maps, where sharing is visible. -/

namespace Shared

/-- Values whose maps are addresses into the store. -/
inductive Val where
  | null : Val
  | bool : Bool → Val
  | num : Rat → Val
  | str : Str → Val
  | arr : List Val → Val
  | ref : Nat → Val

/-- The content of one map. -/
abbrev Cell := List (Str × Val)

/-- The store: the map at address `a` is the `a`-th cell. -/
abbrev Store := List Cell

/-- Outcome of a query over the store. -/
inductive Result where
  | panic : Result
  | ret : Val → Bool → Result

/-- Map read `v, exists := m[k]`. -/
def cellGet : Cell → Str → Option Val
  | [], _ => none
  | (k', v) :: rest, k => if k' = k then some v else cellGet rest k

/-- Map write `m[k] = v` on the content of a map. -/
def cellSet : Cell → Str → Val → Cell
  | [], k, v => [(k, v)]
  | (k', v') :: rest, k, v =>
    if k' = k then (k, v) :: rest else (k', v') :: cellSet rest k v

/-- Map write `m[k] = v` on the map at address `a`. -/
def write (h : Store) (a : Nat) (k : Str) (v : Val) : Store :=
  match h[a]? with
  | some m => h.set a (cellSet m k v)
  | none => h

/-- The `for _, part := range parts` loop of `queryPath`, over the store. -/
def queryLoop (h : Store) : Val → List Str → Result
  | current, [] => Result.ret current true
  | current, part :: rest =>
    if strContains part '[' && strContains part ']' then
      match strSlice part 0 (strIndex part '['),
            strSlice part (strIndex part '[' + 1) (strIndex part ']') with
      | some arrayPart, some indexPart =>
        match current with
        | Val.ref a =>
          match (h[a]?).bind (fun m => cellGet m arrayPart) with
          | some (Val.arr xs) =>
            match atoi indexPart with
            | some index =>
              if 0 ≤ index ∧ index < (xs.length : Int) then
                match xs[index.toNat]? with
                | some e => queryLoop h e rest
                | none => Result.panic
              else Result.ret Val.null false
            | none => Result.ret Val.null false
          | some _ => Result.ret Val.null false
          | none => Result.ret Val.null false
        | _ => Result.ret Val.null false
      | _, _ => Result.panic
    else
      match current with
      | Val.ref a =>
        match (h[a]?).bind (fun m => cellGet m part) with
        | some value => queryLoop h value rest
        | none => Result.ret Val.null false
      | _ => Result.ret Val.null false

/-- Embedding of `queryPath(data, path)` over the store. -/
def queryPath (h : Store) (data : Val) (path : Str) : Result :=
  if path = [] then Result.ret data true
  else queryLoop h data (splitDot path)

/-- The `for i, part := range parts` loop of `setPath`, over the store:
`current` is the address of the map being written; `make` allocates the next
free address. -/
def setLoop : Store → Nat → List Str → Val → Store
  | h, _, [], _ => h
  | h, current, [part], value => write h current part value
  | h, current, part :: next :: rest, value =>
    match (h[current]?).bind (fun m => cellGet m part) with
    | none =>
      setLoop (write (h ++ [[]]) current part (Val.ref h.length)) h.length
        (next :: rest) value
    | some (Val.ref a) => setLoop h a (next :: rest) value
    | some _ => h

/-- Embedding of `setPath(data, path, value)` over the store, `data` being the
map at address `root`. -/
def setPath (h : Store) (root : Nat) (path : Str) (value : Val) : Store :=
  if path = [] then h
  else setLoop h root (splitDot path) value

/-- The `range mappings` loop, writing into the map at address `result`. -/
def transformLoop (data : Val) (result : Nat) : List (Str × Val) → Store → Option Store
  | [], h => some h
  | rule :: rest, h =>
    match rule.2 with
    | Val.str newPath =>
      match queryPath h data rule.1 with
      | Result.panic => none
      | Result.ret value true => transformLoop data result rest (setPath h result newPath value)
      | Result.ret _ false => transformLoop data result rest h
    | _ => transformLoop data result rest h

/-- Embedding of `executeTransform` over the store: `result` is a fresh map;
the value is the store after the call and the address of `result`. -/
def executeTransform (h : Store) (data : Val) (mappings : List (Str × Val)) :
    Option (Store × Nat) :=
  match transformLoop data h.length mappings (h ++ [[]]) with
  | some h' => some (h', h.length)
  | none => none

/-- The value as a tree, maps followed through the store down to depth `fuel`. -/
def toJson : Nat → Store → Val → Json
  | _, _, Val.null => Json.null
  | _, _, Val.bool b => Json.bool b
  | _, _, Val.num q => Json.num q
  | _, _, Val.str s => Json.str s
  | 0, _, _ => Json.null
  | fuel + 1, h, Val.arr xs => Json.arr (xs.map (fun x => toJson fuel h x))
  | fuel + 1, h, Val.ref a =>
    match h[a]? with
    | some m => Json.obj (m.map (fun kv => (kv.1, toJson fuel h kv.2)))
    | none => Json.null

/-- Two rules of a transform over the store do not target overlapping
destination paths. -/
def RulesApart (r1 r2 : Str × Val) : Prop :=
  ∀ p q, r1.2 = Val.str p → r2.2 = Val.str q → ¬ Overlap p q

/-- State of the store while the rules are applied.  `S` lists the maps that
`setPath` has allocated below `result`, `result` included, each with the keys
that lead to it from `result`; `W` lists the destinations assigned so far.
Those maps are new (address at least `n0`), no two entries name the same map,
and every binding in such a map is either the next map along its path or an
assigned destination. -/
def SpineInv (n0 : Nat) (h : Store) (S : List (List Str × Nat)) (W : List (List Str)) : Prop :=
  (∀ e ∈ S, n0 ≤ e.2 ∧ e.2 < h.length) ∧
  (∀ e1 ∈ S, ∀ e2 ∈ S, e1.2 = e2.2 → e1.1 = e2.1) ∧
  (∀ e ∈ S, ∀ (m : Cell) (k : Str) (val : Val), h[e.2]? = some m → cellGet m k = some val →
    (∃ b, val = Val.ref b ∧ (e.1 ++ [k], b) ∈ S) ∨ (e.1 ++ [k]) ∈ W)

end Shared

/-! ## Actions and the dispatcher -/

/-- What an action handler returns: a run-time panic, `(nil, err)` with the
text of the error, or `(outputs, nil)`. -/
inductive ActionResult where
  | panic : ActionResult
  | error : Str → ActionResult
  | ok : Obj → ActionResult

namespace Action

/-- The parameter read `params[name]`: `nil` when the key is missing. -/
def param (params : Obj) (name : Str) : Json :=
  match mapGet params name with
  | some v => v
  | none => Json.null

/-- Embedding of `executeParse`; `unmarshal` stands for `json.Unmarshal`. -/
def executeParse (unmarshal : Str → Except Str Json) (params : Obj) : ActionResult :=
  match param params "json".toList with
  | Json.str jsonStr =>
    match unmarshal jsonStr with
    | Except.error err =>
      ActionResult.ok [("data".toList, Json.null), ("valid".toList, Json.bool false),
        ("error".toList, Json.str err)]
    | Except.ok data =>
      ActionResult.ok [("data".toList, data), ("valid".toList, Json.bool true)]
  | _ => ActionResult.error "json parameter is required".toList

/-- The tail of `executeQuery`: the call of `queryPath` and the outputs. -/
def queryOutputs (data : Json) (path : Str) : ActionResult :=
  match queryPath data path with
  | Result.panic => ActionResult.panic
  | Result.ret result found =>
    ActionResult.ok [("result".toList, result), ("found".toList, Json.bool found),
      ("path".toList, Json.str path)]

/-- Embedding of `executeQuery`; `unmarshal` stands for `json.Unmarshal`. -/
def executeQuery (unmarshal : Str → Except Str Json) (params : Obj) : ActionResult :=
  match param params "path".toList with
  | Json.str path =>
    -- If data is a string, try to parse it as JSON first
    match param params "data".toList with
    | Json.str jsonStr =>
      match unmarshal jsonStr with
      | Except.error err =>
        ActionResult.error ("failed to parse JSON data: ".toList ++ err)
      | Except.ok parsed => queryOutputs parsed path
    | data => queryOutputs data path
  | _ => ActionResult.error "path parameter is required".toList

/-- Embedding of `executeValidate` from the parameter map to the output map. -/
def executeValidate (unmarshal : Str → Except Str Json) (params : Obj) : ActionResult :=
  match param params "json".toList with
  | Json.str jsonStr =>
    match JsonProcessor.executeValidate unmarshal jsonStr
        (match param params "required_fields".toList with
         | Json.arr requiredFields => some requiredFields
         | _ => none) with
    | none => ActionResult.panic
    | some (valid, errors) =>
      ActionResult.ok [("valid".toList, Json.bool valid),
        ("errors".toList, Json.arr (errors.map Json.str))]
  | _ => ActionResult.error "json parameter is required".toList

/-- Embedding of `executeTransform` from the parameter map to the output map;
the entries of `mappings` are listed in the order the `range` loop visits them. -/
def executeTransform (params : Obj) : ActionResult :=
  match param params "mappings".toList with
  | Json.obj mappings =>
    match JsonProcessor.executeTransform (param params "data".toList) mappings with
    | none => ActionResult.panic
    | some result => ActionResult.ok [("result".toList, Json.obj result)]
  | _ => ActionResult.error "mappings parameter is required".toList

/-- Message `fmt.Errorf("unknown action: %s", action)`. -/
def unknownAction (action : Str) : Str :=
  "unknown action: ".toList ++ action

/-- Embedding of the dispatcher `Execute`. -/
def Execute (unmarshal : Str → Except Str Json) (action : Str) (params : Obj) :
    ActionResult :=
  if action = "parse".toList then executeParse unmarshal params
  else if action = "query".toList then executeQuery unmarshal params
  else if action = "validate".toList then executeValidate unmarshal params
  else if action = "transform".toList then executeTransform params
  else ActionResult.error (unknownAction action)

end Action

/-- The values of `json.Unmarshal` on the texts used as examples: `"hello"`
and `"123"` decode to strings, `123` to a number, and `hello` is rejected with
the decoder's message; texts outside this table are not used. -/
def sampleUnmarshal (text : Str) : Except Str Json :=
  if text = "\"hello\"".toList then Except.ok (Json.str "hello".toList)
  else if text = "\"123\"".toList then Except.ok (Json.str "123".toList)
  else if text = "123".toList then Except.ok (Json.num 123)
  else Except.error "invalid character 'h' looking for beginning of value".toList

end JsonProcessor

/-! ## Calculator: unit conversion -/

namespace Calculator

/-- Message `fmt.Errorf("unsupported conversion from %s to %s", from, to)`. -/
def unsupported (fromUnit toUnit : List Char) : List Char :=
  "unsupported conversion from ".toList ++ fromUnit ++ " to ".toList ++ toUnit

/-- Embedding of `convertUnits(value, from, to)` from `src/calculator/plugin.go`;
`float64` is `Float`, `(0, err)` is `Except.error`. -/
def convertUnits (value : Float) (fromUnit toUnit : List Char) : Except (List Char) Float :=
  if fromUnit = "celsius".toList ∧ toUnit = "fahrenheit".toList then
    Except.ok ((value * 9.0 / 5.0) + 32)
  else if fromUnit = "fahrenheit".toList ∧ toUnit = "celsius".toList then
    Except.ok ((value - 32) * 5.0 / 9.0)
  else if fromUnit = "meters".toList ∧ toUnit = "feet".toList then
    Except.ok (value * 3.28084)
  else if fromUnit = "feet".toList ∧ toUnit = "meters".toList then
    Except.ok (value / 3.28084)
  else if fromUnit = toUnit then
    Except.ok value
  else
    Except.error (unsupported fromUnit toUnit)

end Calculator

namespace JsonProcessor

/-! ## Maps -/

theorem mapGet_mapSet_self (o : Obj) (k : Str) (v : Json) :
    mapGet (mapSet o k v) k = some v := by
  induction o with
  | nil => simp [mapSet, mapGet]
  | cons kv rest ih =>
    obtain ⟨k', v'⟩ := kv
    by_cases h : k' = k
    · simp [mapSet, mapGet, h]
    · simp [mapSet, mapGet, h, ih]

theorem mapGet_mapSet_ne (o : Obj) (k k' : Str) (v : Json) (h : k' ≠ k) :
    mapGet (mapSet o k v) k' = mapGet o k' := by
  induction o with
  | nil => simp [mapSet, mapGet, Ne.symm h]
  | cons kv rest ih =>
    obtain ⟨k0, v0⟩ := kv
    by_cases h0 : k0 = k
    · subst h0
      simp [mapSet, mapGet, Ne.symm h]
    · by_cases h1 : k0 = k'
      · subst h1
        simp [mapSet, mapGet, h0]
      · simp [mapSet, mapGet, h0, h1, ih]

theorem mapSet_of_mapGet (o : Obj) (k : Str) (v : Json) (h : mapGet o k = some v) :
    mapSet o k v = o := by
  induction o with
  | nil => simp [mapGet] at h
  | cons kv rest ih =>
    obtain ⟨k0, v0⟩ := kv
    by_cases h0 : k0 = k
    · subst h0
      simp [mapGet] at h
      simp [mapSet, h]
    · simp [mapGet, h0] at h
      simp [mapSet, h0, ih h]

/-! ## Splitting at dots -/

theorem splitDot_ne_nil (s : Str) : splitDot s ≠ [] := by
  cases s with
  | nil => simp [splitDot]
  | cons c cs =>
    unfold splitDot
    split
    · simp
    · split <;> simp

theorem splitDot_of_not_mem (s : Str) (h : '.' ∉ s) : splitDot s = [s] := by
  induction s with
  | nil => rfl
  | cons c cs ih =>
    have hc : c ≠ '.' := fun e => h (by simp [e])
    have hcs : '.' ∉ cs := fun e => h (by simp [e])
    simp [splitDot, hc, ih hcs]

/-! ## Bracketed segments -/

theorem strContains_eq_true (s : Str) (c : Char) : strContains s c = true ↔ c ∈ s := by
  simp [strContains]

theorem strContains_eq_false (s : Str) (c : Char) : strContains s c = false ↔ c ∉ s := by
  simp [strContains]

/-- Shape of a segment `name[X]t`: `name` holds no bracket and `X` no `]`. -/
theorem strIndex_open (name X t : Str) (h1 : '[' ∉ name) :
    strIndex (name ++ '[' :: (X ++ ']' :: t)) '[' = (name.length : Int) := by
  unfold strIndex
  rw [if_pos (by simp), List.indexOf_append_of_not_mem h1, List.indexOf_cons_self]
  simp

theorem strIndex_close (name X t : Str) (h2 : ']' ∉ name) (h3 : ']' ∉ X) :
    strIndex (name ++ '[' :: (X ++ ']' :: t)) ']' = (name.length + 1 + X.length : Nat) := by
  unfold strIndex
  rw [if_pos (by simp), List.indexOf_append_of_not_mem h2,
    List.indexOf_cons_ne _ (by decide), List.indexOf_append_of_not_mem h3,
    List.indexOf_cons_self]
  congr 1
  omega

theorem strSlice_name (name rest : Str) :
    strSlice (name ++ rest) 0 (name.length : Int) = some name := by
  unfold strSlice
  rw [if_pos (by simp)]
  simp

theorem strSlice_index (name X t : Str) :
    strSlice (name ++ '[' :: (X ++ ']' :: t)) ((name.length : Int) + 1)
      ((name.length + 1 + X.length : Nat) : Int) = some X := by
  unfold strSlice
  rw [if_pos ⟨by omega, by omega, by simp only [List.length_append, List.length_cons]; omega⟩]
  have e1 : ((name.length : Int) + 1).toNat = name.length + 1 := by omega
  have e2 : ((name.length + 1 + X.length : Nat) : Int).toNat = name.length + 1 + X.length := by
    omega
  rw [e1, e2]
  have e3 : name.length + 1 + X.length - (name.length + 1) = X.length := by omega
  rw [e3]
  have e4 : List.drop (name.length + 1) (name ++ '[' :: (X ++ ']' :: t)) = X ++ ']' :: t := by
    rw [show name ++ '[' :: (X ++ ']' :: t) = (name ++ ['[']) ++ (X ++ ']' :: t) by simp]
    rw [List.drop_append_eq_append_drop]
    simp
  rw [e4]
  simp

/-- One iteration of the query loop on a segment `name[X]t`. -/
theorem queryLoop_bracket (current : Json) (name X t : Str) (rest : List Str)
    (h1 : '[' ∉ name) (h2 : ']' ∉ name) (h3 : ']' ∉ X) :
    queryLoop current ((name ++ '[' :: (X ++ ']' :: t)) :: rest) =
      match current with
      | Json.obj o =>
        match mapGet o name with
        | some (Json.arr a) =>
          match atoi X with
          | some index =>
            if 0 ≤ index ∧ index < (a.length : Int) then
              match a[index.toNat]? with
              | some e => queryLoop e rest
              | none => Result.panic
            else Result.ret Json.null false
          | none => Result.ret Json.null false
        | some _ => Result.ret Json.null false
        | none => Result.ret Json.null false
      | _ => Result.ret Json.null false := by
  have c1 : strContains (name ++ '[' :: (X ++ ']' :: t)) '[' = true := by
    rw [strContains_eq_true]; simp
  have c2 : strContains (name ++ '[' :: (X ++ ']' :: t)) ']' = true := by
    rw [strContains_eq_true]; simp
  cases current <;>
    simp only [queryLoop, c1, c2, Bool.and_self, if_true, strIndex_open name X t h1,
      strIndex_close name X t h2 h3, strSlice_name, strSlice_index]

/-- One iteration of the query loop on a segment that does not hold both brackets. -/
theorem queryLoop_plain (current : Json) (part : Str) (rest : List Str)
    (h : ¬ ('[' ∈ part ∧ ']' ∈ part)) :
    queryLoop current (part :: rest) =
      match current with
      | Json.obj o =>
        match mapGet o part with
        | some value => queryLoop value rest
        | none => Result.ret Json.null false
      | _ => Result.ret Json.null false := by
  have c : (strContains part '[' && strContains part ']') = false := by
    by_cases a : '[' ∈ part
    · have b : ']' ∉ part := fun b => h ⟨a, b⟩
      simp [(strContains_eq_false part ']').2 b]
    · simp [(strContains_eq_false part '[').2 a]
  cases current <;> simp only [queryLoop, c, Bool.false_eq_true, if_false]

/-- The query loop over `pre ++ post` runs `post` from where `pre` arrived. -/
theorem queryLoop_append (pre post : List Str) (d : Json) :
    queryLoop d (pre ++ post) = (queryLoop d pre).next (fun cur => queryLoop cur post) := by
  induction pre generalizing d with
  | nil => simp [queryLoop, Result.next]
  | cons part pre ih =>
    simp only [List.cons_append, queryLoop]
    repeat' split
    all_goals first
      | rfl
      | exact ih _

/-! ## Integer parsing -/

theorem not_isDigit_plus_minus (c : Char) (h : c.isDigit = true) : c ≠ '+' ∧ c ≠ '-' := by
  constructor <;> (rintro rfl; revert h; decide)

theorem not_isDigit_of_isWhitespace (c : Char) (h : c.isWhitespace = true) :
    c.isDigit = false := by
  simp only [Char.isWhitespace, Bool.or_eq_true, decide_eq_true_eq] at h
  rcases h with ((h | h) | h) | h <;> (subst h; decide)

theorem atoi_digits (ds : Str) (h1 : ds ≠ []) (h2 : ds.all Char.isDigit = true) :
    atoi ds = if digitsVal ds < 2 ^ 63 then some (digitsVal ds : Int) else none := by
  cases ds with
  | nil => exact absurd rfl h1
  | cons c cs =>
    have hc : c.isDigit = true := by
      simp only [List.all_cons, Bool.and_eq_true] at h2
      exact h2.1
    obtain ⟨hp, hm⟩ := not_isDigit_plus_minus c hc
    have hpd : parseDigits (c :: cs) = some (digitsVal (c :: cs)) := by
      unfold parseDigits
      rw [if_pos ⟨h1, h2⟩]
    simp only [atoi, hp, hm, if_false, hpd]

theorem atoi_plus (ds : Str) (h1 : ds ≠ []) (h2 : ds.all Char.isDigit = true) :
    atoi ('+' :: ds) = if digitsVal ds < 2 ^ 63 then some (digitsVal ds : Int) else none := by
  have hpd : parseDigits ds = some (digitsVal ds) := by
    unfold parseDigits
    rw [if_pos ⟨h1, h2⟩]
  simp only [atoi, if_true, hpd]

theorem atoi_minus (ds : Str) (h1 : ds ≠ []) (h2 : ds.all Char.isDigit = true) :
    atoi ('-' :: ds) = if digitsVal ds ≤ 2 ^ 63 then some (-(digitsVal ds : Int)) else none := by
  have hpd : parseDigits ds = some (digitsVal ds) := by
    unfold parseDigits
    rw [if_pos ⟨h1, h2⟩]
  have hne : ('-' : Char) ≠ '+' := by decide
  simp only [atoi, hne, if_true, if_false, hpd]

theorem parseDigits_of_not_digit (ds : Str) (c : Char) (hc : c ∈ ds)
    (hd : c.isDigit = false) : parseDigits ds = none := by
  unfold parseDigits
  rw [if_neg]
  rintro ⟨_, hall⟩
  rw [List.all_eq_true] at hall
  have := hall c hc
  rw [hd] at this
  exact Bool.false_ne_true this

theorem atoi_of_whitespace (X : Str) (c : Char) (hc : c ∈ X)
    (hw : c.isWhitespace = true) : atoi X = none := by
  have hd := not_isDigit_of_isWhitespace c hw
  cases X with
  | nil => rfl
  | cons x xs =>
    have hfull : parseDigits (x :: xs) = none := parseDigits_of_not_digit _ c hc hd
    by_cases hp : x = '+'
    · have hcx : c ∈ xs := by
        rcases List.mem_cons.1 hc with e | e
        · subst e; subst hp; exact absurd hw (by decide)
        · exact e
      simp only [atoi, hp, if_true, parseDigits_of_not_digit xs c hcx hd]
    · by_cases hm : x = '-'
      · have hcx : c ∈ xs := by
          rcases List.mem_cons.1 hc with e | e
          · subst e; subst hm; exact absurd hw (by decide)
          · exact e
        have hne : ('-' : Char) ≠ '+' := by decide
        simp only [atoi, hm, hne, if_true, if_false, parseDigits_of_not_digit xs c hcx hd]
      · simp only [atoi, hp, hm, if_false, hfull]

/-! ## Decimal numerals -/

theorem digitChar_spec : ∀ m, m < 10 →
    (Nat.digitChar m).isDigit = true ∧ digitVal (Nat.digitChar m) = m := by
  decide

theorem digitsVal_append_singleton (ds : Str) (c : Char) :
    digitsVal (ds ++ [c]) = 10 * digitsVal ds + digitVal c := by
  simp [digitsVal, List.foldl_append]

theorem toDigitsCore_spec (fuel : Nat) : ∀ (n : Nat) (acc : List Char), n < fuel →
    ∃ ds, Nat.toDigitsCore 10 fuel n acc = ds ++ acc ∧ ds ≠ [] ∧
      ds.all Char.isDigit = true ∧ digitsVal ds = n := by
  induction fuel with
  | zero => intro n acc h; omega
  | succ fuel ih =>
    intro n acc h
    obtain ⟨hd, hv⟩ := digitChar_spec (n % 10) (Nat.mod_lt _ (by decide))
    unfold Nat.toDigitsCore
    by_cases h0 : n / 10 = 0
    · refine ⟨[Nat.digitChar (n % 10)], ?_, by simp, ?_, ?_⟩
      · simp [h0]
      · simp [hd]
      · have : digitsVal [Nat.digitChar (n % 10)] = digitVal (Nat.digitChar (n % 10)) := by
          simp [digitsVal]
        rw [this, hv]
        omega
    · obtain ⟨ds, hds, _, hall, hval⟩ :=
        ih (n / 10) (Nat.digitChar (n % 10) :: acc) (by omega)
      refine ⟨ds ++ [Nat.digitChar (n % 10)], ?_, by simp, ?_, ?_⟩
      · simp [h0, hds]
      · simp only [List.all_append, hall, List.all_cons, hd, List.all_nil, Bool.and_self]
      · rw [digitsVal_append_singleton, hval, hv]
        omega

/-- The decimal numeral of `n` is a non-empty digit string of value `n`. -/
theorem toDigits_spec (n : Nat) :
    Nat.toDigits 10 n ≠ [] ∧ (Nat.toDigits 10 n).all Char.isDigit = true ∧
      digitsVal (Nat.toDigits 10 n) = n := by
  obtain ⟨ds, hds, hne, hall, hval⟩ := toDigitsCore_spec (n + 1) n [] (by omega)
  have : Nat.toDigits 10 n = ds := by
    simp [Nat.toDigits, hds]
  rw [this]
  exact ⟨hne, hall, hval⟩

theorem not_mem_of_digits (ds : Str) (c : Char) (h : ds.all Char.isDigit = true)
    (hc : c.isDigit = false) : c ∉ ds := by
  intro hm
  rw [List.all_eq_true] at h
  have := h _ hm
  rw [hc] at this
  exact Bool.false_ne_true this

/-! ## Refinement of the reference resolver -/

theorem fits_mapGet (o : Obj) (k : Str) (v : Json) (h : fitsObj o = true)
    (hg : mapGet o k = some v) : v.fits = true := by
  induction o with
  | nil => simp [mapGet] at hg
  | cons kv rest ih =>
    obtain ⟨k0, v0⟩ := kv
    simp only [fitsObj, Bool.and_eq_true] at h
    by_cases h0 : k0 = k
    · simp only [mapGet, h0, if_true, Option.some.injEq] at hg
      rw [← hg]; exact h.1
    · simp only [mapGet, h0, if_false] at hg
      exact ih h.2 hg

theorem fits_getElem (a : List Json) (i : Nat) (e : Json) (h : fitsList a = true)
    (hg : a[i]? = some e) : e.fits = true := by
  induction a generalizing i with
  | nil => simp at hg
  | cons x xs ih =>
    simp only [fitsList, Bool.and_eq_true] at h
    cases i with
    | zero =>
      simp only [List.getElem?_cons_zero, Option.some.injEq] at hg
      rw [← hg]; exact h.1
    | succ j =>
      simp only [List.getElem?_cons_succ] at hg
      exact ih j h.2 hg

theorem not_mem_close_of_digits (ds : Str) (h : ds.all Char.isDigit = true) : ']' ∉ ds := by
  intro hm
  rw [List.all_eq_true] at h
  exact absurd (h _ hm) (by decide)

/-- The two shapes a conforming segment can have. -/
theorem parseSegment_shape (s : Str) (segs : List Segment)
    (h : Spec.parseSegment s = some segs) :
    ('[' ∉ s ∧ ']' ∉ s ∧ segs = [Segment.field s]) ∨
    (∃ name ds, s = name ++ '[' :: (ds ++ [']']) ∧ '[' ∉ name ∧ ']' ∉ name ∧ ds ≠ [] ∧
      ds.all Char.isDigit = true ∧
      segs = [Segment.field name, Segment.index (digitsVal ds)]) := by
  unfold Spec.parseSegment at h
  split at h
  · rename_i hd
    left
    rw [List.dropWhile_eq_nil_iff] at hd
    have ho : '[' ∉ s := by
      intro hm
      have := hd _ hm
      simp at this
    split at h
    · exact absurd h (by simp)
    · rename_i hc
      refine ⟨ho, ?_, ?_⟩
      · intro hm
        exact hc (by simpa using hm)
      · simpa using h.symm
  · rename_i c rest hd
    right
    split at h
    · rename_i hcond
      obtain ⟨hlast, hne, hall, hname⟩ := hcond
      have hc : c = '[' := by
        have := List.head?_dropWhile_not (fun c => c != '[') s
        rw [hd] at this
        simpa using this
      have hsplit : s = s.takeWhile (fun c => c != '[') ++ c :: rest := by
        rw [← hd, List.takeWhile_append_dropWhile]
      have hrest : rest.dropLast ++ [']'] = rest :=
        List.dropLast_append_getLast? _ (by rw [hlast]; rfl)
      refine ⟨s.takeWhile (fun c => c != '['), rest.dropLast, ?_, ?_, ?_, hne, hall, ?_⟩
      · rw [hrest]
        rw [hc] at hsplit
        exact hsplit
      · intro hm
        have := List.mem_takeWhile_imp hm
        simp at this
      · intro hm
        have : (s.takeWhile (fun c => c != '[')).contains ']' = true := by simpa using hm
        rw [hname] at this
        exact Bool.false_ne_true this
      · simpa using h.symm
    · exact absurd h (by simp)

/-- The query loop computes the reference resolver on conforming parts. -/
theorem queryLoop_refines (parts : List Str) :
    ∀ (d : Json) (segs : List Segment), d.fits = true → Spec.parseParts parts = some segs →
      queryLoop d parts = Result.ret (Spec.resolve d segs).1 (Spec.resolve d segs).2 := by
  induction parts with
  | nil =>
    intro d segs _ hp
    simp only [Spec.parseParts, Option.some.injEq] at hp
    subst hp
    simp [queryLoop, Spec.resolve]
  | cons s ss ih =>
    intro d segs hfit hp
    unfold Spec.parseParts at hp
    split at hp
    · rename_i a b ha hb
      simp only [Option.some.injEq] at hp
      subst hp
      rcases parseSegment_shape s a ha with ⟨ho, hc, rfl⟩ | ⟨name, ds, rfl, ho, hc, hne, hall, rfl⟩
      · rw [queryLoop_plain d s ss (fun h => ho h.1)]
        cases d with
        | obj o =>
          simp only [List.singleton_append, Spec.resolve]
          cases hg : mapGet o s with
          | none => rfl
          | some v =>
            simp only [Json.fits] at hfit
            exact ih v b (fits_mapGet o s v hfit hg) hb
        | _ => simp [Spec.resolve]
      · have hq := queryLoop_bracket d name ds [] ss ho hc (not_mem_close_of_digits ds hall)
        rw [hq]
        cases d with
        | obj o =>
          simp only [List.cons_append, List.nil_append, Spec.resolve]
          cases hg : mapGet o name with
          | none => rfl
          | some x =>
            have hx : x.fits = true := by
              simp only [Json.fits] at hfit
              exact fits_mapGet o name x hfit hg
            cases x with
            | arr arr =>
              simp only [Json.fits, Bool.and_eq_true, decide_eq_true_eq] at hx
              simp only [Spec.resolve, atoi_digits ds hne hall]
              by_cases hbig : digitsVal ds < 2 ^ 63
              · simp only [hbig, if_true]
                by_cases hlt : digitsVal ds < arr.length
                · have hcond : (0 : Int) ≤ (digitsVal ds : Int) ∧
                      (digitsVal ds : Int) < (arr.length : Int) := by omega
                  rw [if_pos hcond, Int.toNat_ofNat]
                  cases he : arr[digitsVal ds]? with
                  | none =>
                    rw [List.getElem?_eq_none_iff] at he
                    omega
                  | some e =>
                    exact ih e b (fits_getElem arr _ e hx.2 he) hb
                · have hcond : ¬ ((0 : Int) ≤ (digitsVal ds : Int) ∧
                      (digitsVal ds : Int) < (arr.length : Int)) := by omega
                  rw [if_neg hcond]
                  have he : arr[digitsVal ds]? = none := by
                    rw [List.getElem?_eq_none_iff]; omega
                  simp only [he]
              · simp only [hbig, if_false]
                have he : arr[digitsVal ds]? = none := by
                  rw [List.getElem?_eq_none_iff]; omega
                simp only [he]
            | _ => simp [Spec.resolve]
        | _ => simp [Spec.resolve]
    · exact absurd hp (by simp)

/-! ## Single bracketed segment -/

/-- Value of `queryPath` on the one-segment path `k[X]` of an object. -/
theorem queryPath_single_bracket (o : Obj) (k X : Str)
    (hk : '.' ∉ k ∧ '[' ∉ k ∧ ']' ∉ k) (hX : '.' ∉ X ∧ ']' ∉ X) :
    queryPath (Json.obj o) (k ++ '[' :: (X ++ [']'])) =
      match mapGet o k with
      | some (Json.arr a) =>
        match atoi X with
        | some index =>
          if 0 ≤ index ∧ index < (a.length : Int) then
            match a[index.toNat]? with
            | some e => Result.ret e true
            | none => Result.panic
          else Result.ret Json.null false
        | none => Result.ret Json.null false
      | some _ => Result.ret Json.null false
      | none => Result.ret Json.null false := by
  have hne : k ++ '[' :: (X ++ [']']) ≠ [] := by simp
  have hdot : '.' ∉ k ++ '[' :: (X ++ [']']) := by
    simp only [List.mem_append, List.mem_cons, List.mem_singleton, List.not_mem_nil,
      not_or, or_false]
    exact ⟨hk.1, by decide, hX.1, by decide⟩
  unfold queryPath
  rw [if_neg hne, splitDot_of_not_mem _ hdot, queryLoop_bracket _ k X [] [] hk.2.1 hk.2.2 hX.2]
  simp only [queryLoop]

theorem parseDigits_eq_none (ds : Str) (h : ¬ (ds ≠ [] ∧ ds.all Char.isDigit = true)) :
    parseDigits ds = none := by
  unfold parseDigits
  rw [if_neg h]

/-- A token that is not numeric is rejected by `atoi`. -/
theorem atoi_of_not_numeric (X : Str) (h : ¬ isNumeric X) : atoi X = none := by
  cases X with
  | nil => rfl
  | cons c cs =>
    by_cases hp : c = '+'
    · subst hp
      have : parseDigits cs = none :=
        parseDigits_eq_none cs (fun hd => h ⟨cs, hd.1, hd.2, Or.inr (Or.inl rfl)⟩)
      simp only [atoi, if_true, this]
    · by_cases hm : c = '-'
      · subst hm
        have : parseDigits cs = none :=
          parseDigits_eq_none cs (fun hd => h ⟨cs, hd.1, hd.2, Or.inr (Or.inr rfl)⟩)
        simp only [atoi, hp, if_true, if_false, this]
      · have : parseDigits (c :: cs) = none :=
          parseDigits_eq_none (c :: cs) (fun hd => h ⟨c :: cs, hd.1, hd.2, Or.inl rfl⟩)
        simp only [atoi, hp, hm, if_false, this]

/-- A numeric token holds no whitespace. -/
theorem not_numeric_of_whitespace (X : Str) (c : Char) (hc : c ∈ X)
    (hw : c.isWhitespace = true) : ¬ isNumeric X := by
  have hd := not_isDigit_of_isWhitespace c hw
  rintro ⟨ds, _, hall, h | h | h⟩ <;> rw [h] at hc
  · exact not_mem_of_digits ds c hall hd hc
  · rcases List.mem_cons.1 hc with e | e
    · subst e; exact absurd hw (by decide)
    · exact not_mem_of_digits ds c hall hd e
  · rcases List.mem_cons.1 hc with e | e
    · subst e; exact absurd hw (by decide)
    · exact not_mem_of_digits ds c hall hd e

/-- The query loop either panics, reports not-found with `null`, or finds a value. -/
theorem queryLoop_outcomes (parts : List Str) (d : Json) :
    queryLoop d parts = Result.panic ∨ queryLoop d parts = Result.ret Json.null false ∨
      ∃ cur, queryLoop d parts = Result.ret cur true := by
  induction parts generalizing d with
  | nil => exact Or.inr (Or.inr ⟨d, rfl⟩)
  | cons part rest ih =>
    simp only [queryLoop]
    repeat' split
    all_goals first
      | exact ih _
      | exact Or.inl rfl
      | exact Or.inr (Or.inl rfl)

/-- A bracketed segment whose index token `atoi` rejects ends the loop with
`(null, false)`, whatever the current value. -/
theorem queryLoop_bracket_rejected (current : Json) (name X t : Str) (rest : List Str)
    (h1 : '[' ∉ name) (h2 : ']' ∉ name) (h3 : ']' ∉ X) (hn : atoi X = none) :
    queryLoop current ((name ++ '[' :: (X ++ ']' :: t)) :: rest) =
      Result.ret Json.null false := by
  rw [queryLoop_bracket current name X t rest h1 h2 h3]
  simp only [hn]
  repeat' split
  all_goals rfl

/-- Non-numeric index: when the segments before `name[X]` do not panic and `X`
is not numeric, `queryPath` returns `(null, false)`. -/
theorem queryPath_nonNumeric_index (d : Json) (path : Str) (pre post : List Str)
    (name X : Str) (hs : splitDot path = pre ++ (name ++ '[' :: (X ++ [']'])) :: post)
    (hname : '[' ∉ name ∧ ']' ∉ name) (hX : ']' ∉ X) (hnum : ¬ isNumeric X)
    (hpre : queryLoop d pre ≠ Result.panic) :
    queryPath d path = Result.ret Json.null false := by
  have hne : path ≠ [] := by
    rintro rfl
    cases pre with
    | nil =>
      simp only [splitDot, List.nil_append, List.cons.injEq] at hs
      exact absurd hs.1.symm (by simp)
    | cons p ps =>
      simp only [splitDot, List.cons_append, List.cons.injEq] at hs
      exact absurd hs.2.symm (by simp)
  unfold queryPath
  rw [if_neg hne, hs, queryLoop_append]
  rcases queryLoop_outcomes pre d with h | h | ⟨cur, h⟩
  · exact absurd h hpre
  · rw [h]; rfl
  · rw [h]
    simp only [Result.next]
    exact queryLoop_bracket_rejected cur name X [] post hname.1 hname.2 hX
      (atoi_of_not_numeric X hnum)

/-! ## Assignment along a path -/

theorem queryLoop_empty_object (parts : List Str) (hne : parts ≠ [])
    (hseg : ∀ seg ∈ parts, ¬ ('[' ∈ seg ∧ ']' ∈ seg)) :
    queryLoop (Json.obj []) parts = Result.ret Json.null false := by
  cases parts with
  | nil => exact absurd rfl hne
  | cons part rest =>
    rw [queryLoop_plain _ part rest (hseg part (List.mem_cons_self _ _))]
    rfl

/-- After the assignment loop, the query loop over the same plain parts finds
the value, provided no intermediate part is bound to a non-object. -/
theorem setLoop_queryLoop (parts : List Str) :
    ∀ (root : Obj) (v : Json), parts ≠ [] →
      (∀ seg ∈ parts, ¬ ('[' ∈ seg ∧ ']' ∈ seg)) →
      (∀ pre post, parts = pre ++ post → pre ≠ [] → post ≠ [] →
        queryLoop (Json.obj root) pre = Result.ret Json.null false ∨
          ∃ o, queryLoop (Json.obj root) pre = Result.ret (Json.obj o) true) →
      queryLoop (Json.obj (setLoop root parts v)) parts = Result.ret v true := by
  induction parts with
  | nil => intro _ _ h; exact absurd rfl h
  | cons part tl ih =>
    intro root v _ hseg hpre
    have hpart := hseg part (List.mem_cons_self _ _)
    cases tl with
    | nil =>
      rw [queryLoop_plain _ part [] hpart]
      simp only [setLoop, mapGet_mapSet_self, queryLoop]
    | cons next rest =>
      have hsegtl : ∀ seg ∈ next :: rest, ¬ ('[' ∈ seg ∧ ']' ∈ seg) :=
        fun seg hm => hseg seg (List.mem_cons_of_mem _ hm)
      have hfirst := hpre [part] (next :: rest) rfl (by simp) (by simp)
      rw [queryLoop_plain _ part [] hpart] at hfirst
      rw [queryLoop_plain _ part (next :: rest) hpart]
      cases hg : mapGet root part with
      | none =>
        simp only [setLoop, hg, mapGet_mapSet_self]
        apply ih [] v (by simp) hsegtl
        intro pre post hsplit hpne _
        left
        apply queryLoop_empty_object pre hpne
        intro seg hm
        exact hsegtl seg (by rw [hsplit]; exact List.mem_append_left _ hm)
      | some x =>
        simp only [hg, queryLoop] at hfirst
        rcases hfirst with h | ⟨o, h⟩
        · cases h
        · cases h
          simp only [setLoop, hg, mapGet_mapSet_self]
          apply ih o v (by simp) hsegtl
          intro pre post hsplit hpne hpost
          have := hpre (part :: pre) post (by rw [hsplit]; rfl) (by simp) hpost
          rw [queryLoop_plain _ part pre hpart] at this
          simpa only [hg] using this

/-- A collision below a chain of existing objects leaves the map as it was. -/
theorem setLoop_collision (pre : List Str) :
    ∀ (root cur : Obj) (k : Str) (post : List Str) (x v : Json), post ≠ [] →
      descend root pre = some cur → mapGet cur k = some x → (∀ o, x ≠ Json.obj o) →
      setLoop root (pre ++ k :: post) v = root := by
  induction pre with
  | nil =>
    intro root cur k post x v hpost hreach hx hno
    simp only [descend, Option.some.injEq] at hreach
    subst hreach
    cases post with
    | nil => exact absurd rfl hpost
    | cons n r =>
      cases x with
      | obj o => exact absurd rfl (hno o)
      | _ => simp only [List.nil_append, setLoop, hx]
  | cons a pre ih =>
    intro root cur k post x v hpost hreach hx hno
    cases hg : mapGet root a with
    | none => simp [descend, hg] at hreach
    | some y =>
      cases y with
      | obj o =>
        simp only [descend, hg] at hreach
        have hrec := ih o cur k post x v hpost hreach hx hno
        cases hp : pre ++ k :: post with
        | nil => simp at hp
        | cons n r =>
          rw [hp] at hrec
          simp only [List.cons_append, hp, setLoop, hg, hrec]
          exact mapSet_of_mapGet root a _ hg
      | _ => simp [descend, hg] at hreach

/-! ## Properties of `queryPath` -/

/-- C1: on every path that conforms to the grammar, `queryPath` returns what
the reference resolver returns on the parsed segments. -/
theorem queryPath_refines_resolver (d : Json) (path : Str) (segs : List Segment)
    (hfit : d.fits = true) (hp : Spec.parsePath path = some segs) :
    queryPath d path = Result.ret (Spec.resolve d segs).1 (Spec.resolve d segs).2 := by
  unfold Spec.parsePath at hp
  unfold queryPath
  by_cases he : path = []
  · rw [if_pos he] at hp
    simp only [Option.some.injEq] at hp
    subst hp
    rw [if_pos he]
    simp [Spec.resolve]
  · rw [if_neg he] at hp
    rw [if_neg he]
    exact queryLoop_refines (splitDot path) d segs hfit hp

/-- Witness for C1: `items[1].title` parses to
`[Field items, Index 1, Field title]` and resolves in the document. -/
theorem queryPath_refines_resolver_witness :
    queryPath (Json.obj [("items".toList, Json.arr [Json.num 7,
        Json.obj [("title".toList, Json.str "x".toList)]])]) "items[1].title".toList
      = Result.ret (Json.str "x".toList) true :=
  queryPath_refines_resolver
    (Json.obj [("items".toList, Json.arr [Json.num 7,
        Json.obj [("title".toList, Json.str "x".toList)]])])
    "items[1].title".toList
    [Segment.field "items".toList, Segment.index 1, Segment.field "title".toList]
    (by decide) (by rfl)

/-- C2, at the failing input: the specification promises that `queryPath`
never raises, but on the path `a]b[0]`, whose segment has `]` before `[`, the
slice `part[strings.Index(part, "[")+1 : strings.Index(part, "]")]` is
`part[4:1]` and the call panics, whatever the data. -/
theorem queryPath_reversed_brackets_panics (d : Json) :
    queryPath d "a]b[0]".toList = Result.panic := by
  rfl

/-- C3: with the empty path `queryPath` returns the value itself, found. -/
theorem queryPath_empty_path (v : Json) : queryPath v [] = Result.ret v true := by
  rfl

/-- C4: when the preceding segments reach a value `cur` and the final segment
is a plain field name that is absent from `cur`, or `cur` is not an object,
`queryPath` returns `(null, false)`; it does not panic. -/
theorem queryPath_final_field_absent (d cur : Json) (path : Str) (pre : List Str)
    (last : Str) (hne : path ≠ []) (hs : splitDot path = pre ++ [last])
    (hl : '[' ∉ last ∧ ']' ∉ last)
    (hpre : queryLoop d pre = Result.ret cur true)
    (habs : ∀ o, cur = Json.obj o → mapGet o last = none) :
    queryPath d path = Result.ret Json.null false := by
  unfold queryPath
  rw [if_neg hne, hs, queryLoop_append, hpre]
  simp only [Result.next]
  rw [queryLoop_plain cur last [] (fun h => hl.1 h.1)]
  cases cur with
  | obj o => simp only [habs o rfl]
  | _ => rfl

/-- Witness for C4: in `{"user": {"name": "Ann"}}` the path `user.age` ends in
a field that is absent from the object reached by `user`. -/
theorem queryPath_final_field_absent_witness :
    queryPath (Json.obj [("user".toList, Json.obj [("name".toList, Json.str "Ann".toList)])])
      "user.age".toList = Result.ret Json.null false :=
  queryPath_final_field_absent
    (Json.obj [("user".toList, Json.obj [("name".toList, Json.str "Ann".toList)])])
    (Json.obj [("name".toList, Json.str "Ann".toList)])
    "user.age".toList ["user".toList] "age".toList
    (by decide) (by decide) (by decide) (by rfl)
    (by intro o h; cases h; rfl)

/-- C5: in an object whose key `k` holds the array `arr`, the path `k[n]`, with
`n` written in decimal, yields `(arr[n], true)` when `n < len(arr)` and
`(null, false)` when `n ≥ len(arr)`; when `k` holds anything but an array it
yields `(null, false)`.  Array lengths are those of Go slices, below `2^63`. -/
theorem queryPath_array_index (o : Obj) (k : Str) (x : Json) (n : Nat)
    (hk : '.' ∉ k ∧ '[' ∉ k ∧ ']' ∉ k) (hg : mapGet o k = some x) :
    (∀ arr, x = Json.arr arr →
      (∀ h : n < arr.length, arr.length < 2 ^ 63 →
        queryPath (Json.obj o) (k ++ '[' :: (Nat.toDigits 10 n ++ [']'])) =
          Result.ret arr[n] true) ∧
      (arr.length ≤ n →
        queryPath (Json.obj o) (k ++ '[' :: (Nat.toDigits 10 n ++ [']'])) =
          Result.ret Json.null false)) ∧
    ((∀ arr, x ≠ Json.arr arr) →
      queryPath (Json.obj o) (k ++ '[' :: (Nat.toDigits 10 n ++ [']'])) =
        Result.ret Json.null false) := by
  obtain ⟨hne, hall, hval⟩ := toDigits_spec n
  have hX : '.' ∉ Nat.toDigits 10 n ∧ ']' ∉ Nat.toDigits 10 n :=
    ⟨not_mem_of_digits _ _ hall (by decide), not_mem_of_digits _ _ hall (by decide)⟩
  rw [queryPath_single_bracket o k _ hk hX, hg, atoi_digits _ hne hall, hval]
  refine ⟨?_, ?_⟩
  · rintro arr rfl
    refine ⟨?_, ?_⟩
    · intro h hlen
      have hbig : n < 2 ^ 63 := by omega
      have hcond : (0 : Int) ≤ (n : Int) ∧ (n : Int) < (arr.length : Int) := by omega
      simp only [hbig, if_true, if_pos hcond, Int.toNat_ofNat, List.getElem?_eq_getElem h]
    · intro h
      by_cases hbig : n < 2 ^ 63
      · have hcond : ¬ ((0 : Int) ≤ (n : Int) ∧ (n : Int) < (arr.length : Int)) := by omega
        simp only [hbig, if_true, if_neg hcond]
      · simp only [hbig, if_false]
  · intro hx
    cases x with
    | arr a => exact absurd rfl (hx a)
    | _ => rfl

/-- Witness for C5: in `{"m": [10, 20]}` the path `m[1]` yields `20`. -/
theorem queryPath_array_index_witness :
    queryPath (Json.obj [("m".toList, Json.arr [Json.num 10, Json.num 20])]) "m[1]".toList
      = Result.ret (Json.num 20) true :=
  ((queryPath_array_index [("m".toList, Json.arr [Json.num 10, Json.num 20])] "m".toList
      (Json.arr [Json.num 10, Json.num 20]) 1 (by decide) (by rfl)).1
    [Json.num 10, Json.num 20] rfl).1 (by decide) (by decide)

/-- C6, at the failing input: the path `a]b[0].items[x]` holds the segment
`items[x]` with a non-numeric index, for which the specification promises
`(null, false)`; the call panics in the first segment instead, whatever the
data.  This is the defect of C2. -/
theorem queryPath_nonNumeric_after_reversed_panics (d : Json) :
    queryPath d "a]b[0].items[x]".toList = Result.panic := by
  rfl

/-- C7, refuted as stated: in `{"m": [10, 20]}` the signed tokens `+1` and `-0`
resolve to elements, they do not yield `(null, false)`. -/
theorem queryPath_signed_index_counterexample :
    queryPath (Json.obj [("m".toList, Json.arr [Json.num 10, Json.num 20])]) "m[+1]".toList
        = Result.ret (Json.num 20) true ∧
      queryPath (Json.obj [("m".toList, Json.arr [Json.num 10, Json.num 20])]) "m[-0]".toList
        = Result.ret (Json.num 10) true ∧
      queryPath (Json.obj [("m".toList, Json.arr [Json.num 10, Json.num 20])]) "m[+1]".toList
        ≠ Result.ret Json.null false := by
  refine ⟨rfl, rfl, ?_⟩
  intro h
  have h2 : queryPath (Json.obj [("m".toList, Json.arr [Json.num 10, Json.num 20])])
      "m[+1]".toList = Result.ret (Json.num 20) true := rfl
  rw [h2] at h
  cases h

/-- C7, amended: in an object whose key `k` holds the array `a`, the index
token of `k[N]` is read by `strconv.Atoi`.  A digit string of value `n`, bare
or preceded by `+`, resolves to element `n` when `n < len(a)`; preceded by `-`
it resolves only when its value is zero, to element `0`; every token that is
not numeric, in particular one holding whitespace, yields `(null, false)`. -/
theorem queryPath_index_token (o : Obj) (k : Str) (a : List Json)
    (hk : '.' ∉ k ∧ '[' ∉ k ∧ ']' ∉ k) (hg : mapGet o k = some (Json.arr a))
    (hlen : a.length < 2 ^ 63) :
    (∀ ds : Str, ds ≠ [] → ds.all Char.isDigit = true →
      queryPath (Json.obj o) (k ++ '[' :: (ds ++ [']'])) = indexResult a (digitsVal ds) ∧
      queryPath (Json.obj o) (k ++ '[' :: (('+' :: ds) ++ [']'])) =
        indexResult a (digitsVal ds) ∧
      queryPath (Json.obj o) (k ++ '[' :: (('-' :: ds) ++ [']'])) =
        if digitsVal ds = 0 then indexResult a 0 else Result.ret Json.null false) ∧
    (∀ X : Str, '.' ∉ X → ']' ∉ X → ¬ isNumeric X →
      queryPath (Json.obj o) (k ++ '[' :: (X ++ [']'])) = Result.ret Json.null false) ∧
    (∀ (X : Str) (c : Char), '.' ∉ X → ']' ∉ X → c ∈ X → c.isWhitespace = true →
      queryPath (Json.obj o) (k ++ '[' :: (X ++ [']'])) = Result.ret Json.null false) := by
  have hrej : ∀ X : Str, '.' ∉ X → ']' ∉ X → ¬ isNumeric X →
      queryPath (Json.obj o) (k ++ '[' :: (X ++ [']'])) = Result.ret Json.null false := by
    intro X h1 h2 h3
    rw [queryPath_single_bracket o k X hk ⟨h1, h2⟩, hg, atoi_of_not_numeric X h3]
  have hpos : ∀ n : Nat, n < 2 ^ 63 →
      (if (0 : Int) ≤ (n : Int) ∧ (n : Int) < (a.length : Int) then
        match a[(n : Int).toNat]? with
        | some e => Result.ret e true
        | none => Result.panic
      else Result.ret Json.null false) = indexResult a n := by
    intro n _
    unfold indexResult
    by_cases hlt : n < a.length
    · have hcond : (0 : Int) ≤ (n : Int) ∧ (n : Int) < (a.length : Int) := by omega
      simp only [if_pos hcond, Int.toNat_ofNat, List.getElem?_eq_getElem hlt]
    · have hcond : ¬ ((0 : Int) ≤ (n : Int) ∧ (n : Int) < (a.length : Int)) := by omega
      have he : a[n]? = none := by rw [List.getElem?_eq_none_iff]; omega
      simp only [if_neg hcond, he]
  have hout : ∀ n : Nat, ¬ n < 2 ^ 63 → indexResult a n = Result.ret Json.null false := by
    intro n hn
    have he : a[n]? = none := by rw [List.getElem?_eq_none_iff]; omega
    simp only [indexResult, he]
  refine ⟨?_, hrej, ?_⟩
  · intro ds hne hall
    have hdot : '.' ∉ ds := not_mem_of_digits ds _ hall (by decide)
    have hcl : ']' ∉ ds := not_mem_of_digits ds _ hall (by decide)
    refine ⟨?_, ?_, ?_⟩
    · rw [queryPath_single_bracket o k ds hk ⟨hdot, hcl⟩, hg, atoi_digits ds hne hall]
      by_cases hbig : digitsVal ds < 2 ^ 63
      · simp only [hbig, if_true]
        exact hpos _ hbig
      · simp only [hbig, if_false]
        exact (hout _ hbig).symm
    · have h1 : '.' ∉ '+' :: ds := by
        simp only [List.mem_cons, not_or]; exact ⟨by decide, hdot⟩
      have h2 : ']' ∉ '+' :: ds := by
        simp only [List.mem_cons, not_or]; exact ⟨by decide, hcl⟩
      rw [queryPath_single_bracket o k ('+' :: ds) hk ⟨h1, h2⟩, hg, atoi_plus ds hne hall]
      by_cases hbig : digitsVal ds < 2 ^ 63
      · simp only [hbig, if_true]
        exact hpos _ hbig
      · simp only [hbig, if_false]
        exact (hout _ hbig).symm
    · have h1 : '.' ∉ '-' :: ds := by
        simp only [List.mem_cons, not_or]; exact ⟨by decide, hdot⟩
      have h2 : ']' ∉ '-' :: ds := by
        simp only [List.mem_cons, not_or]; exact ⟨by decide, hcl⟩
      rw [queryPath_single_bracket o k ('-' :: ds) hk ⟨h1, h2⟩, hg, atoi_minus ds hne hall]
      by_cases hz : digitsVal ds = 0
      · have hle : digitsVal ds ≤ 2 ^ 63 := by omega
        simp only [hle, hz, if_true]
        have := hpos 0 (by norm_num)
        simpa using this
      · simp only [hz, if_false]
        by_cases hle : digitsVal ds ≤ 2 ^ 63
        · have hcond : ¬ ((0 : Int) ≤ -(digitsVal ds : Int) ∧
              -(digitsVal ds : Int) < (a.length : Int)) := by omega
          simp only [hle, if_true, if_neg hcond]
        · simp only [hle, if_false]
  · intro X c h1 h2 hc hw
    exact hrej X h1 h2 (not_numeric_of_whitespace X c hc hw)

/-- Witness for C7 as amended: in `{"m": [10, 20]}` the path `m[+1]` yields
element `1`. -/
theorem queryPath_index_token_witness :
    queryPath (Json.obj [("m".toList, Json.arr [Json.num 10, Json.num 20])]) "m[+1]".toList
      = Result.ret (Json.num 20) true :=
  ((queryPath_index_token [("m".toList, Json.arr [Json.num 10, Json.num 20])] "m".toList
      [Json.num 10, Json.num 20] (by decide) (by rfl) (by decide)).1
    "1".toList (by decide) (by decide)).2.1

/-! ## Properties of `setPath` -/

/-- C8: for a non-empty path none of whose segments holds both brackets, if
every proper prefix of segments is absent from `root` or resolves to an
object, then after `setPath(root, p, v)` the query `queryPath(root, p)` returns
`(v, true)`; on the empty object this holds outright, the intermediate objects
being created. -/
theorem setPath_queryPath_roundtrip (root : Obj) (p : Str) (v : Json) (hne : p ≠ [])
    (hseg : ∀ seg ∈ splitDot p, ¬ ('[' ∈ seg ∧ ']' ∈ seg)) :
    ((∀ pre post, splitDot p = pre ++ post → pre ≠ [] → post ≠ [] →
        queryLoop (Json.obj root) pre = Result.ret Json.null false ∨
          ∃ o, queryLoop (Json.obj root) pre = Result.ret (Json.obj o) true) →
      queryPath (Json.obj (setPath root p v)) p = Result.ret v true) ∧
    queryPath (Json.obj (setPath [] p v)) p = Result.ret v true := by
  unfold queryPath setPath
  simp only [if_neg hne]
  refine ⟨?_, ?_⟩
  · intro hpre
    exact setLoop_queryLoop (splitDot p) root v (splitDot_ne_nil p) hseg hpre
  · apply setLoop_queryLoop (splitDot p) [] v (splitDot_ne_nil p) hseg
    intro pre post hsplit hpne _
    left
    apply queryLoop_empty_object pre hpne
    intro seg hm
    exact hseg seg (by rw [hsplit]; exact List.mem_append_left _ hm)

/-- Witness for C8: in `{"a": {"x": 1}}` the prefix `a` of `a.b` resolves to
an object, and after the assignment the query finds the value. -/
theorem setPath_queryPath_roundtrip_witness :
    queryPath (Json.obj (setPath [("a".toList, Json.obj [("x".toList, Json.num 1)])]
        "a.b".toList (Json.num 2))) "a.b".toList = Result.ret (Json.num 2) true :=
  (setPath_queryPath_roundtrip [("a".toList, Json.obj [("x".toList, Json.num 1)])]
      "a.b".toList (Json.num 2) (by decide) (by decide)).1 (by
    intro pre post h hp hq
    have h2 : ["a".toList, "b".toList] = pre ++ post := h
    rcases pre with _ | ⟨x, _ | ⟨y, pre⟩⟩
    · exact absurd rfl hp
    · simp only [List.singleton_append, List.cons.injEq] at h2
      obtain ⟨hx, _⟩ := h2
      subst hx
      exact Or.inr ⟨_, rfl⟩
    · simp only [List.cons_append, List.cons.injEq] at h2
      obtain ⟨_, _, h3⟩ := h2
      have h4 := congrArg List.length h3
      simp only [List.length_nil, List.length_append] at h4
      have : post = [] := List.eq_nil_of_length_eq_zero (by omega)
      exact absurd this hq)

/-- C9: when a non-final segment `k` of the path is present in the object
reached so far and bound to a non-object, `setPath` leaves `root` unchanged. -/
theorem setPath_collision_unchanged (root : Obj) (p : Str) (v : Json)
    (pre post : List Str) (k : Str) (cur : Obj) (x : Json)
    (hs : splitDot p = pre ++ k :: post) (hpost : post ≠ [])
    (hreach : descend root pre = some cur) (hx : mapGet cur k = some x)
    (hno : ∀ o, x ≠ Json.obj o) :
    setPath root p v = root := by
  unfold setPath
  split
  · rfl
  · rw [hs]
    exact setLoop_collision pre root cur k post x v hpost hreach hx hno

/-- Witness for C9: in `{"a": {"b": 5}}` the path `a.b.c` meets the number
bound to `b`, and nothing is written. -/
theorem setPath_collision_unchanged_witness :
    setPath [("a".toList, Json.obj [("b".toList, Json.num 5)])] "a.b.c".toList (Json.num 1)
      = [("a".toList, Json.obj [("b".toList, Json.num 5)])] :=
  setPath_collision_unchanged [("a".toList, Json.obj [("b".toList, Json.num 5)])]
    "a.b.c".toList (Json.num 1) ["a".toList] ["c".toList] "b".toList
    [("b".toList, Json.num 5)] (Json.num 5) (by decide) (by decide) (by rfl) (by rfl)
    (by intro o h; cases h)

/-- C10: for a non-empty dot-free key `k`, `setPath(root, k, v)` binds `k` to
`v`, whatever it held before, and leaves every other key bound as before. -/
theorem setPath_single_key (root : Obj) (k : Str) (v : Json) (hne : k ≠ [])
    (hdot : '.' ∉ k) :
    mapGet (setPath root k v) k = some v ∧
      ∀ k', k' ≠ k → mapGet (setPath root k v) k' = mapGet root k' := by
  have h : setPath root k v = mapSet root k v := by
    unfold setPath
    rw [if_neg hne, splitDot_of_not_mem k hdot]
    rfl
  rw [h]
  exact ⟨mapGet_mapSet_self root k v, fun k' hk => mapGet_mapSet_ne root k k' v hk⟩

/-- Witness for C10: in `{"k": {"x": 1}, "j": 2}` assigning `9` at `k`
overwrites the object and keeps `j`. -/
theorem setPath_single_key_witness :
    mapGet (setPath [("k".toList, Json.obj [("x".toList, Json.num 1)]),
        ("j".toList, Json.num 2)] "k".toList (Json.num 9)) "k".toList = some (Json.num 9) ∧
      mapGet (setPath [("k".toList, Json.obj [("x".toList, Json.num 1)]),
        ("j".toList, Json.num 2)] "k".toList (Json.num 9)) "j".toList = some (Json.num 2) :=
  ⟨(setPath_single_key [("k".toList, Json.obj [("x".toList, Json.num 1)]),
        ("j".toList, Json.num 2)] "k".toList (Json.num 9) (by decide) (by decide)).1,
    (setPath_single_key [("k".toList, Json.obj [("x".toList, Json.num 1)]),
        ("j".toList, Json.num 2)] "k".toList (Json.num 9) (by decide) (by decide)).2
      "j".toList (by decide)⟩

/-- C11: with the empty path `setPath` leaves `root` unchanged. -/
theorem setPath_empty_path (root : Obj) (v : Json) : setPath root [] v = root := by
  rfl

/-- On an empty object the path `k[n]` is written as one literal key; with a
bracket-free `k` the query on the result reports `(null, false)`. -/
theorem setPath_index_segment_literal (k n : Str) (v : Json) (hk : '.' ∉ k)
    (hn : n.all Char.isDigit = true) :
    setPath [] (k ++ '[' :: (n ++ [']'])) v = [(k ++ '[' :: (n ++ [']']), v)] ∧
    ('[' ∉ k ∧ ']' ∉ k →
      queryPath (Json.obj (setPath [] (k ++ '[' :: (n ++ [']'])) v))
        (k ++ '[' :: (n ++ [']'])) = Result.ret Json.null false) := by
  have hne : k ++ '[' :: (n ++ [']']) ≠ [] := by simp
  have hnd : '.' ∉ n := not_mem_of_digits n _ hn (by decide)
  have hnc : ']' ∉ n := not_mem_of_digits n _ hn (by decide)
  have hdot : '.' ∉ k ++ '[' :: (n ++ [']']) := by
    simp only [List.mem_append, List.mem_cons, List.mem_singleton, List.not_mem_nil,
      not_or, or_false]
    exact ⟨hk, by decide, hnd, by decide⟩
  have hset : setPath [] (k ++ '[' :: (n ++ [']'])) v = [(k ++ '[' :: (n ++ [']']), v)] := by
    unfold setPath
    rw [if_neg hne, splitDot_of_not_mem _ hdot]
    rfl
  refine ⟨hset, ?_⟩
  rintro ⟨ho, hc⟩
  rw [hset, queryPath_single_bracket _ k n ⟨hk, ho, hc⟩ ⟨hnd, hnc⟩]
  have hkey : k ++ '[' :: (n ++ [']']) ≠ k := by
    intro h
    have := congrArg List.length h
    simp at this
  simp only [mapGet, hkey, if_false]

/-- C12, at the failing input: for the dot-free name `a]` and the digit string
`0`, `setPath` on the empty object does store the value under the literal key
`a][0]`, but `queryPath` on the result with the same path panics instead of
returning `(null, false)`: the segment has `]` before `[`, the defect of C2.
For every dot-free `k` the assignment creates the single literal key `k[n]`,
and for every bracket-free `k` the query returns `(null, false)`. -/
theorem queryPath_literal_index_key_panics :
    (∀ v : Json, setPath [] "a][0]".toList v = [("a][0]".toList, v)] ∧
      queryPath (Json.obj (setPath [] "a][0]".toList v)) "a][0]".toList = Result.panic) ∧
    (∀ (k n : Str) (v : Json), '.' ∉ k → n.all Char.isDigit = true →
      setPath [] (k ++ '[' :: (n ++ [']'])) v = [(k ++ '[' :: (n ++ [']']), v)] ∧
      ('[' ∉ k ∧ ']' ∉ k →
        queryPath (Json.obj (setPath [] (k ++ '[' :: (n ++ [']'])) v))
          (k ++ '[' :: (n ++ [']'])) = Result.ret Json.null false)) :=
  ⟨fun _ => ⟨rfl, rfl⟩, fun k n v hk hn => setPath_index_segment_literal k n v hk hn⟩

/-! ## Properties of `executeTransform` -/

/-- C16: with the single rule `old ↦ new`, `new` a non-empty dot-free key, and
`queryPath(data, old) = (v, true)`, the transform returns exactly the one-entry
object `{new: v}`. -/
theorem executeTransform_single_rule (data : Json) (old new : Str) (v : Json)
    (hne : new ≠ []) (hdot : '.' ∉ new) (hq : queryPath data old = Result.ret v true) :
    executeTransform data [(old, Json.str new)] = some [(new, v)] := by
  have hset : setPath [] new v = [(new, v)] := by
    unfold setPath
    rw [if_neg hne, splitDot_of_not_mem new hdot]
    rfl
  simp only [executeTransform, transformLoop, transformStep, hq, hset]

/-- Witness for C16: `transform({"user":{"name":"Ann"}}, {"user.name":"fullName"})`
is `{"fullName":"Ann"}`. -/
theorem executeTransform_single_rule_witness :
    executeTransform
        (Json.obj [("user".toList, Json.obj [("name".toList, Json.str "Ann".toList)])])
        [("user.name".toList, Json.str "fullName".toList)]
      = some [("fullName".toList, Json.str "Ann".toList)] :=
  executeTransform_single_rule
    (Json.obj [("user".toList, Json.obj [("name".toList, Json.str "Ann".toList)])])
    "user.name".toList "fullName".toList (Json.str "Ann".toList)
    (by decide) (by decide) (by rfl)

theorem transformLoop_append (data : Json) (pre post : List (Str × Json)) (res : Obj) :
    transformLoop data (pre ++ post) res =
      (transformLoop data pre res).bind (fun r => transformLoop data post r) := by
  induction pre generalizing res with
  | nil => rfl
  | cons rule pre ih =>
    simp only [List.cons_append, transformLoop]
    cases transformStep data res rule with
    | none => rfl
    | some r => exact ih r

theorem transformStep_not_found (data : Json) (res : Obj) (rule : Str × Json) (x : Json)
    (hq : queryPath data rule.1 = Result.ret x false) :
    transformStep data res rule = some res := by
  unfold transformStep
  split
  · simp only [hq]
  · rfl

theorem transformLoop_all_not_found (data : Json) (rules : List (Str × Json)) (res : Obj)
    (h : ∀ r ∈ rules, ∃ y, queryPath data r.1 = Result.ret y false) :
    transformLoop data rules res = some res := by
  induction rules with
  | nil => rfl
  | cons rule rest ih =>
    obtain ⟨y, hy⟩ := h rule (List.mem_cons_self _ _)
    simp only [transformLoop, transformStep_not_found data res rule y hy]
    exact ih (fun r hr => h r (List.mem_cons_of_mem _ hr))

/-- C17: a rule whose source path is not found writes nothing and raises no
error: its step returns `result` as it was, and the transform is that of the
mapping set without the rule; when no other rule resolves either, the result is
the empty object. -/
theorem executeTransform_skips_not_found (data : Json) (pre post : List (Str × Json))
    (rule : Str × Json) (x : Json) (hq : queryPath data rule.1 = Result.ret x false) :
    (∀ res, transformStep data res rule = some res) ∧
    executeTransform data (pre ++ rule :: post) = executeTransform data (pre ++ post) ∧
    ((∀ r ∈ pre ++ post, ∃ y, queryPath data r.1 = Result.ret y false) →
      executeTransform data (pre ++ rule :: post) = some []) := by
  have hstep : ∀ res, transformStep data res rule = some res :=
    fun res => transformStep_not_found data res rule x hq
  have heq : executeTransform data (pre ++ rule :: post) = executeTransform data (pre ++ post) := by
    unfold executeTransform
    rw [transformLoop_append, transformLoop_append]
    cases transformLoop data pre [] with
    | none => rfl
    | some r => simp only [Option.bind, transformLoop, hstep r]
  refine ⟨hstep, heq, ?_⟩
  intro hall
  rw [heq]
  exact transformLoop_all_not_found data (pre ++ post) [] hall

/-- Witness for C17: `transform({}, {"missing.path":"out"})` is `{}`. -/
theorem executeTransform_skips_not_found_witness :
    executeTransform (Json.obj []) [("missing.path".toList, Json.str "out".toList)] = some [] :=
  (executeTransform_skips_not_found (Json.obj []) [] []
      ("missing.path".toList, Json.str "out".toList) Json.null (by rfl)).2.2
    (by intro r hr; cases hr)

/-! ## Properties of `executeValidate` -/

/-- The required-field loop appends the prescribed messages and clears `valid`
when there is one, provided no listed path makes `queryPath` panic. -/
theorem validateLoop_spec (data : Json) (fields : List Json) :
    ∀ (valid : Bool) (errors : List Str),
      (∀ p, Json.str p ∈ fields → queryPath data p ≠ Result.panic) →
      validateLoop data fields valid errors =
        some (valid && (expectedErrors data fields).isEmpty,
              errors ++ expectedErrors data fields) := by
  induction fields with
  | nil => intro valid errors _; simp [validateLoop, expectedErrors]
  | cons f rest ih =>
    intro valid errors hp
    have hrest : ∀ p, Json.str p ∈ rest → queryPath data p ≠ Result.panic :=
      fun p hm => hp p (List.mem_cons_of_mem _ hm)
    cases f with
    | str p =>
      have hnp := hp p (List.mem_cons_self _ _)
      cases hq : queryPath data p with
      | panic => exact absurd hq hnp
      | ret x found =>
        cases found with
        | true =>
          simp only [validateLoop, hq, expectedErrors, List.filterMap_cons]
          exact ih valid errors hrest
        | false =>
          simp only [validateLoop, hq, expectedErrors, List.filterMap_cons]
          rw [ih false (errors ++ [missingMsg p]) hrest]
          simp [expectedErrors]
    | _ =>
      simp only [validateLoop, expectedErrors, List.filterMap_cons]
      exact ih valid errors hrest

/-- Required fields: when the text decodes to `data` and no listed path makes
`queryPath` panic, `validate` returns exactly the prescribed error list, and
`valid` is false exactly when that list is not empty. -/
theorem executeValidate_required_fields (unmarshal : Str → Except Str Json)
    (jsonStr : Str) (data : Json) (fields : List Json)
    (hd : unmarshal jsonStr = Except.ok data)
    (hp : ∀ p, Json.str p ∈ fields → queryPath data p ≠ Result.panic) :
    executeValidate unmarshal jsonStr (some fields) =
      some ((expectedErrors data fields).isEmpty, expectedErrors data fields) := by
  simp only [executeValidate, hd]
  rw [validateLoop_spec data fields true [] hp]
  simp

/-- C19, at the failing input: the text `{"a":1}` decodes and the required list
is `["a]b[0]"]`; the specification promises the error list
`["Required field missing: a]b[0]"]`, but the call panics in `queryPath`; this
is the defect of C2.  Whenever no listed path makes `queryPath` panic,
`validate` returns exactly the prescribed messages, one per missing path in
the order of the list, and `valid` is false exactly when there is one. -/
theorem executeValidate_panics_on_reversed_brackets :
    executeValidate (fun _ => Except.ok (Json.obj [("a".toList, Json.num 1)]))
      "\x7b\"a\":1\x7d".toList (some [Json.str "a]b[0]".toList]) = none ∧
    (∀ (unmarshal : Str → Except Str Json) (jsonStr : Str) (data : Json) (fields : List Json),
      unmarshal jsonStr = Except.ok data →
      (∀ p, Json.str p ∈ fields → queryPath data p ≠ Result.panic) →
      executeValidate unmarshal jsonStr (some fields) =
        some ((expectedErrors data fields).isEmpty, expectedErrors data fields)) :=
  ⟨rfl, executeValidate_required_fields⟩

/-- C20: when the text fails to decode, `validate` returns `valid = false`
with exactly one error, the parse-failure message, whatever the required list;
no required-field message appears. -/
theorem executeValidate_decode_failure (unmarshal : Str → Except Str Json) (jsonStr err : Str)
    (required : Option (List Json)) (h : unmarshal jsonStr = Except.error err) :
    ∃ errors, executeValidate unmarshal jsonStr required = some (false, errors) ∧
      errors = [invalidMsg err] ∧ errors.length = 1 ∧ ∀ p, missingMsg p ∉ errors := by
  refine ⟨[invalidMsg err], ?_, rfl, rfl, ?_⟩
  · simp only [executeValidate, h]
  · intro p hm
    simp only [List.mem_singleton] at hm
    have := congrArg List.head? hm
    simp [missingMsg, invalidMsg] at this

/-- Witness for C20: the text `{not json` with a decoder that rejects it; the
required path `a]b[0]`, on which `queryPath` would panic, is never queried. -/
theorem executeValidate_decode_failure_witness :
    ∃ errors, executeValidate (fun _ => Except.error "invalid character".toList)
        "\x7bnot json".toList (some [Json.str "a]b[0]".toList]) = some (false, errors) ∧
      errors = [invalidMsg "invalid character".toList] ∧ errors.length = 1 ∧
      ∀ p, missingMsg p ∉ errors :=
  executeValidate_decode_failure (fun _ => Except.error "invalid character".toList)
    "\x7bnot json".toList "invalid character".toList (some [Json.str "a]b[0]".toList]) rfl

/-! ## Structural equality -/

theorem objEquiv_refl (o : Obj) : ObjEquiv o o :=
  ⟨fun _ => Iff.rfl, fun _ x y hx hy => by
    rw [hx] at hy
    cases hy
    exact Json.Equiv.refl x⟩

theorem objEquiv_of_pointwise (o1 o2 : Obj) (h : ∀ k, mapGet o1 k = mapGet o2 k) :
    ObjEquiv o1 o2 :=
  ⟨fun k => by rw [h k], fun k x y hx hy => by
    rw [h k, hy] at hx
    cases hx
    exact Json.Equiv.refl x⟩

theorem jsonEquiv_obj_iff (o1 o2 : Obj) :
    Json.Equiv (Json.obj o1) (Json.obj o2) ↔ ObjEquiv o1 o2 := by
  constructor
  · intro h
    cases h with
    | refl => exact objEquiv_refl o1
    | obj _ _ hk hv => exact ⟨hk, hv⟩
  · intro h
    exact Json.Equiv.obj o1 o2 h.1 h.2

/-- A value structurally equal to an object is an object. -/
theorem jsonEquiv_obj_left (o1 : Obj) (y : Json) (h : Json.Equiv (Json.obj o1) y) :
    ∃ o2, y = Json.obj o2 ∧ ObjEquiv o1 o2 := by
  cases h with
  | refl => exact ⟨o1, rfl, objEquiv_refl o1⟩
  | obj _ o2 hk hv => exact ⟨o2, rfl, hk, hv⟩

theorem jsonEquiv_obj_right (x : Json) (o2 : Obj) (h : Json.Equiv x (Json.obj o2)) :
    ∃ o1, x = Json.obj o1 ∧ ObjEquiv o1 o2 := by
  cases h with
  | refl => exact ⟨o2, rfl, objEquiv_refl o2⟩
  | obj o1 _ hk hv => exact ⟨o1, rfl, hk, hv⟩

theorem jsonEquiv_arr_left (a : List Json) (y : Json) (h : Json.Equiv (Json.arr a) y) :
    ∃ b, y = Json.arr b ∧ a.length = b.length ∧
      ∀ (i : Nat) (x z : Json), a[i]? = some x → b[i]? = some z → Json.Equiv x z := by
  cases h with
  | refl =>
    refine ⟨a, rfl, rfl, fun i x z hx hz => ?_⟩
    rw [hx] at hz
    cases hz
    exact Json.Equiv.refl x
  | arr _ b hl hv => exact ⟨b, rfl, hl, hv⟩

theorem jsonEquiv_trans {x y z : Json} (h1 : Json.Equiv x y) (h2 : Json.Equiv y z) :
    Json.Equiv x z := by
  induction h1 generalizing z with
  | refl => exact h2
  | obj o1 o2 hk hv ih =>
    obtain ⟨o3, rfl, hk3, hv3⟩ := jsonEquiv_obj_left o2 z h2
    refine Json.Equiv.obj o1 o3 (fun k => (hk k).trans (hk3 k)) ?_
    intro k x z hx hz
    cases hy : mapGet o2 k with
    | none =>
      rw [(hk k).2 hy] at hx
      cases hx
    | some y => exact ih k x y hx hy (hv3 k y z hy hz)
  | arr a b hl hv ih =>
    obtain ⟨c, rfl, hl3, hv3⟩ := jsonEquiv_arr_left b z h2
    refine Json.Equiv.arr a c (hl.trans hl3) ?_
    intro i x z hx hz
    cases hy : b[i]? with
    | none =>
      rw [List.getElem?_eq_none_iff] at hy
      have hi : i < a.length := by
        rcases List.getElem?_eq_some_iff.1 hx with ⟨hi, _⟩
        exact hi
      omega
    | some y => exact ih i x y hx hy (hv3 i y z hy hz)

theorem objEquiv_trans {o1 o2 o3 : Obj} (h1 : ObjEquiv o1 o2) (h2 : ObjEquiv o2 o3) :
    ObjEquiv o1 o3 :=
  (jsonEquiv_obj_iff o1 o3).1
    (jsonEquiv_trans ((jsonEquiv_obj_iff o1 o2).2 h1) ((jsonEquiv_obj_iff o2 o3).2 h2))

theorem outcomeEquiv_refl (r : Option Obj) : OutcomeEquiv r r := by
  cases r with
  | none => exact True.intro
  | some o => exact Json.Equiv.refl _

theorem outcomeEquiv_trans {r1 r2 r3 : Option Obj} (h1 : OutcomeEquiv r1 r2)
    (h2 : OutcomeEquiv r2 r3) : OutcomeEquiv r1 r3 := by
  cases r1 <;> cases r2 <;> cases r3 <;> simp only [OutcomeEquiv] at h1 h2 ⊢
  exact jsonEquiv_trans h1 h2

/-! ## Assignments commute on destinations that do not overlap -/

/-- The assignment loop leaves every key other than its first segment as bound
before. -/
theorem mapGet_setLoop_ne (root : Obj) (a : Str) (rest : List Str) (v : Json) (k : Str)
    (hk : k ≠ a) : mapGet (setLoop root (a :: rest) v) k = mapGet root k := by
  cases rest with
  | nil => exact mapGet_mapSet_ne root a k v hk
  | cons next rest =>
    cases hg : mapGet root a with
    | none => simp only [setLoop, hg, mapGet_mapSet_ne root a k _ hk]
    | some x =>
      cases x <;> simp only [setLoop, hg, mapGet_mapSet_ne root a k _ hk]

/-- The assignment loop binds its first segment as `setBinding` says. -/
theorem mapGet_setLoop_self (root : Obj) (a : Str) (rest : List Str) (v : Json) :
    mapGet (setLoop root (a :: rest) v) a = setBinding (mapGet root a) rest v := by
  cases rest with
  | nil => simp only [setLoop, setBinding, mapGet_mapSet_self]
  | cons next rest =>
    cases hg : mapGet root a with
    | none => simp only [setLoop, hg, setBinding, mapGet_mapSet_self]
    | some x =>
      cases x <;> simp only [setLoop, hg, setBinding, mapGet_mapSet_self]

/-- The binding after the loop respects structural equality of the binding
before, given that the loop on the remaining segments does. -/
theorem setBinding_congr (rest : List Str) (v : Json)
    (ih : ∀ r1 r2, ObjEquiv r1 r2 → ObjEquiv (setLoop r1 rest v) (setLoop r2 rest v))
    (c1 c2 : Option Json) (hn : c1 = none ↔ c2 = none)
    (hv : ∀ x y, c1 = some x → c2 = some y → Json.Equiv x y) :
    (setBinding c1 rest v = none ↔ setBinding c2 rest v = none) ∧
      ∀ x y, setBinding c1 rest v = some x → setBinding c2 rest v = some y →
        Json.Equiv x y := by
  cases rest with
  | nil =>
    simp only [setBinding]
    refine ⟨by simp, ?_⟩
    intro x y hx hy
    cases hx
    cases hy
    exact Json.Equiv.refl _
  | cons next rest =>
    cases c1 with
    | none =>
      have h2 : c2 = none := hn.1 rfl
      subst h2
      simp only [setBinding]
      refine ⟨by simp, ?_⟩
      intro x y hx hy
      cases hx
      cases hy
      exact Json.Equiv.refl _
    | some x1 =>
      cases c2 with
      | none => exact absurd (hn.2 rfl) (by simp)
      | some x2 =>
        have he : Json.Equiv x1 x2 := hv x1 x2 rfl rfl
        cases x1 with
        | obj o1 =>
          obtain ⟨o2, rfl, ho⟩ := jsonEquiv_obj_left o1 x2 he
          simp only [setBinding]
          refine ⟨by simp, ?_⟩
          intro x y hx hy
          cases hx
          cases hy
          exact (jsonEquiv_obj_iff _ _).2 (ih o1 o2 ho)
        | _ =>
          cases x2 with
          | obj o2 =>
            obtain ⟨o1, h, _⟩ := jsonEquiv_obj_right _ o2 he
            cases h
          | _ =>
            simp only [setBinding]
            refine ⟨by simp, ?_⟩
            intro x y hx hy
            cases hx
            cases hy
            exact he

/-- The assignment loop respects structural equality of the map it writes to. -/
theorem setLoop_congr (parts : List Str) (v : Json) :
    ∀ r1 r2, ObjEquiv r1 r2 → ObjEquiv (setLoop r1 parts v) (setLoop r2 parts v) := by
  induction parts with
  | nil => intro r1 r2 h; simpa only [setLoop] using h
  | cons a rest ih =>
    intro r1 r2 h
    have hb := setBinding_congr rest v ih (mapGet r1 a) (mapGet r2 a) (h.1 a) (h.2 a)
    constructor
    · intro k
      by_cases hk : k = a
      · subst hk
        rw [mapGet_setLoop_self, mapGet_setLoop_self]
        exact hb.1
      · rw [mapGet_setLoop_ne _ _ _ _ _ hk, mapGet_setLoop_ne _ _ _ _ _ hk]
        exact h.1 k
    · intro k x y hx hy
      by_cases hk : k = a
      · subst hk
        rw [mapGet_setLoop_self] at hx hy
        exact hb.2 x y hx hy
      · rw [mapGet_setLoop_ne _ _ _ _ _ hk] at hx hy
        exact h.2 k x y hx hy

theorem setBinding_comm (P Q : List Str) (v w : Json) (hP : P ≠ []) (hQ : Q ≠ [])
    (ih : ∀ root, ObjEquiv (setLoop (setLoop root P v) Q w) (setLoop (setLoop root Q w) P v))
    (c : Option Json) :
    (setBinding (setBinding c P v) Q w = none ↔ setBinding (setBinding c Q w) P v = none) ∧
      ∀ x y, setBinding (setBinding c P v) Q w = some x →
        setBinding (setBinding c Q w) P v = some y → Json.Equiv x y := by
  cases P with
  | nil => exact absurd rfl hP
  | cons p P =>
    cases Q with
    | nil => exact absurd rfl hQ
    | cons q Q =>
      cases c with
      | none =>
        simp only [setBinding]
        refine ⟨by simp, ?_⟩
        intro x y hx hy
        cases hx
        cases hy
        exact (jsonEquiv_obj_iff _ _).2 (ih [])
      | some x0 =>
        cases x0 with
        | obj o =>
          simp only [setBinding]
          refine ⟨by simp, ?_⟩
          intro x y hx hy
          cases hx
          cases hy
          exact (jsonEquiv_obj_iff _ _).2 (ih o)
        | _ =>
          simp only [setBinding]
          refine ⟨by simp, ?_⟩
          intro x y hx hy
          cases hx
          cases hy
          exact Json.Equiv.refl _

/-- Two assignment loops commute, up to structural equality, when neither
segment list is a prefix of the other. -/
theorem setLoop_comm (P : List Str) :
    ∀ (Q : List Str) (root : Obj) (v w : Json), ¬ P <+: Q → ¬ Q <+: P →
      ObjEquiv (setLoop (setLoop root P v) Q w) (setLoop (setLoop root Q w) P v) := by
  induction P with
  | nil => intro Q _ _ _ h; exact absurd (List.nil_prefix) h
  | cons a P ih =>
    intro Q root v w hpq hqp
    cases Q with
    | nil => exact absurd (List.nil_prefix) hqp
    | cons b Q =>
      by_cases hab : a = b
      · subst hab
        have hpq2 : ¬ P <+: Q := fun h => hpq (List.cons_prefix_cons.2 ⟨rfl, h⟩)
        have hqp2 : ¬ Q <+: P := fun h => hqp (List.cons_prefix_cons.2 ⟨rfl, h⟩)
        have hP : P ≠ [] := by rintro rfl; exact hpq2 List.nil_prefix
        have hQ : Q ≠ [] := by rintro rfl; exact hqp2 List.nil_prefix
        have hb := setBinding_comm P Q v w hP hQ (fun r => ih Q r v w hpq2 hqp2)
          (mapGet root a)
        constructor
        · intro k
          by_cases hk : k = a
          · subst hk
            simp only [mapGet_setLoop_self]
            exact hb.1
          · simp only [mapGet_setLoop_ne _ _ _ _ _ hk]
        · intro k x y hx hy
          by_cases hk : k = a
          · subst hk
            simp only [mapGet_setLoop_self] at hx hy
            exact hb.2 x y hx hy
          · simp only [mapGet_setLoop_ne _ _ _ _ _ hk] at hx hy
            rw [hx] at hy
            cases hy
            exact Json.Equiv.refl _
      · apply objEquiv_of_pointwise
        intro k
        by_cases hka : k = a
        · subst hka
          rw [mapGet_setLoop_ne _ b _ _ _ hab, mapGet_setLoop_self, mapGet_setLoop_self,
            mapGet_setLoop_ne _ b _ _ _ hab]
        · by_cases hkb : k = b
          · subst hkb
            rw [mapGet_setLoop_self, mapGet_setLoop_ne _ a _ _ _ hka, mapGet_setLoop_ne _ a _ _ _ hka,
              mapGet_setLoop_self]
          · rw [mapGet_setLoop_ne _ b _ _ _ hkb, mapGet_setLoop_ne _ a _ _ _ hka,
              mapGet_setLoop_ne _ a _ _ _ hka, mapGet_setLoop_ne _ b _ _ _ hkb]

theorem setPath_congr (p : Str) (v : Json) (r1 r2 : Obj) (h : ObjEquiv r1 r2) :
    ObjEquiv (setPath r1 p v) (setPath r2 p v) := by
  unfold setPath
  split
  · exact h
  · exact setLoop_congr _ v r1 r2 h

/-- Lemma behind C14: `setPath(p, v)` and `setPath(q, w)` commute on every
object when `p` and `q` do not overlap. -/
theorem setPath_comm (root : Obj) (p q : Str) (v w : Json) (h : ¬ Overlap p q) :
    ObjEquiv (setPath (setPath root p v) q w) (setPath (setPath root q w) p v) := by
  unfold Overlap at h
  unfold setPath
  by_cases hp : p = [] <;> by_cases hq : q = [] <;>
    simp only [hp, hq, if_true, if_false]
  · exact objEquiv_refl _
  · exact objEquiv_refl _
  · exact objEquiv_refl _
  · exact setLoop_comm _ _ root v w (fun h1 => h (Or.inl h1)) (fun h2 => h (Or.inr h2))

/-! ## Order of the rules -/

/-- What a rule does is fixed by `data`: it panics, leaves `result` alone, or
assigns a value at its destination. -/
theorem transformStep_cases (data : Json) (rule : Str × Json) :
    (∀ res, transformStep data res rule = none) ∨
    (∀ res, transformStep data res rule = some res) ∨
    (∃ p v, rule.2 = Json.str p ∧ ∀ res, transformStep data res rule = some (setPath res p v)) := by
  unfold transformStep
  cases h2 : rule.2 with
  | str p =>
    cases hq : queryPath data rule.1 with
    | panic => exact Or.inl (fun _ => rfl)
    | ret x found =>
      cases found with
      | true => exact Or.inr (Or.inr ⟨p, x, rfl, fun _ => rfl⟩)
      | false => exact Or.inr (Or.inl (fun _ => rfl))
  | _ => exact Or.inr (Or.inl (fun _ => rfl))

theorem transformStep_congr (data : Json) (rule : Str × Json) (r1 r2 : Obj)
    (h : ObjEquiv r1 r2) :
    OutcomeEquiv (transformStep data r1 rule) (transformStep data r2 rule) := by
  rcases transformStep_cases data rule with hc | hc | ⟨p, v, _, hc⟩
  · rw [hc r1, hc r2]; exact True.intro
  · rw [hc r1, hc r2]; exact (jsonEquiv_obj_iff _ _).2 h
  · rw [hc r1, hc r2]; exact (jsonEquiv_obj_iff _ _).2 (setPath_congr p v r1 r2 h)

theorem transformLoop_congr (data : Json) (rules : List (Str × Json)) :
    ∀ r1 r2, ObjEquiv r1 r2 →
      OutcomeEquiv (transformLoop data rules r1) (transformLoop data rules r2) := by
  induction rules with
  | nil => intro r1 r2 h; exact (jsonEquiv_obj_iff _ _).2 h
  | cons rule rest ih =>
    intro r1 r2 h
    have hs := transformStep_congr data rule r1 r2 h
    simp only [transformLoop]
    cases h1 : transformStep data r1 rule <;> cases h2 : transformStep data r2 rule <;>
      rw [h1, h2] at hs <;> simp only [OutcomeEquiv] at hs
    · exact True.intro
    · exact ih _ _ ((jsonEquiv_obj_iff _ _).1 hs)

/-- Two rules whose destinations do not overlap can be applied in either order. -/
theorem transformStep_comm (data : Json) (x y : Str × Json) (res : Obj)
    (h : RulesApart x y) :
    OutcomeEquiv ((transformStep data res x).bind (fun r => transformStep data r y))
      ((transformStep data res y).bind (fun r => transformStep data r x)) := by
  rcases transformStep_cases data x with hx | hx | ⟨p, v, hp, hx⟩ <;>
    rcases transformStep_cases data y with hy | hy | ⟨q, w, hq, hy⟩ <;>
    simp only [hx, hy, Option.bind]
  all_goals first
    | exact True.intro
    | exact Json.Equiv.refl _
    | exact (jsonEquiv_obj_iff _ _).2 (setPath_comm res p q v w (h p q hp hq))

theorem transformLoop_two (data : Json) (x y : Str × Json) (l : List (Str × Json))
    (res : Obj) :
    transformLoop data (x :: y :: l) res =
      ((transformStep data res x).bind (fun r => transformStep data r y)).bind
        (fun r => transformLoop data l r) := by
  simp only [transformLoop]
  cases transformStep data res x with
  | none => rfl
  | some r =>
    simp only [Option.bind]
    cases transformStep data r y <;> rfl

theorem transformLoop_bind_congr (data : Json) (l : List (Str × Json))
    (s1 s2 : Option Obj) (h : OutcomeEquiv s1 s2) :
    OutcomeEquiv (s1.bind (fun r => transformLoop data l r))
      (s2.bind (fun r => transformLoop data l r)) := by
  cases s1 <;> cases s2 <;> simp only [OutcomeEquiv] at h
  · exact True.intro
  · exact transformLoop_congr data l _ _ ((jsonEquiv_obj_iff _ _).1 h)

theorem overlap_symm {p q : Str} (h : Overlap p q) : Overlap q p :=
  Or.symm h

theorem rulesApart_symm {x y : Str × Json} (h : RulesApart x y) : RulesApart y x :=
  fun p q hp hq ho => h q p hq hp (overlap_symm ho)

/-- Lemma behind C14 and C15: rules with pairwise non-overlapping destinations
give structurally equal outcomes in every order. -/
theorem transformLoop_perm (data : Json) (l1 l2 : List (Str × Json)) (hperm : l1.Perm l2) :
    l1.Pairwise RulesApart → ∀ res,
      OutcomeEquiv (transformLoop data l1 res) (transformLoop data l2 res) := by
  induction hperm with
  | nil => intro _ res; exact outcomeEquiv_refl _
  | cons x _ ih =>
    intro hpw res
    simp only [transformLoop]
    cases transformStep data res x with
    | none => exact True.intro
    | some r => exact ih (List.Pairwise.of_cons hpw) r
  | swap x y l =>
    intro hpw res
    have hxy : RulesApart y x := (List.pairwise_cons.1 hpw).1 x (List.mem_cons_self _ _)
    rw [transformLoop_two, transformLoop_two]
    exact transformLoop_bind_congr data l _ _ (transformStep_comm data y x res hxy)
  | trans h12 _ ih12 ih23 =>
    intro hpw res
    exact outcomeEquiv_trans (ih12 hpw res)
      (ih23 (h12.pairwise hpw (fun h => rulesApart_symm h)) res)

/-- C14, amended: when no two rules target overlapping destination paths,
applying the rules in any two orders gives structurally equal outcomes; and
`setPath(p, v)` and `setPath(q, w)` commute, up to structural equality, when
`p` and `q` do not overlap, on every object in which no map is shared (the
object and the two values are trees). -/
theorem transform_order_independent :
    (∀ (data : Json) (rules1 rules2 : List (Str × Json)), rules1.Perm rules2 →
      rules1.Pairwise RulesApart →
      OutcomeEquiv (executeTransform data rules1) (executeTransform data rules2)) ∧
    (∀ (root : Obj) (p q : Str) (v w : Json), ¬ Overlap p q →
      Json.Equiv (Json.obj (setPath (setPath root p v) q w))
        (Json.obj (setPath (setPath root q w) p v))) :=
  ⟨fun data rules1 rules2 hperm hapart => transformLoop_perm data rules1 rules2 hperm hapart [],
   fun root p q v w h => (jsonEquiv_obj_iff _ _).2 (setPath_comm root p q v w h)⟩

/-- Witness for C14: on `{"a": 1, "b": 2}` the rules `a ↦ x.u` and `b ↦ x.w`
give `{"x": {"u": 1, "w": 2}}` in one order and `{"x": {"w": 2, "u": 1}}` in
the other, and the two assignments commute on the empty object. -/
theorem transform_order_independent_witness :
    OutcomeEquiv
      (executeTransform (Json.obj [("a".toList, Json.num 1), ("b".toList, Json.num 2)])
        [("a".toList, Json.str "x.u".toList), ("b".toList, Json.str "x.w".toList)])
      (executeTransform (Json.obj [("a".toList, Json.num 1), ("b".toList, Json.num 2)])
        [("b".toList, Json.str "x.w".toList), ("a".toList, Json.str "x.u".toList)]) ∧
    Json.Equiv
      (Json.obj (setPath (setPath [] "x.u".toList (Json.num 1)) "x.w".toList (Json.num 2)))
      (Json.obj (setPath (setPath [] "x.w".toList (Json.num 2)) "x.u".toList (Json.num 1))) :=
  ⟨transform_order_independent.1
      (Json.obj [("a".toList, Json.num 1), ("b".toList, Json.num 2)])
      [("a".toList, Json.str "x.u".toList), ("b".toList, Json.str "x.w".toList)]
      [("b".toList, Json.str "x.w".toList), ("a".toList, Json.str "x.u".toList)]
      (List.Perm.swap _ _ [])
      (by
        refine List.pairwise_cons.2 ⟨?_, List.pairwise_singleton _ _⟩
        intro r hr p q hp hq
        simp only [List.mem_singleton] at hr
        subst hr
        cases hp
        cases hq
        unfold Overlap
        decide),
    transform_order_independent.2 [] "x.u".toList "x.w".toList (Json.num 1) (Json.num 2)
      (by unfold Overlap; decide)⟩

/-- C15, refuted as stated: on `{"a": true, "b": false}` the mapping set
`{a ↦ x, b ↦ x}` gives `{"x": false}` when `a` is iterated first and
`{"x": true}` when `b` is; the two results are not structurally equal. -/
theorem transform_order_counterexample :
    executeTransform (Json.obj [("a".toList, Json.bool true), ("b".toList, Json.bool false)])
        [("a".toList, Json.str "x".toList), ("b".toList, Json.str "x".toList)]
      = some [("x".toList, Json.bool false)] ∧
    executeTransform (Json.obj [("a".toList, Json.bool true), ("b".toList, Json.bool false)])
        [("b".toList, Json.str "x".toList), ("a".toList, Json.str "x".toList)]
      = some [("x".toList, Json.bool true)] ∧
    ¬ OutcomeEquiv
      (executeTransform (Json.obj [("a".toList, Json.bool true), ("b".toList, Json.bool false)])
        [("a".toList, Json.str "x".toList), ("b".toList, Json.str "x".toList)])
      (executeTransform (Json.obj [("a".toList, Json.bool true), ("b".toList, Json.bool false)])
        [("b".toList, Json.str "x".toList), ("a".toList, Json.str "x".toList)]) := by
  refine ⟨rfl, rfl, ?_⟩
  intro h
  have h2 : Json.Equiv (Json.obj [("x".toList, Json.bool false)])
      (Json.obj [("x".toList, Json.bool true)]) := h
  have h3 := ((jsonEquiv_obj_iff _ _).1 h2).2 "x".toList (Json.bool false) (Json.bool true)
    rfl rfl
  cases h3

/-! ## Reading back what the rules assigned -/

theorem not_mem_splitDot (c : Char) (s : Str) (h : c ∉ s) : ∀ seg ∈ splitDot s, c ∉ seg := by
  induction s with
  | nil =>
    intro seg hm
    simp only [splitDot, List.mem_singleton] at hm
    subst hm
    simp
  | cons x xs ih =>
    have hx : c ≠ x := fun e => h (by simp [e])
    have hxs : c ∉ xs := fun e => h (by simp [e])
    intro seg hm
    unfold splitDot at hm
    split at hm
    · rcases List.mem_cons.1 hm with e | e
      · subst e; simp
      · exact ih hxs seg e
    · split at hm
      · simp only [List.mem_singleton] at hm
        subst hm
        simpa using hx
      · rename_i p ps hsp
        rcases List.mem_cons.1 hm with e | e
        · subst e
          have hp : c ∉ p := ih hxs p (by rw [hsp]; exact List.mem_cons_self _ _)
          simp only [List.mem_cons, not_or]
          exact ⟨hx, hp⟩
        · exact ih hxs seg (by rw [hsp]; exact List.mem_cons_of_mem _ e)

theorem plainParts_splitDot (p : Str) (h : '[' ∉ p ∧ ']' ∉ p) : PlainParts (splitDot p) :=
  fun seg hm hb => not_mem_splitDot '[' p h.1 seg hm hb.1

/-- An assignment does not change what a query reads along a path that
diverges from the assigned one. -/
theorem queryLoop_frame (P : List Str) :
    ∀ (Q : List Str) (root : Obj) (v : Json), ¬ P <+: Q → ¬ Q <+: P → PlainParts Q →
      queryLoop (Json.obj (setLoop root P v)) Q = queryLoop (Json.obj root) Q := by
  induction P with
  | nil => intro Q _ _ h; exact absurd List.nil_prefix h
  | cons a P ih =>
    intro Q root v hpq hqp hplain
    cases Q with
    | nil => exact absurd List.nil_prefix hqp
    | cons b Q =>
      have hb := hplain b (List.mem_cons_self _ _)
      have hQ : PlainParts Q := fun seg hm => hplain seg (List.mem_cons_of_mem _ hm)
      rw [queryLoop_plain _ b Q hb, queryLoop_plain _ b Q hb]
      by_cases hab : b = a
      · subst hab
        have hpq2 : ¬ P <+: Q := fun h => hpq (List.cons_prefix_cons.2 ⟨rfl, h⟩)
        have hqp2 : ¬ Q <+: P := fun h => hqp (List.cons_prefix_cons.2 ⟨rfl, h⟩)
        have hQne : Q ≠ [] := by rintro rfl; exact hqp2 List.nil_prefix
        simp only [mapGet_setLoop_self]
        cases P with
        | nil => exact absurd List.nil_prefix hpq2
        | cons p P =>
          cases hg : mapGet root b with
          | none =>
            simp only [setBinding]
            rw [ih Q [] v hpq2 hqp2 hQ]
            exact queryLoop_empty_object Q hQne hQ
          | some x =>
            cases x with
            | obj o =>
              simp only [setBinding]
              exact ih Q o v hpq2 hqp2 hQ
            | _ => simp only [setBinding]
      · simp only [mapGet_setLoop_ne _ a _ _ _ hab]

/-- After an assignment that meets no collision, every proper prefix of the
assigned path reads as an object. -/
theorem queryLoop_spine (Q : List Str) :
    ∀ (P : List Str) (root : Obj) (v : Json), Q <+: P → Q ≠ P → PlainParts P →
      (∀ pre post, P = pre ++ post → pre ≠ [] → post ≠ [] →
        queryLoop (Json.obj root) pre = Result.ret Json.null false ∨
          ∃ o, queryLoop (Json.obj root) pre = Result.ret (Json.obj o) true) →
      ∃ o, queryLoop (Json.obj (setLoop root P v)) Q = Result.ret (Json.obj o) true := by
  induction Q with
  | nil => intro P root v _ _ _ _; exact ⟨_, rfl⟩
  | cons b Q ih =>
    intro P root v hpre hne hplain hfree
    cases P with
    | nil => simp at hpre
    | cons a P =>
      obtain ⟨hab, hpre2⟩ := List.cons_prefix_cons.1 hpre
      subst hab
      have hne2 : Q ≠ P := fun e => hne (by rw [e])
      have hb := hplain b (List.mem_cons_self _ _)
      have hP : PlainParts P := fun seg hm => hplain seg (List.mem_cons_of_mem _ hm)
      cases P with
      | nil =>
        have : Q = [] := List.prefix_nil.1 hpre2
        exact absurd this hne2
      | cons p P =>
        have hfirst := hfree [b] (p :: P) rfl (by simp) (by simp)
        rw [queryLoop_plain _ b [] hb] at hfirst
        rw [queryLoop_plain _ b Q hb]
        simp only [mapGet_setLoop_self]
        cases hg : mapGet root b with
        | none =>
          simp only [setBinding]
          apply ih (p :: P) [] v hpre2 hne2 hP
          intro pre post hsplit hpne _
          left
          apply queryLoop_empty_object pre hpne
          intro seg hm
          exact hP seg (by rw [hsplit]; exact List.mem_append_left _ hm)
        | some x =>
          simp only [hg, queryLoop] at hfirst
          rcases hfirst with h | ⟨o, h⟩
          · cases h
          · cases h
            simp only [setBinding]
            apply ih (p :: P) o v hpre2 hne2 hP
            intro pre post hsplit hpne hpost
            have := hfree (b :: pre) post (by rw [hsplit]; rfl) (by simp) hpost
            rw [queryLoop_plain _ b pre hb] at this
            simpa only [hg] using this

theorem transformInv_empty : TransformInv [] [] := by
  unfold TransformInv
  refine ⟨fun w hw => (by cases hw), fun w hw => (by cases hw), ?_⟩
  intro Q hQ _
  cases Q with
  | nil => exact Or.inr ⟨[], rfl⟩
  | cons q Q => exact Or.inl (queryLoop_empty_object (q :: Q) (by simp) hQ)

/-- Assigning at a destination that overlaps none of those assigned so far
keeps the invariant. -/
theorem transformInv_write (res : Obj) (W : List (List Str × Json)) (P : List Str) (v : Json)
    (hinv : TransformInv res W) (hP : PlainParts P) (hPne : P ≠ [])
    (hapart : ∀ w ∈ W, ¬ w.1 <+: P ∧ ¬ P <+: w.1) :
    TransformInv (setLoop res P v) ((P, v) :: W) := by
  obtain ⟨hWplain, hread, hfree⟩ := hinv
  unfold TransformInv
  have hpre : ∀ pre post, P = pre ++ post → pre ≠ [] → post ≠ [] →
      queryLoop (Json.obj res) pre = Result.ret Json.null false ∨
        ∃ o, queryLoop (Json.obj res) pre = Result.ret (Json.obj o) true := by
    intro pre post hsplit _ _
    apply hfree pre
    · intro seg hm
      exact hP seg (by rw [hsplit]; exact List.mem_append_left _ hm)
    · intro w hw hwp
      exact (hapart w hw).1 (hwp.trans ⟨post, hsplit.symm⟩)
  refine ⟨?_, ?_, ?_⟩
  · intro w hw
    rcases List.mem_cons.1 hw with e | e
    · subst e; exact hP
    · exact hWplain w e
  · intro w hw
    rcases List.mem_cons.1 hw with e | e
    · subst e
      exact setLoop_queryLoop P res v hPne hP hpre
    · rw [queryLoop_frame P w.1 res v (hapart w e).2 (hapart w e).1 (hWplain w e)]
      exact hread w e
  · intro Q hQ hW
    have hPQ : ¬ P <+: Q := hW (P, v) (List.mem_cons_self _ _)
    by_cases hQP : Q <+: P
    · have hne : Q ≠ P := fun e => hPQ (by rw [e])
      exact Or.inr (queryLoop_spine Q P res v hQP hne hP hpre)
    · rw [queryLoop_frame P Q res v hPQ hQP hQ]
      exact hfree Q hQ (fun w hw => hW w (List.mem_cons_of_mem _ hw))

/-- The loop over rules with non-empty, bracket-free, pairwise non-overlapping
destinations, none of whose sources panics, ends with every resolved rule
recorded as assigned. -/
theorem transformLoop_inv (data : Json) (rules : List (Str × Json)) :
    ∀ (res : Obj) (W : List (List Str × Json)), TransformInv res W →
      (∀ r ∈ rules, ∀ p, r.2 = Json.str p → p ≠ [] ∧ '[' ∉ p ∧ ']' ∉ p) →
      rules.Pairwise RulesApart →
      (∀ r ∈ rules, ∀ p, r.2 = Json.str p →
        ∀ w ∈ W, ¬ w.1 <+: splitDot p ∧ ¬ splitDot p <+: w.1) →
      (∀ r ∈ rules, queryPath data r.1 ≠ Result.panic) →
      ∃ result W', transformLoop data rules res = some result ∧ TransformInv result W' ∧
        (∀ w ∈ W, w ∈ W') ∧
        (∀ r ∈ rules, ∀ p v, r.2 = Json.str p → queryPath data r.1 = Result.ret v true →
          (splitDot p, v) ∈ W') := by
  induction rules with
  | nil =>
    intro res W hinv _ _ _ _
    exact ⟨res, W, rfl, hinv, fun w hw => hw, fun r hr => (by cases hr)⟩
  | cons r rest ih =>
    intro res W hinv hdest hpw hW hnp
    have hdest' : ∀ r ∈ rest, ∀ p, r.2 = Json.str p → p ≠ [] ∧ '[' ∉ p ∧ ']' ∉ p :=
      fun r' hr' => hdest r' (List.mem_cons_of_mem _ hr')
    have hpw' : rest.Pairwise RulesApart := List.Pairwise.of_cons hpw
    have hW' : ∀ r ∈ rest, ∀ p, r.2 = Json.str p →
        ∀ w ∈ W, ¬ w.1 <+: splitDot p ∧ ¬ splitDot p <+: w.1 :=
      fun r' hr' => hW r' (List.mem_cons_of_mem _ hr')
    have hnp' : ∀ r ∈ rest, queryPath data r.1 ≠ Result.panic :=
      fun r' hr' => hnp r' (List.mem_cons_of_mem _ hr')
    -- a rule that leaves `result` alone
    have hskip : transformStep data res r = some res →
        (∀ p v, r.2 = Json.str p → queryPath data r.1 = Result.ret v true → False) →
        ∃ result W', transformLoop data (r :: rest) res = some result ∧
          TransformInv result W' ∧ (∀ w ∈ W, w ∈ W') ∧
          (∀ r' ∈ r :: rest, ∀ p v, r'.2 = Json.str p →
            queryPath data r'.1 = Result.ret v true → (splitDot p, v) ∈ W') := by
      intro hstep hno
      obtain ⟨result, W', hloop, hinv', hsub, hall⟩ := ih res W hinv hdest' hpw' hW' hnp'
      refine ⟨result, W', ?_, hinv', hsub, ?_⟩
      · simp only [transformLoop, hstep, hloop]
      · intro r' hr' p v hp hq
        rcases List.mem_cons.1 hr' with e | e
        · subst e; exact absurd (hno p v hp hq) id
        · exact hall r' e p v hp hq
    cases h2 : r.2 with
    | str p =>
      cases hq : queryPath data r.1 with
      | panic => exact absurd hq (hnp r (List.mem_cons_self _ _))
      | ret x found =>
        cases found with
        | false =>
          apply hskip
          · simp only [transformStep, h2, hq]
          · intro p' v' _ hq'
            rw [hq] at hq'
            cases hq'
        | true =>
          obtain ⟨hpne, hpo, hpc⟩ := hdest r (List.mem_cons_self _ _) p h2
          have hstep : transformStep data res r = some (setLoop res (splitDot p) x) := by
            simp only [transformStep, h2, hq, setPath, if_neg hpne]
          have hinv1 : TransformInv (setLoop res (splitDot p) x) ((splitDot p, x) :: W) :=
            transformInv_write res W (splitDot p) x hinv (plainParts_splitDot p ⟨hpo, hpc⟩)
              (splitDot_ne_nil p) (hW r (List.mem_cons_self _ _) p h2)
          have hW1 : ∀ r' ∈ rest, ∀ q, r'.2 = Json.str q →
              ∀ w ∈ (splitDot p, x) :: W, ¬ w.1 <+: splitDot q ∧ ¬ splitDot q <+: w.1 := by
            intro r' hr' q hq' w hw
            rcases List.mem_cons.1 hw with e | e
            · subst e
              have hap : RulesApart r r' := (List.pairwise_cons.1 hpw).1 r' hr'
              have hno := hap p q h2 hq'
              exact ⟨fun h => hno (Or.inl h), fun h => hno (Or.inr h)⟩
            · exact hW' r' hr' q hq' w e
          obtain ⟨result, W', hloop, hinv', hsub, hall⟩ :=
            ih _ _ hinv1 hdest' hpw' hW1 hnp'
          refine ⟨result, W', ?_, hinv', ?_, ?_⟩
          · simp only [transformLoop, hstep, hloop]
          · intro w hw
            exact hsub w (List.mem_cons_of_mem _ hw)
          · intro r' hr' p' v' hp' hq'
            rcases List.mem_cons.1 hr' with e | e
            · subst e
              rw [h2] at hp'
              cases hp'
              rw [hq] at hq'
              cases hq'
              exact hsub _ (List.mem_cons_self _ _)
            · exact hall r' e p' v' hp' hq'
    | _ =>
      apply hskip
      · simp only [transformStep, h2]
      · intro p' v' hp' _
        rw [h2] at hp'
        cases hp'

/-- Reading back: for rules whose destinations are non-empty, bracket-free and
pairwise non-overlapping, and none of whose source paths makes `queryPath`
panic, the transform returns a result in which every rule whose source resolves
to `v` has `v` at its destination; this holds for the rules in any order. -/
theorem executeTransform_reads_back (data : Json) (rules : List (Str × Json))
    (hdest : ∀ r ∈ rules, ∀ p, r.2 = Json.str p → p ≠ [] ∧ '[' ∉ p ∧ ']' ∉ p)
    (hapart : rules.Pairwise RulesApart)
    (hnp : ∀ r ∈ rules, queryPath data r.1 ≠ Result.panic) :
    ∃ result, executeTransform data rules = some result ∧
      ∀ r ∈ rules, ∀ p v, r.2 = Json.str p → queryPath data r.1 = Result.ret v true →
        queryPath (Json.obj result) p = Result.ret v true := by
  obtain ⟨result, W', hloop, hinv, _, hall⟩ :=
    transformLoop_inv data rules [] [] transformInv_empty hdest hapart
      (fun _ _ _ _ w hw => by cases hw) hnp
  refine ⟨result, hloop, ?_⟩
  intro r hr p v hp hq
  have hmem := hall r hr p v hp hq
  have hread := hinv.2.1 _ hmem
  unfold queryPath
  rw [if_neg (hdest r hr p hp).1]
  exact hread

/-- C13, at the failing input: with `data = {"a": 1}` and the rules
`a ↦ x`, `q]w[0] ↦ y` (destinations non-empty, bracket-free, not overlapping)
the rule `a ↦ x` resolves, yet in either order of application the call panics
in `queryPath(data, "q]w[0]")` and there is no result in which `x` is bound;
this is the defect of C2.  Whenever no source path makes `queryPath` panic, the
transform does return a result in which every resolved rule reads back its
value, in whatever order the rules are applied. -/
theorem executeTransform_panics_on_reversed_brackets :
    (queryPath (Json.obj [("a".toList, Json.num 1)]) "a".toList
        = Result.ret (Json.num 1) true ∧
      executeTransform (Json.obj [("a".toList, Json.num 1)])
        [("a".toList, Json.str "x".toList), ("q]w[0]".toList, Json.str "y".toList)] = none ∧
      executeTransform (Json.obj [("a".toList, Json.num 1)])
        [("q]w[0]".toList, Json.str "y".toList), ("a".toList, Json.str "x".toList)] = none) ∧
    (∀ (data : Json) (rules : List (Str × Json)),
      (∀ r ∈ rules, ∀ p, r.2 = Json.str p → p ≠ [] ∧ '[' ∉ p ∧ ']' ∉ p) →
      rules.Pairwise RulesApart →
      (∀ r ∈ rules, queryPath data r.1 ≠ Result.panic) →
      ∃ result, executeTransform data rules = some result ∧
        ∀ r ∈ rules, ∀ p v, r.2 = Json.str p → queryPath data r.1 = Result.ret v true →
          queryPath (Json.obj result) p = Result.ret v true) :=
  ⟨⟨rfl, rfl, rfl⟩, executeTransform_reads_back⟩

/-! ## Sharing between `data` and `result` -/

theorem Shared.write_frame (h : Shared.Store) (r : Nat) (k : Str) (v : Shared.Val) (a : Nat)
    (ha : a ≠ r) : (Shared.write h r k v)[a]? = h[a]? := by
  unfold Shared.write
  cases h[r]? with
  | none => rfl
  | some m => exact List.getElem?_set_ne (Ne.symm ha)

theorem Shared.setPath_one_key (h : Shared.Store) (r : Nat) (p : Str) (v : Shared.Val)
    (hne : p ≠ []) (hdot : '.' ∉ p) : Shared.setPath h r p v = Shared.write h r p v := by
  unfold Shared.setPath
  rw [if_neg hne, splitDot_of_not_mem p hdot]
  rfl

/-- With destinations that are single dot-free keys the loop writes into the
map of `result` only. -/
theorem Shared.transformLoop_single_keys (data : Shared.Val) (r : Nat)
    (rules : List (Str × Shared.Val)) :
    ∀ (h h' : Shared.Store),
      (∀ rule ∈ rules, ∀ p, rule.2 = Shared.Val.str p → p ≠ [] ∧ '.' ∉ p) →
      Shared.transformLoop data r rules h = some h' →
      ∀ a, a ≠ r → h'[a]? = h[a]? := by
  induction rules with
  | nil =>
    intro h h' _ hrun a _
    simp only [Shared.transformLoop, Option.some.injEq] at hrun
    rw [← hrun]
  | cons rule rest ih =>
    intro h h' hdest hrun a ha
    have hdest' : ∀ rule ∈ rest, ∀ p, rule.2 = Shared.Val.str p → p ≠ [] ∧ '.' ∉ p :=
      fun x hx => hdest x (List.mem_cons_of_mem _ hx)
    cases h2 : rule.2 with
    | str p =>
      obtain ⟨hne, hdot⟩ := hdest rule (List.mem_cons_self _ _) p h2
      cases hq : Shared.queryPath h data rule.1 with
      | panic => simp [Shared.transformLoop, h2, hq] at hrun
      | ret x found =>
        cases found with
        | true =>
          simp only [Shared.transformLoop, h2, hq] at hrun
          rw [ih _ h' hdest' hrun a ha, Shared.setPath_one_key h r p x hne hdot,
            Shared.write_frame h r p x a ha]
        | false =>
          simp only [Shared.transformLoop, h2, hq] at hrun
          exact ih h h' hdest' hrun a ha
    | _ =>
      simp only [Shared.transformLoop, h2] at hrun
      exact ih h h' hdest' hrun a ha

/-- With destinations that are single dot-free keys, every map that existed
before the call is as it was after the call. -/
theorem Shared.executeTransform_single_keys (h : Shared.Store) (data : Shared.Val)
    (rules : List (Str × Shared.Val)) (h' : Shared.Store) (r : Nat)
    (hdest : ∀ rule ∈ rules, ∀ p, rule.2 = Shared.Val.str p → p ≠ [] ∧ '.' ∉ p)
    (hrun : Shared.executeTransform h data rules = some (h', r)) :
    ∀ a, a < h.length → h'[a]? = h[a]? := by
  intro a ha
  unfold Shared.executeTransform at hrun
  cases hl : Shared.transformLoop data h.length rules (h ++ [[]]) with
  | none => simp [hl] at hrun
  | some h1 =>
    simp only [hl, Option.some.injEq, Prod.mk.injEq] at hrun
    obtain ⟨e1, _⟩ := hrun
    subst e1
    rw [Shared.transformLoop_single_keys data h.length rules (h ++ [[]]) h1 hdest hl a
      (by omega), List.getElem?_append_left ha]

/-- C18, at the failing input: `data = {"a": {"x": 1}, "b": 2}` with the rule
`a ↦ d` applied before `b ↦ d.y`.  The first rule stores the map of `data.a`
itself under `result.d`; the second writes `y` into that map.  After the call
`data` reads `{"a": {"x": 1, "y": 2}, "b": 2}`, and `result.d` and `data.a` are
the same map.  When every destination is a single dot-free key, the maps that
existed before the call are left as they were. -/
theorem executeTransform_mutates_data :
    (Shared.executeTransform
        [[("a".toList, Shared.Val.ref 1), ("b".toList, Shared.Val.num 2)],
         [("x".toList, Shared.Val.num 1)]]
        (Shared.Val.ref 0)
        [("a".toList, Shared.Val.str "d".toList), ("b".toList, Shared.Val.str "d.y".toList)]
      = some ([[("a".toList, Shared.Val.ref 1), ("b".toList, Shared.Val.num 2)],
               [("x".toList, Shared.Val.num 1), ("y".toList, Shared.Val.num 2)],
               [("d".toList, Shared.Val.ref 1)]], 2) ∧
    Shared.toJson 3
        [[("a".toList, Shared.Val.ref 1), ("b".toList, Shared.Val.num 2)],
         [("x".toList, Shared.Val.num 1)]] (Shared.Val.ref 0)
      = Json.obj [("a".toList, Json.obj [("x".toList, Json.num 1)]), ("b".toList, Json.num 2)] ∧
    Shared.toJson 3
        [[("a".toList, Shared.Val.ref 1), ("b".toList, Shared.Val.num 2)],
         [("x".toList, Shared.Val.num 1), ("y".toList, Shared.Val.num 2)],
         [("d".toList, Shared.Val.ref 1)]] (Shared.Val.ref 0)
      = Json.obj [("a".toList, Json.obj [("x".toList, Json.num 1), ("y".toList, Json.num 2)]),
          ("b".toList, Json.num 2)] ∧
    Shared.toJson 3
        [[("a".toList, Shared.Val.ref 1), ("b".toList, Shared.Val.num 2)],
         [("x".toList, Shared.Val.num 1), ("y".toList, Shared.Val.num 2)],
         [("d".toList, Shared.Val.ref 1)]] (Shared.Val.ref 0)
      ≠ Shared.toJson 3
        [[("a".toList, Shared.Val.ref 1), ("b".toList, Shared.Val.num 2)],
         [("x".toList, Shared.Val.num 1)]] (Shared.Val.ref 0)) ∧
    (∀ (h : Shared.Store) (data : Shared.Val) (rules : List (Str × Shared.Val))
        (h' : Shared.Store) (r : Nat),
      (∀ rule ∈ rules, ∀ p, rule.2 = Shared.Val.str p → p ≠ [] ∧ '.' ∉ p) →
      Shared.executeTransform h data rules = some (h', r) →
      ∀ a, a < h.length → h'[a]? = h[a]?) := by
  refine ⟨⟨rfl, rfl, rfl, ?_⟩, Shared.executeTransform_single_keys⟩
  intro h
  have h2 : Json.obj [("a".toList, Json.obj [("x".toList, Json.num 1), ("y".toList, Json.num 2)]),
      ("b".toList, Json.num 2)]
    = Json.obj [("a".toList, Json.obj [("x".toList, Json.num 1)]), ("b".toList, Json.num 2)] := h
  simp at h2

/-! ## Repeated and framed assignments -/

theorem mapSet_mapSet (o : Obj) (k : Str) (v w : Json) :
    mapSet (mapSet o k v) k w = mapSet o k w := by
  induction o with
  | nil => simp [mapSet]
  | cons kv rest ih =>
    obtain ⟨k0, v0⟩ := kv
    by_cases h : k0 = k
    · simp [mapSet, h]
    · simp [mapSet, h, ih]

/-- A second assignment loop along the same parts overrides the first. -/
theorem setLoop_setLoop (parts : List Str) :
    ∀ (root : Obj) (v w : Json),
      setLoop (setLoop root parts v) parts w = setLoop root parts w := by
  induction parts with
  | nil => intro root v w; rfl
  | cons a rest ih =>
    intro root v w
    cases rest with
    | nil => simp only [setLoop, mapSet_mapSet]
    | cons b rest =>
      cases hg : mapGet root a with
      | none =>
        simp only [setLoop, hg, mapGet_mapSet_self, mapSet_mapSet, ih]
      | some x =>
        cases x with
        | obj o => simp only [setLoop, hg, mapGet_mapSet_self, mapSet_mapSet, ih]
        | _ => simp only [setLoop, hg]

/-- C26: `setPath(p, v)` followed by `setPath(p, w)` leaves `root` in the
state of a single `setPath(p, w)`; in particular `setPath(p, v)` applied twice
equals `setPath(p, v)` applied once. -/
theorem setPath_last_write_wins (root : Obj) (p : Str) (v w : Json) :
    setPath (setPath root p v) p w = setPath root p w ∧
      setPath (setPath root p v) p v = setPath root p v := by
  unfold setPath
  by_cases hp : p = []
  · simp only [hp, if_true, and_self]
  · simp only [hp, if_false, setLoop_setLoop, and_self]

theorem setBinding_isSome (c : Option Json) (rest : List Str) (v : Json) :
    (setBinding c rest v).isSome = true := by
  cases rest with
  | nil =>
    cases c with
    | none => rfl
    | some x => cases x <;> rfl
  | cons next rest =>
    cases c with
    | none => rfl
    | some x => cases x <;> rfl

/-! ## Dots and trailing text -/

theorem splitDot_cons_dot (cs : Str) : splitDot ('.' :: cs) = [] :: splitDot cs := by
  simp [splitDot]

theorem splitDot_cons_ne (c : Char) (cs : Str) (p : Str) (ps : List Str) (hc : c ≠ '.')
    (h : splitDot cs = p :: ps) : splitDot (c :: cs) = (c :: p) :: ps := by
  simp [splitDot, hc, h]

/-- Splitting `p.q` gives the parts of `p` followed by the parts of `q`. -/
theorem splitDot_append_dot (p q : Str) :
    splitDot (p ++ '.' :: q) = splitDot p ++ splitDot q := by
  induction p with
  | nil => simp [splitDot]
  | cons c cs ih =>
    by_cases hc : c = '.'
    · subst hc
      rw [List.cons_append, splitDot_cons_dot, splitDot_cons_dot, ih]
      rfl
    · cases hs : splitDot cs with
      | nil => exact absurd hs (splitDot_ne_nil cs)
      | cons x xs =>
        rw [List.cons_append, splitDot_cons_ne c _ x (xs ++ splitDot q) hc (by rw [ih, hs]; rfl),
          splitDot_cons_ne c cs x xs hc hs]
        rfl

/-- Text without a dot appended to a path extends its last part. -/
theorem splitDot_append_nodot (t : Str) (ht : '.' ∉ t) (a : Str) :
    ∀ (pre : List Str) (last : Str), splitDot a = pre ++ [last] →
      splitDot (a ++ t) = pre ++ [last ++ t] := by
  induction a with
  | nil =>
    intro pre last h
    have h2 : [([] : Str)] = pre ++ [last] := h
    cases pre with
    | nil =>
      simp only [List.nil_append, List.cons.injEq, and_true] at h2
      subst h2
      simpa using splitDot_of_not_mem t ht
    | cons x xs =>
      have := congrArg List.length h2
      simp at this
  | cons c cs ih =>
    intro pre last h
    cases hs : splitDot cs with
    | nil => exact absurd hs (splitDot_ne_nil cs)
    | cons x xs =>
      -- the parts of `cs` end in some last part
      obtain ⟨pre0, last0, h0⟩ : ∃ pre0 last0, x :: xs = pre0 ++ [last0] :=
        ⟨(x :: xs).dropLast, (x :: xs).getLast (by simp),
          (List.dropLast_append_getLast (by simp)).symm⟩
      have ih0 := ih pre0 last0 (by rw [hs, h0])
      by_cases hc : c = '.'
      · subst hc
        rw [splitDot_cons_dot, hs, h0] at h
        rw [List.cons_append, splitDot_cons_dot, ih0]
        have h3 : ([] : Str) :: pre0 ++ [last0] = pre ++ [last] := h
        have hlen : ([] :: pre0).length = pre.length := by
          have := congrArg List.length h3
          simp at this
          simpa using this
        have h4 : (([] : Str) :: pre0) ++ [last0] = pre ++ [last] := h3
        obtain ⟨e1, e2⟩ := List.append_inj h4 hlen
        simp only [List.cons.injEq, and_true] at e2
        rw [← e1, ← e2]
        rfl
      · cases pre0 with
        | nil =>
          simp only [List.nil_append, List.cons.injEq] at h0
          obtain ⟨hx, hxs⟩ := h0
          subst hx
          subst hxs
          rw [splitDot_cons_ne c cs x [] hc hs] at h
          have h4 : ([] : List Str) ++ [c :: x] = pre ++ [last] := h
          obtain ⟨e1, e2⟩ := List.append_inj' h4 rfl
          simp only [List.cons.injEq, and_true] at e2
          rw [← e1, ← e2, List.cons_append,
            splitDot_cons_ne c (cs ++ t) (x ++ t) [] hc (by simpa using ih0)]
          rfl
        | cons y ys =>
          simp only [List.cons_append, List.cons.injEq] at h0
          obtain ⟨hx, hxs⟩ := h0
          subst hx
          subst hxs
          rw [splitDot_cons_ne c cs x (ys ++ [last0]) hc hs] at h
          have h4 : ((c :: x) :: ys) ++ [last0] = pre ++ [last] := h
          obtain ⟨e1, e2⟩ := List.append_inj' h4 rfl
          simp only [List.cons.injEq, and_true] at e2
          rw [← e1, ← e2, List.cons_append,
            splitDot_cons_ne c (cs ++ t) x (ys ++ [last0 ++ t]) hc (by simpa using ih0)]
          rfl

theorem strIndex_append (s t : Str) (c : Char) (h : c ∈ s) :
    strIndex (s ++ t) c = strIndex s c := by
  unfold strIndex
  rw [if_pos (by simp [h]), if_pos (by simp [h]), List.indexOf_append_of_mem h]

theorem strIndex_le_length (s : Str) (c : Char) : strIndex s c ≤ (s.length : Int) := by
  unfold strIndex
  split
  · have := @List.indexOf_le_length _ _ c s
    omega
  · omega

theorem strSlice_append (s t : Str) (lo hi : Int) (h : hi ≤ (s.length : Int)) :
    strSlice (s ++ t) lo hi = strSlice s lo hi := by
  unfold strSlice
  by_cases hc : 0 ≤ lo ∧ lo ≤ hi ∧ hi ≤ (s.length : Int)
  · have hc2 : 0 ≤ lo ∧ lo ≤ hi ∧ hi ≤ ((s ++ t).length : Int) := by
      refine ⟨hc.1, hc.2.1, ?_⟩
      simp only [List.length_append]
      omega
    rw [if_pos hc, if_pos hc2]
    have h1 : lo.toNat ≤ s.length := by omega
    rw [List.drop_append_of_le_length h1, List.take_append_of_le_length]
    simp only [List.length_drop]
    omega
  · have hc2 : ¬ (0 ≤ lo ∧ lo ≤ hi ∧ hi ≤ ((s ++ t).length : Int)) := by
      rintro ⟨a, b, _⟩
      exact hc ⟨a, b, h⟩
    rw [if_neg hc, if_neg hc2]

/-- Text after a segment that already holds both brackets is not read. -/
theorem queryLoop_trailing (current : Json) (s t : Str) (rest : List Str)
    (ho : '[' ∈ s) (hc : ']' ∈ s) :
    queryLoop current ((s ++ t) :: rest) = queryLoop current (s :: rest) := by
  have c1 : strContains (s ++ t) '[' = true := (strContains_eq_true _ _).2 (by simp [ho])
  have c2 : strContains (s ++ t) ']' = true := (strContains_eq_true _ _).2 (by simp [hc])
  have c3 : strContains s '[' = true := (strContains_eq_true _ _).2 ho
  have c4 : strContains s ']' = true := (strContains_eq_true _ _).2 hc
  have e1 : strSlice (s ++ t) 0 (strIndex (s ++ t) '[') = strSlice s 0 (strIndex s '[') := by
    rw [strIndex_append s t _ ho]
    exact strSlice_append s t _ _ (strIndex_le_length s _)
  have e2 : strSlice (s ++ t) (strIndex (s ++ t) '[' + 1) (strIndex (s ++ t) ']') =
      strSlice s (strIndex s '[' + 1) (strIndex s ']') := by
    rw [strIndex_append s t _ ho, strIndex_append s t _ hc]
    exact strSlice_append s t _ _ (strIndex_le_length s _)
  cases current <;> simp only [queryLoop, c1, c2, c3, c4, Bool.and_self, if_true, e1, e2]

/-- C24: within a path segment only the text before the first `[` and between
the first `[` and the first `]` is used: with `n` and `t` text of one segment
(no dot), `queryPath(d, k[n]t)` equals `queryPath(d, k[n])`. -/
theorem queryPath_trailing_text (d : Json) (k n t : Str) (hn : '.' ∉ n) (ht : '.' ∉ t) :
    queryPath d (k ++ '[' :: (n ++ ']' :: t)) = queryPath d (k ++ '[' :: (n ++ [']'])) := by
  have hne1 : k ++ '[' :: (n ++ ']' :: t) ≠ [] := by simp
  have hne2 : k ++ '[' :: (n ++ [']']) ≠ [] := by simp
  obtain ⟨pre, last, hk⟩ : ∃ pre last, splitDot k = pre ++ [last] :=
    ⟨(splitDot k).dropLast, (splitDot k).getLast (splitDot_ne_nil k),
      (List.dropLast_append_getLast (splitDot_ne_nil k)).symm⟩
  have hs1 : '.' ∉ '[' :: (n ++ ']' :: t) := by
    simp only [List.mem_cons, List.mem_append, not_or]
    exact ⟨by decide, hn, by decide, ht⟩
  have hs2 : '.' ∉ '[' :: (n ++ [']']) := by
    simp only [List.mem_cons, List.mem_append, List.mem_singleton, not_or]
    exact ⟨by decide, hn, by decide⟩
  unfold queryPath
  rw [if_neg hne1, if_neg hne2, splitDot_append_nodot _ hs1 k pre last hk,
    splitDot_append_nodot _ hs2 k pre last hk, queryLoop_append, queryLoop_append]
  have hseg : last ++ '[' :: (n ++ ']' :: t) = (last ++ '[' :: (n ++ [']'])) ++ t := by simp
  have hq : ∀ cur, queryLoop cur [last ++ '[' :: (n ++ ']' :: t)] =
      queryLoop cur [last ++ '[' :: (n ++ [']'])] := by
    intro cur
    rw [hseg]
    exact queryLoop_trailing cur _ t [] (by simp) (by simp)
  simp only [hq]

/-- Witness for C24: in `{"m": [[7, 8]]}` the path `m[0][1]` resolves to
`m[0]`, found. -/
theorem queryPath_trailing_text_witness :
    queryPath (Json.obj [("m".toList, Json.arr [Json.arr [Json.num 7, Json.num 8]])])
        "m[0][1]".toList
      = queryPath (Json.obj [("m".toList, Json.arr [Json.arr [Json.num 7, Json.num 8]])])
        "m[0]".toList ∧
    queryPath (Json.obj [("m".toList, Json.arr [Json.arr [Json.num 7, Json.num 8]])])
        "m[0][1]".toList = Result.ret (Json.arr [Json.num 7, Json.num 8]) true :=
  ⟨queryPath_trailing_text
      (Json.obj [("m".toList, Json.arr [Json.arr [Json.num 7, Json.num 8]])])
      "m".toList "0".toList "[1]".toList (by decide) (by decide),
    rfl⟩

/-- C25: for non-empty paths `p` and `q`, `queryPath(d, p.q)` is
`queryPath(v, q)` when `queryPath(d, p) = (v, true)`, and `(null, false)` when
`queryPath(d, p)` is not found. -/
theorem queryPath_compose (d : Json) (p q : Str) (hp : p ≠ []) (hq : q ≠ []) :
    (∀ v, queryPath d p = Result.ret v true →
      queryPath d (p ++ '.' :: q) = queryPath v q) ∧
    (∀ x, queryPath d p = Result.ret x false →
      queryPath d (p ++ '.' :: q) = Result.ret Json.null false) := by
  have hne : p ++ '.' :: q ≠ [] := by simp
  unfold queryPath
  rw [if_neg hne, if_neg hp, splitDot_append_dot, queryLoop_append]
  constructor
  · intro v hv
    rw [hv, if_neg hq]
    rfl
  · intro x hx
    rw [hx]
    rcases queryLoop_outcomes (splitDot p) d with h | h | ⟨cur, h⟩
    · rw [h] at hx; cases hx
    · rw [h] at hx; cases hx; rfl
    · rw [h] at hx; cases hx

/-- Witness for C25: in `{"user": {"name": "Ann"}}` the path `user.name`
composes the query for `user` with the query for `name`. -/
theorem queryPath_compose_witness :
    queryPath (Json.obj [("user".toList, Json.obj [("name".toList, Json.str "Ann".toList)])])
        "user.name".toList
      = queryPath (Json.obj [("name".toList, Json.str "Ann".toList)]) "name".toList :=
  (queryPath_compose
      (Json.obj [("user".toList, Json.obj [("name".toList, Json.str "Ann".toList)])])
      "user".toList "name".toList (by decide) (by decide)).1
    (Json.obj [("name".toList, Json.str "Ann".toList)]) rfl

/-! ## Properties of the actions -/

/-- C22: when the `data` parameter of the query action is a string `s`, the
action decodes it first: if `s` decodes to `d`, the outputs carry the result
and the found flag of `queryPath(d, p)`; if `s` does not decode, the action
returns a hard error, not a `found = false` result. -/
theorem executeQuery_string_data (unmarshal : Str → Except Str Json) (params : Obj)
    (s p : Str) (hd : Action.param params "data".toList = Json.str s)
    (hp : Action.param params "path".toList = Json.str p) :
    (∀ d result found, unmarshal s = Except.ok d → queryPath d p = Result.ret result found →
      Action.executeQuery unmarshal params =
        ActionResult.ok [("result".toList, result), ("found".toList, Json.bool found),
          ("path".toList, Json.str p)]) ∧
    (∀ err, unmarshal s = Except.error err →
      Action.executeQuery unmarshal params =
        ActionResult.error ("failed to parse JSON data: ".toList ++ err)) := by
  constructor
  · intro d result found hu hq
    simp only [Action.executeQuery, hp, hd, hu, Action.queryOutputs, hq]
  · intro err hu
    simp only [Action.executeQuery, hp, hd, hu]

/-- Witness for C22: the data string `123` decodes to the number 123, and the
query with the empty path returns it, found. -/
theorem executeQuery_string_data_witness :
    Action.executeQuery sampleUnmarshal
        [("data".toList, Json.str "123".toList), ("path".toList, Json.str [])]
      = ActionResult.ok [("result".toList, Json.num 123), ("found".toList, Json.bool true),
          ("path".toList, Json.str [])] :=
  (executeQuery_string_data sampleUnmarshal
      [("data".toList, Json.str "123".toList), ("path".toList, Json.str [])]
      "123".toList [] rfl rfl).1 (Json.num 123) (Json.num 123) true rfl rfl

theorem executeQuery_string_data_aux (unmarshal : Str → Except Str Json) (s : Str) :
    (∀ d2, unmarshal s = Except.ok d2 →
      Action.executeQuery unmarshal [("data".toList, Json.str s), ("path".toList, Json.str [])]
        = ActionResult.ok [("result".toList, d2), ("found".toList, Json.bool true),
            ("path".toList, Json.str [])]) ∧
    (∀ err, unmarshal s = Except.error err →
      Action.executeQuery unmarshal [("data".toList, Json.str s), ("path".toList, Json.str [])]
        = ActionResult.error ("failed to parse JSON data: ".toList ++ err)) := by
  have hpath : Action.param [("data".toList, Json.str s), ("path".toList, Json.str [])]
      "path".toList = Json.str [] := rfl
  have hdata : Action.param [("data".toList, Json.str s), ("path".toList, Json.str [])]
      "data".toList = Json.str s := rfl
  constructor
  · intro d2 h
    simp only [Action.executeQuery, hpath, hdata, h, Action.queryOutputs, queryPath, if_true]
  · intro err h
    simp only [Action.executeQuery, hpath, hdata, h]

/-- C21, refuted as stated: the text `"hello"` is valid JSON and parses to the
string `hello`, but the query action applied to that data with the empty path
returns a hard error, because it decodes a string `data` again; the text
`"123"` parses to the string `123`, and the query action returns the number
123 instead of the data. -/
theorem query_after_parse_counterexample :
    Action.executeParse sampleUnmarshal [("json".toList, Json.str "\"hello\"".toList)]
      = ActionResult.ok [("data".toList, Json.str "hello".toList),
          ("valid".toList, Json.bool true)] ∧
    Action.executeQuery sampleUnmarshal
        [("data".toList, Json.str "hello".toList), ("path".toList, Json.str [])]
      = ActionResult.error ("failed to parse JSON data: ".toList ++
          "invalid character 'h' looking for beginning of value".toList) ∧
    Action.executeParse sampleUnmarshal [("json".toList, Json.str "\"123\"".toList)]
      = ActionResult.ok [("data".toList, Json.str "123".toList),
          ("valid".toList, Json.bool true)] ∧
    Action.executeQuery sampleUnmarshal
        [("data".toList, Json.str "123".toList), ("path".toList, Json.str [])]
      = ActionResult.ok [("result".toList, Json.num 123), ("found".toList, Json.bool true),
          ("path".toList, Json.str [])] := by
  exact ⟨rfl, rfl, rfl, rfl⟩

/-- C21, amended: for every text that decodes to `data`, the parse action
reports `valid = true` with `data`; the query action applied to that data with
the empty path returns `(data, true)` when `data` is not a string; when `data`
is a string the query action decodes it again, and returns a hard error if it
does not decode and the decoded value, found, if it does. -/
theorem query_after_parse (unmarshal : Str → Except Str Json) (text : Str) (data : Json)
    (h : unmarshal text = Except.ok data) :
    Action.executeParse unmarshal [("json".toList, Json.str text)]
      = ActionResult.ok [("data".toList, data), ("valid".toList, Json.bool true)] ∧
    ((∀ s, data ≠ Json.str s) →
      Action.executeQuery unmarshal [("data".toList, data), ("path".toList, Json.str [])]
        = ActionResult.ok [("result".toList, data), ("found".toList, Json.bool true),
            ("path".toList, Json.str [])]) ∧
    (∀ s, data = Json.str s →
      (∀ err, unmarshal s = Except.error err →
        Action.executeQuery unmarshal [("data".toList, data), ("path".toList, Json.str [])]
          = ActionResult.error ("failed to parse JSON data: ".toList ++ err)) ∧
      (∀ d2, unmarshal s = Except.ok d2 →
        Action.executeQuery unmarshal [("data".toList, data), ("path".toList, Json.str [])]
          = ActionResult.ok [("result".toList, d2), ("found".toList, Json.bool true),
              ("path".toList, Json.str [])])) := by
  have hpath : ∀ x : Json,
      Action.param [("data".toList, x), ("path".toList, Json.str [])] "path".toList
        = Json.str [] := fun _ => rfl
  have hdata : ∀ x : Json,
      Action.param [("data".toList, x), ("path".toList, Json.str [])] "data".toList = x :=
    fun _ => rfl
  refine ⟨?_, ?_, ?_⟩
  · have hj : Action.param [("json".toList, Json.str text)] "json".toList = Json.str text := rfl
    simp only [Action.executeParse, hj, h]
  · intro hns
    cases data with
    | str s => exact absurd rfl (hns s)
    | _ => simp only [Action.executeQuery, hpath, hdata, Action.queryOutputs, queryPath, if_true]
  · intro s hs
    subst hs
    exact ⟨fun err he => (executeQuery_string_data_aux unmarshal s).2 err he,
      fun d2 hd2 => (executeQuery_string_data_aux unmarshal s).1 d2 hd2⟩

/-- Witness for C21 as amended: the text `123` decodes to the number 123, and
the query action with the empty path returns it, found. -/
theorem query_after_parse_witness :
    Action.executeQuery sampleUnmarshal
        [("data".toList, Json.num 123), ("path".toList, Json.str [])]
      = ActionResult.ok [("result".toList, Json.num 123), ("found".toList, Json.bool true),
          ("path".toList, Json.str [])] :=
  (query_after_parse sampleUnmarshal "123".toList (Json.num 123) rfl).2.1
    (by intro s h; cases h)

/-- C23, refuted as stated: in `{"a.b": null}` the key `a.b` is present and
bound to null, but `queryPath(obj, "a.b")` reads the key as the path `a` then
`b` and returns `(null, false)`; validate reports it missing and transform
writes nothing. -/
theorem null_key_counterexample :
    mapGet [("a.b".toList, Json.null)] "a.b".toList = some Json.null ∧
    queryPath (Json.obj [("a.b".toList, Json.null)]) "a.b".toList
      = Result.ret Json.null false ∧
    executeValidate (fun _ => Except.ok (Json.obj [("a.b".toList, Json.null)]))
        "\x7b\"a.b\":null\x7d".toList (some [Json.str "a.b".toList])
      = some (false, [missingMsg "a.b".toList]) ∧
    executeTransform (Json.obj [("a.b".toList, Json.null)])
        [("a.b".toList, Json.str "out".toList)] = some [] := by
  exact ⟨rfl, rfl, rfl, rfl⟩

/-- C23, amended: presence is key presence, not non-nullness, for keys that
are plain paths: when `k` is non-empty, holds no dot and not both brackets, and
is present in the object bound to null, `queryPath(obj, k)` returns
`(null, true)`, validate does not report `k` as missing, and transform copies
the null to the destination. -/
theorem null_key_is_present (o : Obj) (k : Str)
    (hk : k ≠ [] ∧ '.' ∉ k ∧ ¬ ('[' ∈ k ∧ ']' ∈ k))
    (hg : mapGet o k = some Json.null) :
    queryPath (Json.obj o) k = Result.ret Json.null true ∧
    (∀ (unmarshal : Str → Except Str Json) (text : Str),
      unmarshal text = Except.ok (Json.obj o) →
      executeValidate unmarshal text (some [Json.str k]) = some (true, [])) ∧
    (∀ new : Str,
      executeTransform (Json.obj o) [(k, Json.str new)] = some (setPath [] new Json.null)) := by
  have hq : queryPath (Json.obj o) k = Result.ret Json.null true := by
    unfold queryPath
    rw [if_neg hk.1, splitDot_of_not_mem k hk.2.1, queryLoop_plain _ k [] hk.2.2]
    simp only [hg, queryLoop]
  refine ⟨hq, ?_, ?_⟩
  · intro unmarshal text hu
    simp only [executeValidate, hu, validateLoop, hq]
  · intro new
    simp only [executeTransform, transformLoop, transformStep, hq]

/-- Witness for C23 as amended: in `{"k": null}` the key `k` is found. -/
theorem null_key_is_present_witness :
    queryPath (Json.obj [("k".toList, Json.null)]) "k".toList = Result.ret Json.null true :=
  (null_key_is_present [("k".toList, Json.null)] "k".toList
    ⟨by decide, by decide, by decide⟩ rfl).1

/-- The required-field loop keeps `valid` true exactly while `errors` is empty. -/
theorem validateLoop_valid_iff (data : Json) (fields : List Json) :
    ∀ (valid : Bool) (errors : List Str) (out : Bool × List Str),
      (valid = true ↔ errors = []) →
      validateLoop data fields valid errors = some out →
      (out.1 = true ↔ out.2 = []) := by
  induction fields with
  | nil =>
    intro valid errors out hinv hrun
    simp only [validateLoop, Option.some.injEq] at hrun
    rw [← hrun]
    exact hinv
  | cons f rest ih =>
    intro valid errors out hinv hrun
    cases f with
    | str p =>
      cases hq : queryPath data p with
      | panic => simp [validateLoop, hq] at hrun
      | ret x found =>
        cases found with
        | true =>
          simp only [validateLoop, hq] at hrun
          exact ih valid errors out hinv hrun
        | false =>
          simp only [validateLoop, hq] at hrun
          exact ih false (errors ++ [missingMsg p]) out (by simp) hrun
    | _ =>
      simp only [validateLoop] at hrun
      exact ih valid errors out hinv hrun

/-- C28: whenever the validate action returns outputs, whatever the text and
the `required_fields` parameter (missing, not a list, or a list with entries
that are not strings), `valid` is true exactly when the error list is empty. -/
theorem executeValidate_valid_iff_no_errors (unmarshal : Str → Except Str Json)
    (params out : Obj) (h : Action.executeValidate unmarshal params = ActionResult.ok out) :
    ∃ (valid : Bool) (errors : List Str),
      out = [("valid".toList, Json.bool valid),
             ("errors".toList, Json.arr (errors.map Json.str))] ∧
      (valid = true ↔ errors = []) := by
  unfold Action.executeValidate at h
  split at h
  · rename_i jsonStr hj
    split at h
    · cases h
    · rename_i valid errors hrun
      simp only [ActionResult.ok.injEq] at h
      refine ⟨valid, errors, h.symm, ?_⟩
      unfold executeValidate at hrun
      split at hrun
      · simp only [Option.some.injEq, Prod.mk.injEq] at hrun
        obtain ⟨hv, he⟩ := hrun
        rw [← hv, ← he]
        simp
      · rename_i data hd
        split at hrun
        · rename_i fields _
          exact validateLoop_valid_iff data fields true [] (valid, errors) (by simp) hrun
        · simp only [Option.some.injEq, Prod.mk.injEq] at hrun
          obtain ⟨hv, he⟩ := hrun
          rw [← hv, ← he]
          simp
  · cases h

/-- Witness for C28: a document `{"a": 1}` with the required list
`["a", 5, "b"]`: the entry `5` is skipped, `b` is missing, `valid` is false and
the error list is not empty. -/
theorem executeValidate_valid_iff_no_errors_witness :
    ∃ (valid : Bool) (errors : List Str),
      [("valid".toList, Json.bool false),
       ("errors".toList, Json.arr [Json.str (missingMsg "b".toList)])]
        = [("valid".toList, Json.bool valid),
           ("errors".toList, Json.arr (errors.map Json.str))] ∧
      (valid = true ↔ errors = []) :=
  executeValidate_valid_iff_no_errors
    (fun _ => Except.ok (Json.obj [("a".toList, Json.num 1)]))
    [("json".toList, Json.str "\x7b\"a\":1\x7d".toList),
     ("required_fields".toList,
       Json.arr [Json.str "a".toList, Json.num 5, Json.str "b".toList])]
    [("valid".toList, Json.bool false),
     ("errors".toList, Json.arr [Json.str (missingMsg "b".toList)])]
    rfl

/-! ## Properties of the dispatcher -/

theorem executeParse_not_unknown (unmarshal : Str → Except Str Json) (params : Obj)
    (action : Str) :
    Action.executeParse unmarshal params ≠ ActionResult.error (Action.unknownAction action) := by
  unfold Action.executeParse
  intro h
  split at h
  · split at h <;> cases h
  · simp [Action.unknownAction] at h

theorem executeQuery_not_unknown (unmarshal : Str → Except Str Json) (params : Obj)
    (action : Str) :
    Action.executeQuery unmarshal params ≠ ActionResult.error (Action.unknownAction action) := by
  have hout : ∀ d p, Action.queryOutputs d p ≠ ActionResult.error (Action.unknownAction action) := by
    intro d p h
    unfold Action.queryOutputs at h
    split at h <;> cases h
  unfold Action.executeQuery
  intro h
  split at h
  · split at h
    · split at h
      · simp [Action.unknownAction] at h
      · exact hout _ _ h
    · exact hout _ _ h
  · simp [Action.unknownAction] at h

theorem executeValidate_not_unknown (unmarshal : Str → Except Str Json) (params : Obj)
    (action : Str) :
    Action.executeValidate unmarshal params ≠
      ActionResult.error (Action.unknownAction action) := by
  unfold Action.executeValidate
  intro h
  split at h
  · split at h <;> cases h
  · simp [Action.unknownAction] at h

theorem executeTransform_not_unknown (params : Obj) (action : Str) :
    Action.executeTransform params ≠ ActionResult.error (Action.unknownAction action) := by
  unfold Action.executeTransform
  intro h
  split at h
  · split at h <;> cases h
  · simp [Action.unknownAction] at h

/-- C29: `Execute` returns the `unknown action` error, with no result, exactly
when the action name is none of `parse`, `query`, `validate`, `transform`; for
each of those four names it returns what the corresponding handler returns. -/
theorem Execute_dispatch (unmarshal : Str → Except Str Json) (action : Str) (params : Obj) :
    (Action.Execute unmarshal action params = ActionResult.error (Action.unknownAction action) ↔
      (action ≠ "parse".toList ∧ action ≠ "query".toList ∧ action ≠ "validate".toList ∧
        action ≠ "transform".toList)) ∧
    Action.Execute unmarshal "parse".toList params = Action.executeParse unmarshal params ∧
    Action.Execute unmarshal "query".toList params = Action.executeQuery unmarshal params ∧
    Action.Execute unmarshal "validate".toList params
      = Action.executeValidate unmarshal params ∧
    Action.Execute unmarshal "transform".toList params = Action.executeTransform params := by
  refine ⟨?_, rfl, rfl, rfl, rfl⟩
  unfold Action.Execute
  by_cases h1 : action = "parse".toList
  · rw [if_pos h1]
    exact ⟨fun h => absurd h (executeParse_not_unknown unmarshal params action),
      fun h => absurd h1 h.1⟩
  · rw [if_neg h1]
    by_cases h2 : action = "query".toList
    · rw [if_pos h2]
      exact ⟨fun h => absurd h (executeQuery_not_unknown unmarshal params action),
        fun h => absurd h2 h.2.1⟩
    · rw [if_neg h2]
      by_cases h3 : action = "validate".toList
      · rw [if_pos h3]
        exact ⟨fun h => absurd h (executeValidate_not_unknown unmarshal params action),
          fun h => absurd h3 h.2.2.1⟩
      · rw [if_neg h3]
        by_cases h4 : action = "transform".toList
        · rw [if_pos h4]
          exact ⟨fun h => absurd h (executeTransform_not_unknown params action),
            fun h => absurd h4 h.2.2.2⟩
        · rw [if_neg h4]
          exact ⟨fun _ => ⟨h1, h2, h3, h4⟩, fun _ => rfl⟩

/-! ## Writes that stay out of `data`; assignments on shared maps -/

theorem Shared.cellGet_cellSet_self (m : Shared.Cell) (k : Str) (v : Shared.Val) :
    Shared.cellGet (Shared.cellSet m k v) k = some v := by
  induction m with
  | nil => simp [Shared.cellSet, Shared.cellGet]
  | cons kv rest ih =>
    obtain ⟨k1, v1⟩ := kv
    by_cases h1 : k1 = k
    · simp [Shared.cellSet, Shared.cellGet, h1]
    · simp [Shared.cellSet, Shared.cellGet, h1, ih]

theorem Shared.cellGet_cellSet_ne (m : Shared.Cell) (k k' : Str) (v : Shared.Val)
    (h : k' ≠ k) : Shared.cellGet (Shared.cellSet m k v) k' = Shared.cellGet m k' := by
  induction m with
  | nil => simp [Shared.cellSet, Shared.cellGet, Ne.symm h]
  | cons kv rest ih =>
    obtain ⟨k1, v1⟩ := kv
    by_cases h1 : k1 = k
    · subst h1
      simp [Shared.cellSet, Shared.cellGet, Ne.symm h]
    · by_cases h2 : k1 = k'
      · subst h2
        simp [Shared.cellSet, Shared.cellGet, h1]
      · simp [Shared.cellSet, Shared.cellGet, h1, h2, ih]

theorem Shared.length_write (h : Shared.Store) (a : Nat) (k : Str) (v : Shared.Val) :
    (Shared.write h a k v).length = h.length := by
  unfold Shared.write
  cases h[a]? with
  | none => rfl
  | some m => exact List.length_set _ _ _

theorem Shared.write_self (h : Shared.Store) (a : Nat) (k : Str) (v : Shared.Val)
    (m : Shared.Cell) (hm : h[a]? = some m) :
    (Shared.write h a k v)[a]? = some (Shared.cellSet m k v) := by
  unfold Shared.write
  rw [hm]
  have hlt : a < h.length := by
    rcases Nat.lt_or_ge a h.length with h1 | h1
    · exact h1
    · rw [List.getElem?_eq_none h1] at hm
      cases hm
  simp [List.getElem?_set, hlt]

theorem Shared.spineInv_mono (n0 : Nat) (h : Shared.Store) (S : List (List Str × Nat))
    (W W' : List (List Str)) (hW : ∀ w ∈ W, w ∈ W') (hinv : Shared.SpineInv n0 h S W) :
    Shared.SpineInv n0 h S W' := by
  obtain ⟨h1, h2, h3⟩ := hinv
  refine ⟨h1, h2, ?_⟩
  intro e he m k val hm hg
  rcases h3 e he m k val hm hg with h4 | h4
  · exact Or.inl h4
  · exact Or.inr (hW _ h4)

theorem Shared.spineInv_write (n0 : Nat) (h : Shared.Store) (S : List (List Str × Nat))
    (W : List (List Str)) (P : List Str) (cur : Nat) (k : Str) (v : Shared.Val)
    (hinv : Shared.SpineInv n0 h S W) (hcur : (P, cur) ∈ S)
    (hv : (∃ b, v = Shared.Val.ref b ∧ (P ++ [k], b) ∈ S) ∨ (P ++ [k]) ∈ W) :
    Shared.SpineInv n0 (Shared.write h cur k v) S W := by
  obtain ⟨h1, h2, h3⟩ := hinv
  refine ⟨?_, h2, ?_⟩
  · intro e he
    rw [Shared.length_write]
    exact h1 e he
  · intro e he m k' val hm hg
    by_cases hec : e.2 = cur
    · have heP : e.1 = P := h2 e he (P, cur) hcur hec
      have hlt : cur < h.length := (h1 (P, cur) hcur).2
      obtain ⟨m0, hm0⟩ : ∃ m0, h[cur]? = some m0 :=
        ⟨h[cur], List.getElem?_eq_getElem hlt⟩
      rw [hec, Shared.write_self h cur k v m0 hm0] at hm
      cases hm
      by_cases hk : k' = k
      · subst hk
        rw [Shared.cellGet_cellSet_self] at hg
        cases hg
        rw [heP]
        exact hv
      · rw [Shared.cellGet_cellSet_ne m0 k k' v hk] at hg
        exact h3 e he m0 k' val (by rw [hec]; exact hm0) hg
    · rw [Shared.write_frame h cur k v e.2 hec] at hm
      exact h3 e he m k' val hm hg

theorem Shared.spineInv_alloc (n0 : Nat) (h : Shared.Store) (S : List (List Str × Nat))
    (W : List (List Str)) (P : List Str) (hinv : Shared.SpineInv n0 h S W)
    (hn : n0 ≤ h.length) :
    Shared.SpineInv n0 (h ++ [[]]) ((P, h.length) :: S) W := by
  obtain ⟨h1, h2, h3⟩ := hinv
  refine ⟨?_, ?_, ?_⟩
  · intro e he
    rw [List.length_append, List.length_singleton]
    rcases List.mem_cons.1 he with he | he
    · subst he
      exact ⟨hn, Nat.lt_succ_self _⟩
    · exact ⟨(h1 e he).1, Nat.lt_succ_of_lt (h1 e he).2⟩
  · intro e1 he1 e2 he2 heq
    rcases List.mem_cons.1 he1 with he1 | he1
    · rcases List.mem_cons.1 he2 with he2 | he2
      · rw [he1, he2]
      · have := (h1 e2 he2).2
        rw [he1] at heq
        simp only at heq
        omega
    · rcases List.mem_cons.1 he2 with he2 | he2
      · have := (h1 e1 he1).2
        rw [he2] at heq
        simp only at heq
        omega
      · exact h2 e1 he1 e2 he2 heq
  · intro e he m k val hm hg
    rcases List.mem_cons.1 he with he | he
    · subst he
      simp only [List.getElem?_concat_length, Option.some.injEq] at hm
      subst hm
      cases hg
    · rw [List.getElem?_append_left (h1 e he).2] at hm
      rcases h3 e he m k val hm hg with ⟨b, hb1, hb2⟩ | h4
      · exact Or.inl ⟨b, hb1, List.mem_cons_of_mem _ hb2⟩
      · exact Or.inr h4

theorem Shared.setLoop_spine (n0 : Nat) (v : Shared.Val) (parts : List Str) :
    ∀ (h : Shared.Store) (S : List (List Str × Nat)) (W : List (List Str)) (P : List Str)
      (cur : Nat),
      Shared.SpineInv n0 h S W → (P, cur) ∈ S → (∀ w ∈ W, ¬ w <+: P ++ parts) →
      ∃ S', Shared.SpineInv n0 (Shared.setLoop h cur parts v) S' ((P ++ parts) :: W) ∧
        (∀ e ∈ S, e ∈ S') ∧
        (∀ a, a < n0 → (Shared.setLoop h cur parts v)[a]? = h[a]?) := by
  induction parts with
  | nil =>
    intro h S W P cur hinv _ _
    exact ⟨S, Shared.spineInv_mono n0 h S W _ (fun w hw => List.mem_cons_of_mem _ hw) hinv,
      fun e he => he, fun _ _ => rfl⟩
  | cons part rest ih =>
    intro h S W P cur hinv hcur hW
    have hbound := hinv.1 (P, cur) hcur
    have hlt : cur < h.length := hbound.2
    have hge : n0 ≤ cur := hbound.1
    obtain ⟨m0, hm0⟩ : ∃ m0, h[cur]? = some m0 := ⟨h[cur], List.getElem?_eq_getElem hlt⟩
    cases rest with
    | nil =>
      refine ⟨S, ?_, fun e he => he, ?_⟩
      · show Shared.SpineInv n0 (Shared.write h cur part v) S ((P ++ [part]) :: W)
        exact Shared.spineInv_write n0 h S _ P cur part v
          (Shared.spineInv_mono n0 h S W _ (fun w hw => List.mem_cons_of_mem _ hw) hinv)
          hcur (Or.inr (List.mem_cons_self _ _))
      · intro a ha
        show (Shared.write h cur part v)[a]? = h[a]?
        exact Shared.write_frame h cur part v a (by omega)
    | cons next rest' =>
      have hpath : (P ++ [part]) ++ (next :: rest') = P ++ part :: next :: rest' := by simp
      cases hg : Shared.cellGet m0 part with
      | none =>
        have hstep : Shared.setLoop h cur (part :: next :: rest') v
            = Shared.setLoop (Shared.write (h ++ [[]]) cur part (Shared.Val.ref h.length))
                h.length (next :: rest') v := by
          simp [Shared.setLoop, hm0, hg]
        have hinv1 : Shared.SpineInv n0
            (Shared.write (h ++ [[]]) cur part (Shared.Val.ref h.length))
            ((P ++ [part], h.length) :: S) W :=
          Shared.spineInv_write n0 (h ++ [[]]) _ W P cur part (Shared.Val.ref h.length)
            (Shared.spineInv_alloc n0 h S W (P ++ [part]) hinv (by omega))
            (List.mem_cons_of_mem _ hcur)
            (Or.inl ⟨h.length, rfl, List.mem_cons_self _ _⟩)
        obtain ⟨S', hinv', hsub, hframe⟩ := ih _ _ W (P ++ [part]) h.length hinv1
          (List.mem_cons_self _ _) (by rw [hpath]; exact hW)
        rw [hpath] at hinv'
        refine ⟨S', by rw [hstep]; exact hinv',
          fun e he => hsub e (List.mem_cons_of_mem _ he), ?_⟩
        intro a ha
        rw [hstep, hframe a ha, Shared.write_frame _ cur part _ a (by omega),
          List.getElem?_append_left (by omega)]
      | some val =>
        have hcontra : (P ++ [part]) ∈ W → False := fun hmem =>
          hW _ hmem ⟨next :: rest', hpath⟩
        have hkeep : Shared.setLoop h cur (part :: next :: rest') v = h →
            ∃ S', Shared.SpineInv n0 (Shared.setLoop h cur (part :: next :: rest') v) S'
                ((P ++ part :: next :: rest') :: W) ∧
              (∀ e ∈ S, e ∈ S') ∧
              (∀ a, a < n0 → (Shared.setLoop h cur (part :: next :: rest') v)[a]? = h[a]?) :=
          fun heq => ⟨S, by
            rw [heq]
            exact Shared.spineInv_mono n0 h S W _ (fun w hw => List.mem_cons_of_mem _ hw) hinv,
            fun e he => he, fun a _ => by rw [heq]⟩
        cases val with
        | ref b =>
          have hstep : Shared.setLoop h cur (part :: next :: rest') v
              = Shared.setLoop h b (next :: rest') v := by
            simp [Shared.setLoop, hm0, hg]
          rcases hinv.2.2 (P, cur) hcur m0 part (Shared.Val.ref b) hm0 hg with
            ⟨b', hb1, hb2⟩ | hmem
          · cases hb1
            obtain ⟨S', hinv', hsub, hframe⟩ := ih h S W (P ++ [part]) b hinv hb2
              (by rw [hpath]; exact hW)
            rw [hpath] at hinv'
            exact ⟨S', by rw [hstep]; exact hinv', hsub,
              fun a ha => by rw [hstep]; exact hframe a ha⟩
          · exact (hcontra hmem).elim
        | null => exact hkeep (by simp [Shared.setLoop, hm0, hg])
        | bool x => exact hkeep (by simp [Shared.setLoop, hm0, hg])
        | num x => exact hkeep (by simp [Shared.setLoop, hm0, hg])
        | str x => exact hkeep (by simp [Shared.setLoop, hm0, hg])
        | arr x => exact hkeep (by simp [Shared.setLoop, hm0, hg])

theorem Shared.transformLoop_spine (n0 : Nat) (data : Shared.Val) (r : Nat)
    (rules : List (Str × Shared.Val)) :
    ∀ (h : Shared.Store) (S : List (List Str × Nat)) (W : List (List Str)),
      Shared.SpineInv n0 h S W → ([], r) ∈ S →
      rules.Pairwise Shared.RulesApart →
      (∀ rule ∈ rules, ∀ p, rule.2 = Shared.Val.str p → ∀ w ∈ W, ¬ w <+: splitDot p) →
      ∀ h', Shared.transformLoop data r rules h = some h' →
      ∀ a, a < n0 → h'[a]? = h[a]? := by
  induction rules with
  | nil =>
    intro h S W _ _ _ _ h' hrun a _
    simp only [Shared.transformLoop, Option.some.injEq] at hrun
    rw [← hrun]
  | cons rule rest ih =>
    intro h S W hinv hr hpw hW h' hrun a ha
    have hpw' := List.Pairwise.of_cons hpw
    have hW' : ∀ rule ∈ rest, ∀ p, rule.2 = Shared.Val.str p → ∀ w ∈ W, ¬ w <+: splitDot p :=
      fun x hx => hW x (List.mem_cons_of_mem _ hx)
    cases h2 : rule.2 with
    | str p =>
      cases hq : Shared.queryPath h data rule.1 with
      | panic => simp [Shared.transformLoop, h2, hq] at hrun
      | ret x found =>
        cases found with
        | true =>
          simp only [Shared.transformLoop, h2, hq] at hrun
          by_cases hp : p = []
          · have hset : Shared.setPath h r p x = h := by
              unfold Shared.setPath
              rw [if_pos hp]
            rw [hset] at hrun
            exact ih h S W hinv hr hpw' hW' h' hrun a ha
          · have hset : Shared.setPath h r p x = Shared.setLoop h r (splitDot p) x := by
              unfold Shared.setPath
              rw [if_neg hp]
            rw [hset] at hrun
            obtain ⟨S', hinv', hsub, hframe⟩ := Shared.setLoop_spine n0 x (splitDot p) h S W []
              r hinv hr (by
                rw [List.nil_append]
                exact hW rule (List.mem_cons_self _ _) p h2)
            rw [List.nil_append] at hinv'
            rw [ih _ S' _ hinv' (hsub _ hr) hpw' ?_ h' hrun a ha, hframe a ha]
            intro rule' hrule' q hq2 w hw
            rcases List.mem_cons.1 hw with hw | hw
            · subst hw
              intro hpre
              exact (List.pairwise_cons.1 hpw).1 rule' hrule' p q h2 hq2 (Or.inl hpre)
            · exact hW' rule' hrule' q hq2 w hw
        | false =>
          simp only [Shared.transformLoop, h2, hq] at hrun
          exact ih h S W hinv hr hpw' hW' h' hrun a ha
    | _ =>
      simp only [Shared.transformLoop, h2] at hrun
      exact ih h S W hinv hr hpw' hW' h' hrun a ha

/-- When no two rules target overlapping destination paths, every map that
existed before the call is as it was after the call: the writes of `setPath`
stay in `result` and in the maps that `setPath` itself allocates. -/
theorem Shared.executeTransform_keeps_data (h : Shared.Store) (data : Shared.Val)
    (rules : List (Str × Shared.Val)) (h' : Shared.Store) (r : Nat)
    (hapart : rules.Pairwise Shared.RulesApart)
    (hrun : Shared.executeTransform h data rules = some (h', r)) :
    ∀ a, a < h.length → h'[a]? = h[a]? := by
  intro a ha
  unfold Shared.executeTransform at hrun
  cases hl : Shared.transformLoop data h.length rules (h ++ [[]]) with
  | none => simp [hl] at hrun
  | some h1 =>
    simp only [hl, Option.some.injEq, Prod.mk.injEq] at hrun
    obtain ⟨e1, _⟩ := hrun
    subst e1
    have hinv : Shared.SpineInv h.length (h ++ [[]]) [([], h.length)] [] := by
      refine ⟨?_, ?_, ?_⟩
      · intro e he
        rw [List.mem_singleton] at he
        subst he
        simp
      · intro e1 he1 e2 he2 _
        rw [List.mem_singleton] at he1 he2
        rw [he1, he2]
      · intro e he m k val hm hg
        rw [List.mem_singleton] at he
        subst he
        simp only [List.getElem?_concat_length, Option.some.injEq] at hm
        subst hm
        cases hg
    rw [Shared.transformLoop_spine h.length data h.length rules (h ++ [[]]) _ [] hinv
      (List.mem_singleton.2 rfl) hapart (fun _ _ _ _ w hw => by cases hw) h1 hl a ha,
      List.getElem?_append_left ha]

theorem Shared.write_keeps_keys (h : Shared.Store) (c : Nat) (k' : Str) (v : Shared.Val)
    (a : Nat) (k : Str)
    (hk : ((h[a]?).bind (fun m => Shared.cellGet m k)).isSome = true) :
    (((Shared.write h c k' v)[a]?).bind (fun m => Shared.cellGet m k)).isSome = true := by
  by_cases hac : a = c
  · subst hac
    cases hm : h[a]? with
    | none => simp [hm] at hk
    | some m =>
      rw [Shared.write_self h a k' v m hm]
      rw [hm] at hk
      by_cases hkk : k = k'
      · subst hkk
        simp [Shared.cellGet_cellSet_self]
      · simpa [Shared.cellGet_cellSet_ne m k' k v hkk] using hk
  · rw [Shared.write_frame h c k' v a hac]
    exact hk

theorem Shared.append_keeps_keys (h : Shared.Store) (a : Nat) (k : Str)
    (hk : ((h[a]?).bind (fun m => Shared.cellGet m k)).isSome = true) :
    ((((h ++ [[]] : Shared.Store))[a]?).bind (fun m => Shared.cellGet m k)).isSome = true := by
  rcases Nat.lt_or_ge a h.length with hlt | hge
  · rw [List.getElem?_append_left hlt]
    exact hk
  · rw [List.getElem?_eq_none hge] at hk
    simp at hk

theorem Shared.setLoop_keeps_keys (v : Shared.Val) (parts : List Str) :
    ∀ (h : Shared.Store) (cur a : Nat) (k : Str),
      ((h[a]?).bind (fun m => Shared.cellGet m k)).isSome = true →
      (((Shared.setLoop h cur parts v)[a]?).bind (fun m => Shared.cellGet m k)).isSome
        = true := by
  induction parts with
  | nil =>
    intro h cur a k hk
    exact hk
  | cons part rest ih =>
    intro h cur a k hk
    cases rest with
    | nil => exact Shared.write_keeps_keys h cur part v a k hk
    | cons next rest' =>
      cases hg : (h[cur]?).bind (fun m => Shared.cellGet m part) with
      | none =>
        simp only [Shared.setLoop, hg]
        exact ih _ _ a k
          (Shared.write_keeps_keys _ cur part _ a k (Shared.append_keeps_keys h a k hk))
      | some val =>
        cases val with
        | ref b =>
          simp only [Shared.setLoop, hg]
          exact ih h b a k hk
        | null => simpa only [Shared.setLoop, hg] using hk
        | bool x => simpa only [Shared.setLoop, hg] using hk
        | num x => simpa only [Shared.setLoop, hg] using hk
        | str x => simpa only [Shared.setLoop, hg] using hk
        | arr x => simpa only [Shared.setLoop, hg] using hk

/-- Over the store, with or without shared maps, `setPath` removes no key from
any map. -/
theorem Shared.setPath_keeps_keys (h : Shared.Store) (root : Nat) (p : Str) (v : Shared.Val)
    (a : Nat) (k : Str)
    (hk : ((h[a]?).bind (fun m => Shared.cellGet m k)).isSome = true) :
    (((Shared.setPath h root p v)[a]?).bind (fun m => Shared.cellGet m k)).isSome = true := by
  unfold Shared.setPath
  by_cases hp : p = []
  · rw [if_pos hp]
    exact hk
  · rw [if_neg hp]
    exact Shared.setLoop_keeps_keys v (splitDot p) h root a k hk

theorem Shared.noRef_alloc (root : Nat) (h : Shared.Store) (cur : Nat) (part : Str)
    (hroot : root < h.length)
    (hno : ∀ (a : Nat) (m : Shared.Cell) (k : Str), h[a]? = some m →
      Shared.cellGet m k ≠ some (Shared.Val.ref root)) :
    ∀ (a : Nat) (m : Shared.Cell) (k : Str),
      (Shared.write (h ++ [[]]) cur part (Shared.Val.ref h.length))[a]? = some m →
      Shared.cellGet m k ≠ some (Shared.Val.ref root) := by
  have hold : ∀ (a : Nat) (m : Shared.Cell) (k : Str), (h ++ [[]] : Shared.Store)[a]? = some m →
      Shared.cellGet m k ≠ some (Shared.Val.ref root) := by
    intro a m k hm
    rcases Nat.lt_or_ge a h.length with hlt | hge
    · rw [List.getElem?_append_left hlt] at hm
      exact hno a m k hm
    · have hlen : a < (h ++ [[]] : Shared.Store).length := by
        rcases Nat.lt_or_ge a (h ++ [[]] : Shared.Store).length with h1 | h1
        · exact h1
        · rw [List.getElem?_eq_none h1] at hm
          cases hm
      rw [List.length_append, List.length_singleton] at hlen
      have ha : a = h.length := by omega
      subst ha
      simp only [List.getElem?_concat_length, Option.some.injEq] at hm
      subst hm
      intro heq
      cases heq
  intro a m k hm
  by_cases hac : a = cur
  · subst hac
    cases hm0 : (h ++ [[]] : Shared.Store)[a]? with
    | none =>
      unfold Shared.write at hm
      rw [hm0] at hm
      rw [hm0] at hm
      cases hm
    | some m0 =>
      rw [Shared.write_self _ a part _ m0 hm0] at hm
      cases hm
      by_cases hk : k = part
      · subst hk
        rw [Shared.cellGet_cellSet_self]
        intro heq
        cases heq
        omega
      · rw [Shared.cellGet_cellSet_ne m0 part k _ hk]
        exact hold a m0 k hm0
  · rw [Shared.write_frame _ cur part _ a hac] at hm
    exact hold a m k hm

theorem Shared.setLoop_away (root : Nat) (v : Shared.Val) (parts : List Str) :
    ∀ (h : Shared.Store) (cur : Nat), cur ≠ root → root < h.length →
      (∀ (a : Nat) (m : Shared.Cell) (k : Str), h[a]? = some m →
        Shared.cellGet m k ≠ some (Shared.Val.ref root)) →
      (Shared.setLoop h cur parts v)[root]? = h[root]? := by
  induction parts with
  | nil =>
    intro h cur _ _ _
    rfl
  | cons part rest ih =>
    intro h cur hcur hroot hno
    cases rest with
    | nil => exact Shared.write_frame h cur part v root (Ne.symm hcur)
    | cons next rest' =>
      cases hg : (h[cur]?).bind (fun m => Shared.cellGet m part) with
      | none =>
        simp only [Shared.setLoop, hg]
        rw [ih _ h.length (by omega) (by
            rw [Shared.length_write, List.length_append, List.length_singleton]
            omega) (Shared.noRef_alloc root h cur part hroot hno),
          Shared.write_frame _ cur part _ root (Ne.symm hcur),
          List.getElem?_append_left hroot]
      | some val =>
        cases val with
        | ref b =>
          simp only [Shared.setLoop, hg]
          have hb : b ≠ root := by
            cases hm : h[cur]? with
            | none => simp [hm] at hg
            | some m =>
              rw [hm] at hg
              intro hbr
              subst hbr
              exact hno cur m part hm hg
          exact ih h b hb hroot hno
        | null => simp only [Shared.setLoop, hg]
        | bool x => simp only [Shared.setLoop, hg]
        | num x => simp only [Shared.setLoop, hg]
        | str x => simp only [Shared.setLoop, hg]
        | arr x => simp only [Shared.setLoop, hg]

/-- Over the store, when no map refers to the map at `root`, `setPath` leaves
every key of that map other than the first segment of the path bound as it was:
to the same scalar, or to the same map or array. -/
theorem Shared.setPath_other_keys (h : Shared.Store) (root : Nat) (p : Str) (v : Shared.Val)
    (first : Str) (rest : List Str) (hroot : root < h.length)
    (hno : ∀ (a : Nat) (m : Shared.Cell) (k : Str), h[a]? = some m →
      Shared.cellGet m k ≠ some (Shared.Val.ref root))
    (hs : splitDot p = first :: rest) (k : Str) (hk : k ≠ first) :
    ((Shared.setPath h root p v)[root]?).bind (fun m => Shared.cellGet m k)
      = (h[root]?).bind (fun m => Shared.cellGet m k) := by
  unfold Shared.setPath
  by_cases hp : p = []
  · rw [if_pos hp]
  · rw [if_neg hp, hs]
    obtain ⟨m0, hm0⟩ : ∃ m0, h[root]? = some m0 := ⟨h[root], List.getElem?_eq_getElem hroot⟩
    cases rest with
    | nil =>
      show ((Shared.write h root first v)[root]?).bind (fun m => Shared.cellGet m k) = _
      rw [Shared.write_self h root first v m0 hm0, hm0]
      exact Shared.cellGet_cellSet_ne m0 first k v hk
    | cons next rest' =>
      cases hg : (h[root]?).bind (fun m => Shared.cellGet m first) with
      | none =>
        simp only [Shared.setLoop, hg]
        rw [Shared.setLoop_away root v _ _ h.length (by omega) (by
            rw [Shared.length_write, List.length_append, List.length_singleton]
            omega) (Shared.noRef_alloc root h root first hroot hno),
          Shared.write_self _ root first _ m0 (by
            rw [List.getElem?_append_left hroot]
            exact hm0),
          hm0]
        exact Shared.cellGet_cellSet_ne m0 first k _ hk
      | some val =>
        cases val with
        | ref b =>
          simp only [Shared.setLoop, hg]
          have hb : b ≠ root := by
            rw [hm0] at hg
            intro hbr
            subst hbr
            exact hno b m0 first hm0 hg
          rw [Shared.setLoop_away root v _ h b hb hroot hno]
        | null => simp only [Shared.setLoop, hg]
        | bool x => simp only [Shared.setLoop, hg]
        | num x => simp only [Shared.setLoop, hg]
        | str x => simp only [Shared.setLoop, hg]
        | arr x => simp only [Shared.setLoop, hg]

/-- C14, refuted as stated: the rules `"" ↦ p` and `a ↦ q` on
`data = {"a": {"x": 1}, "b": 2}` build `result = {"p": data, "q": data.a}`,
in which the map of `data.a` is reached both as `p.a` and as `q`.  The
destinations `p.a.y` and `q.y` do not overlap, yet both assignments write the
key `y` of that one map: `result` ends with `y = false` when `p.a.y` is
assigned first and with `y = true` when `q.y` is, and the two final objects
are not structurally equal. -/
theorem setPath_commute_shared_counterexample :
    Shared.executeTransform
        [[("a".toList, Shared.Val.ref 1), ("b".toList, Shared.Val.num 2)],
         [("x".toList, Shared.Val.num 1)]]
        (Shared.Val.ref 0)
        [([], Shared.Val.str "p".toList), ("a".toList, Shared.Val.str "q".toList)]
      = some ([[("a".toList, Shared.Val.ref 1), ("b".toList, Shared.Val.num 2)],
               [("x".toList, Shared.Val.num 1)],
               [("p".toList, Shared.Val.ref 0), ("q".toList, Shared.Val.ref 1)]], 2) ∧
    ¬ Overlap "p.a.y".toList "q.y".toList ∧
    Shared.setPath
        (Shared.setPath
          [[("a".toList, Shared.Val.ref 1), ("b".toList, Shared.Val.num 2)],
           [("x".toList, Shared.Val.num 1)],
           [("p".toList, Shared.Val.ref 0), ("q".toList, Shared.Val.ref 1)]]
          2 "p.a.y".toList (Shared.Val.bool true))
        2 "q.y".toList (Shared.Val.bool false)
      = [[("a".toList, Shared.Val.ref 1), ("b".toList, Shared.Val.num 2)],
         [("x".toList, Shared.Val.num 1), ("y".toList, Shared.Val.bool false)],
         [("p".toList, Shared.Val.ref 0), ("q".toList, Shared.Val.ref 1)]] ∧
    Shared.setPath
        (Shared.setPath
          [[("a".toList, Shared.Val.ref 1), ("b".toList, Shared.Val.num 2)],
           [("x".toList, Shared.Val.num 1)],
           [("p".toList, Shared.Val.ref 0), ("q".toList, Shared.Val.ref 1)]]
          2 "q.y".toList (Shared.Val.bool false))
        2 "p.a.y".toList (Shared.Val.bool true)
      = [[("a".toList, Shared.Val.ref 1), ("b".toList, Shared.Val.num 2)],
         [("x".toList, Shared.Val.num 1), ("y".toList, Shared.Val.bool true)],
         [("p".toList, Shared.Val.ref 0), ("q".toList, Shared.Val.ref 1)]] ∧
    ¬ Json.Equiv
      (Shared.toJson 4
        [[("a".toList, Shared.Val.ref 1), ("b".toList, Shared.Val.num 2)],
         [("x".toList, Shared.Val.num 1), ("y".toList, Shared.Val.bool false)],
         [("p".toList, Shared.Val.ref 0), ("q".toList, Shared.Val.ref 1)]] (Shared.Val.ref 2))
      (Shared.toJson 4
        [[("a".toList, Shared.Val.ref 1), ("b".toList, Shared.Val.num 2)],
         [("x".toList, Shared.Val.num 1), ("y".toList, Shared.Val.bool true)],
         [("p".toList, Shared.Val.ref 0), ("q".toList, Shared.Val.ref 1)]]
        (Shared.Val.ref 2)) := by
  refine ⟨rfl, by unfold Overlap; decide, rfl, rfl, ?_⟩
  intro h
  have h2 : Json.Equiv
      (Json.obj [("p".toList, Json.obj [("a".toList, Json.obj [("x".toList, Json.num 1),
          ("y".toList, Json.bool false)]), ("b".toList, Json.num 2)]),
        ("q".toList, Json.obj [("x".toList, Json.num 1), ("y".toList, Json.bool false)])])
      (Json.obj [("p".toList, Json.obj [("a".toList, Json.obj [("x".toList, Json.num 1),
          ("y".toList, Json.bool true)]), ("b".toList, Json.num 2)]),
        ("q".toList, Json.obj [("x".toList, Json.num 1), ("y".toList, Json.bool true)])]) := h
  have h3 := ((jsonEquiv_obj_iff _ _).1 h2).2 "q".toList _ _ rfl rfl
  have h4 := ((jsonEquiv_obj_iff _ _).1 h3).2 "y".toList (Json.bool false) (Json.bool true)
    rfl rfl
  cases h4

/-- C27, refuted as stated: in `result = {"p": data, "q": data.a}`, built by
the rules `"" ↦ p` and `a ↦ q` on `data = {"a": {"x": 1}, "b": 2}`, the
assignment `setPath(result, "q.y", true)` has first segment `q`.  The key `p`
stays bound to the same map, but that map holds the map written under `q`: `p`
read `{"a": {"x": 1}, "b": 2}` before the call and reads
`{"a": {"x": 1, "y": true}, "b": 2}` after it. -/
theorem setPath_frame_shared_counterexample :
    Shared.executeTransform
        [[("a".toList, Shared.Val.ref 1), ("b".toList, Shared.Val.num 2)],
         [("x".toList, Shared.Val.num 1)]]
        (Shared.Val.ref 0)
        [([], Shared.Val.str "p".toList), ("a".toList, Shared.Val.str "q".toList)]
      = some ([[("a".toList, Shared.Val.ref 1), ("b".toList, Shared.Val.num 2)],
               [("x".toList, Shared.Val.num 1)],
               [("p".toList, Shared.Val.ref 0), ("q".toList, Shared.Val.ref 1)]], 2) ∧
    splitDot "q.y".toList = ["q".toList, "y".toList] ∧
    "p".toList ≠ "q".toList ∧
    Shared.setPath
        [[("a".toList, Shared.Val.ref 1), ("b".toList, Shared.Val.num 2)],
         [("x".toList, Shared.Val.num 1)],
         [("p".toList, Shared.Val.ref 0), ("q".toList, Shared.Val.ref 1)]]
        2 "q.y".toList (Shared.Val.bool true)
      = [[("a".toList, Shared.Val.ref 1), ("b".toList, Shared.Val.num 2)],
         [("x".toList, Shared.Val.num 1), ("y".toList, Shared.Val.bool true)],
         [("p".toList, Shared.Val.ref 0), ("q".toList, Shared.Val.ref 1)]] ∧
    Shared.toJson 3
        [[("a".toList, Shared.Val.ref 1), ("b".toList, Shared.Val.num 2)],
         [("x".toList, Shared.Val.num 1)],
         [("p".toList, Shared.Val.ref 0), ("q".toList, Shared.Val.ref 1)]] (Shared.Val.ref 0)
      = Json.obj [("a".toList, Json.obj [("x".toList, Json.num 1)]), ("b".toList, Json.num 2)] ∧
    Shared.toJson 3
        [[("a".toList, Shared.Val.ref 1), ("b".toList, Shared.Val.num 2)],
         [("x".toList, Shared.Val.num 1), ("y".toList, Shared.Val.bool true)],
         [("p".toList, Shared.Val.ref 0), ("q".toList, Shared.Val.ref 1)]] (Shared.Val.ref 0)
      = Json.obj [("a".toList, Json.obj [("x".toList, Json.num 1),
          ("y".toList, Json.bool true)]), ("b".toList, Json.num 2)] ∧
    ¬ Json.Equiv
      (Shared.toJson 3
        [[("a".toList, Shared.Val.ref 1), ("b".toList, Shared.Val.num 2)],
         [("x".toList, Shared.Val.num 1)],
         [("p".toList, Shared.Val.ref 0), ("q".toList, Shared.Val.ref 1)]] (Shared.Val.ref 0))
      (Shared.toJson 3
        [[("a".toList, Shared.Val.ref 1), ("b".toList, Shared.Val.num 2)],
         [("x".toList, Shared.Val.num 1), ("y".toList, Shared.Val.bool true)],
         [("p".toList, Shared.Val.ref 0), ("q".toList, Shared.Val.ref 1)]]
        (Shared.Val.ref 0)) := by
  refine ⟨rfl, rfl, by decide, rfl, rfl, rfl, ?_⟩
  intro h
  have h2 : Json.Equiv
      (Json.obj [("a".toList, Json.obj [("x".toList, Json.num 1)]), ("b".toList, Json.num 2)])
      (Json.obj [("a".toList, Json.obj [("x".toList, Json.num 1),
          ("y".toList, Json.bool true)]), ("b".toList, Json.num 2)]) := h
  have h3 := ((jsonEquiv_obj_iff _ _).1 h2).2 "a".toList _ _ rfl rfl
  have h4 := (((jsonEquiv_obj_iff _ _).1 h3).1 "y".toList).1 rfl
  cases h4

/-- On an object, `setPath(root, p, v)` leaves every top-level key other than
the first dot-separated segment of `p` bound to the same value, and removes no
top-level key. -/
theorem setPath_tree_frame (root : Obj) (p : Str) (v : Json) :
    (∀ first rest, splitDot p = first :: rest →
      ∀ k, k ≠ first → mapGet (setPath root p v) k = mapGet root k) ∧
    (∀ k, (mapGet root k).isSome = true → (mapGet (setPath root p v) k).isSome = true) := by
  unfold setPath
  by_cases hp : p = []
  · rw [if_pos hp]
    exact ⟨fun _ _ _ _ _ => rfl, fun _ h => h⟩
  · rw [if_neg hp]
    constructor
    · intro first rest hs k hk
      rw [hs]
      exact mapGet_setLoop_ne root first rest v k hk
    · intro k hk
      cases hs : splitDot p with
      | nil => exact absurd hs (splitDot_ne_nil p)
      | cons first rest =>
        by_cases hkf : k = first
        · subst hkf
          rw [mapGet_setLoop_self]
          exact setBinding_isSome _ _ _
        · rw [mapGet_setLoop_ne root first rest v k hkf]
          exact hk

/-- A second call on the same `data` with the same rules in the same order can
return another result when two destinations overlap.  On
`data = {"a": {}, "v": true}` the rules `a.x ↦ e`, `a ↦ d`, `v ↦ d.x`, applied in
this order, return `{"d": {"x": true}}` and leave `x` in the map of `data.a`;
the second call finds `a.x` and returns `{"e": true, "d": {"x": true}}`. -/
theorem Shared.executeTransform_second_call :
    Shared.executeTransform
        [[("a".toList, Shared.Val.ref 1), ("v".toList, Shared.Val.bool true)], []]
        (Shared.Val.ref 0)
        [("a.x".toList, Shared.Val.str "e".toList), ("a".toList, Shared.Val.str "d".toList),
         ("v".toList, Shared.Val.str "d.x".toList)]
      = some ([[("a".toList, Shared.Val.ref 1), ("v".toList, Shared.Val.bool true)],
               [("x".toList, Shared.Val.bool true)],
               [("d".toList, Shared.Val.ref 1)]], 2) ∧
    Shared.executeTransform
        [[("a".toList, Shared.Val.ref 1), ("v".toList, Shared.Val.bool true)],
         [("x".toList, Shared.Val.bool true)],
         [("d".toList, Shared.Val.ref 1)]]
        (Shared.Val.ref 0)
        [("a.x".toList, Shared.Val.str "e".toList), ("a".toList, Shared.Val.str "d".toList),
         ("v".toList, Shared.Val.str "d.x".toList)]
      = some ([[("a".toList, Shared.Val.ref 1), ("v".toList, Shared.Val.bool true)],
               [("x".toList, Shared.Val.bool true)],
               [("d".toList, Shared.Val.ref 1)],
               [("e".toList, Shared.Val.bool true), ("d".toList, Shared.Val.ref 1)]], 3) ∧
    Shared.toJson 3
        [[("a".toList, Shared.Val.ref 1), ("v".toList, Shared.Val.bool true)],
         [("x".toList, Shared.Val.bool true)],
         [("d".toList, Shared.Val.ref 1)]] (Shared.Val.ref 2)
      = Json.obj [("d".toList, Json.obj [("x".toList, Json.bool true)])] ∧
    Shared.toJson 3
        [[("a".toList, Shared.Val.ref 1), ("v".toList, Shared.Val.bool true)],
         [("x".toList, Shared.Val.bool true)],
         [("d".toList, Shared.Val.ref 1)],
         [("e".toList, Shared.Val.bool true), ("d".toList, Shared.Val.ref 1)]] (Shared.Val.ref 3)
      = Json.obj [("e".toList, Json.bool true),
          ("d".toList, Json.obj [("x".toList, Json.bool true)])] ∧
    ¬ Json.Equiv (Json.obj [("d".toList, Json.obj [("x".toList, Json.bool true)])])
      (Json.obj [("e".toList, Json.bool true),
          ("d".toList, Json.obj [("x".toList, Json.bool true)])]) := by
  refine ⟨rfl, rfl, rfl, rfl, ?_⟩
  intro h
  have h2 := (((jsonEquiv_obj_iff _ _).1 h).1 "e".toList).1 rfl
  cases h2

/-- C15, amended: when no two rules target overlapping destination paths, two
invocations with identical data and mappings give structurally equal outcomes
in any two iteration orders; and such a call writes into no map that existed
before it, so that the second invocation finds `data` as the first did. -/
theorem transform_repeatable :
    (∀ (data : Json) (rules1 rules2 : List (Str × Json)), rules1.Perm rules2 →
      rules1.Pairwise RulesApart →
      OutcomeEquiv (executeTransform data rules1) (executeTransform data rules2)) ∧
    (∀ (h : Shared.Store) (data : Shared.Val) (rules : List (Str × Shared.Val))
        (h' : Shared.Store) (r : Nat),
      rules.Pairwise Shared.RulesApart →
      Shared.executeTransform h data rules = some (h', r) →
      ∀ a, a < h.length → h'[a]? = h[a]?) :=
  ⟨fun data rules1 rules2 hperm hapart => transformLoop_perm data rules1 rules2 hperm hapart [],
   fun h data rules h' r hapart hrun =>
     Shared.executeTransform_keeps_data h data rules h' r hapart hrun⟩

/-- Witness for C15 as amended: on `{"a": true, "b": false}` the mapping set
`{a ↦ x, b ↦ y}` gives structurally equal results in both orders; and the
rules `a ↦ d`, `b ↦ e.y` on `data = {"a": {"x": 1}, "b": 2}` leave the two maps
of `data` as they were. -/
theorem transform_repeatable_witness :
    OutcomeEquiv
      (executeTransform (Json.obj [("a".toList, Json.bool true), ("b".toList, Json.bool false)])
        [("a".toList, Json.str "x".toList), ("b".toList, Json.str "y".toList)])
      (executeTransform (Json.obj [("a".toList, Json.bool true), ("b".toList, Json.bool false)])
        [("b".toList, Json.str "y".toList), ("a".toList, Json.str "x".toList)]) ∧
    (Shared.executeTransform
        [[("a".toList, Shared.Val.ref 1), ("b".toList, Shared.Val.num 2)],
         [("x".toList, Shared.Val.num 1)]]
        (Shared.Val.ref 0)
        [("a".toList, Shared.Val.str "d".toList), ("b".toList, Shared.Val.str "e.y".toList)]
      = some ([[("a".toList, Shared.Val.ref 1), ("b".toList, Shared.Val.num 2)],
               [("x".toList, Shared.Val.num 1)],
               [("d".toList, Shared.Val.ref 1), ("e".toList, Shared.Val.ref 3)],
               [("y".toList, Shared.Val.num 2)]], 2)) ∧
    (∀ a, a < 2 →
      ([[("a".toList, Shared.Val.ref 1), ("b".toList, Shared.Val.num 2)],
        [("x".toList, Shared.Val.num 1)],
        [("d".toList, Shared.Val.ref 1), ("e".toList, Shared.Val.ref 3)],
        [("y".toList, Shared.Val.num 2)]] : Shared.Store)[a]?
      = ([[("a".toList, Shared.Val.ref 1), ("b".toList, Shared.Val.num 2)],
          [("x".toList, Shared.Val.num 1)]] : Shared.Store)[a]?) :=
  ⟨transform_repeatable.1
      (Json.obj [("a".toList, Json.bool true), ("b".toList, Json.bool false)])
      [("a".toList, Json.str "x".toList), ("b".toList, Json.str "y".toList)]
      [("b".toList, Json.str "y".toList), ("a".toList, Json.str "x".toList)]
      (List.Perm.swap _ _ [])
      (by
        refine List.pairwise_cons.2 ⟨?_, List.pairwise_singleton _ _⟩
        intro r hr p q hp hq
        simp only [List.mem_singleton] at hr
        subst hr
        cases hp
        cases hq
        unfold Overlap
        decide),
    rfl,
    transform_repeatable.2
      [[("a".toList, Shared.Val.ref 1), ("b".toList, Shared.Val.num 2)],
       [("x".toList, Shared.Val.num 1)]]
      (Shared.Val.ref 0)
      [("a".toList, Shared.Val.str "d".toList), ("b".toList, Shared.Val.str "e.y".toList)]
      _ 2
      (by
        refine List.pairwise_cons.2 ⟨?_, List.pairwise_singleton _ _⟩
        intro r hr p q hp hq
        simp only [List.mem_singleton] at hr
        subst hr
        cases hp
        cases hq
        unfold Overlap
        decide)
      rfl⟩

/-- C27, amended.  On an object in which no map is shared, `setPath(root, p, v)`
leaves every top-level key other than the first dot-separated segment of `p`
bound to the same value, and removes no top-level key.  Over the store, where
maps may be shared: when no map refers to `root`, every such key keeps its
binding (the same scalar, or the same map or array); and `setPath` removes no
key, whatever is shared. -/
theorem setPath_frame :
    (∀ (root : Obj) (p : Str) (v : Json),
      (∀ first rest, splitDot p = first :: rest →
        ∀ k, k ≠ first → mapGet (setPath root p v) k = mapGet root k) ∧
      (∀ k, (mapGet root k).isSome = true → (mapGet (setPath root p v) k).isSome = true)) ∧
    (∀ (h : Shared.Store) (root : Nat) (p : Str) (v : Shared.Val) (first : Str)
        (rest : List Str),
      root < h.length →
      (∀ (a : Nat) (m : Shared.Cell) (k : Str), h[a]? = some m →
        Shared.cellGet m k ≠ some (Shared.Val.ref root)) →
      splitDot p = first :: rest → ∀ k, k ≠ first →
      ((Shared.setPath h root p v)[root]?).bind (fun m => Shared.cellGet m k)
        = (h[root]?).bind (fun m => Shared.cellGet m k)) ∧
    (∀ (h : Shared.Store) (root : Nat) (p : Str) (v : Shared.Val) (k : Str),
      ((h[root]?).bind (fun m => Shared.cellGet m k)).isSome = true →
      (((Shared.setPath h root p v)[root]?).bind (fun m => Shared.cellGet m k)).isSome
        = true) :=
  ⟨setPath_tree_frame,
   Shared.setPath_other_keys,
   fun h root p v k hk => Shared.setPath_keeps_keys h root p v root k hk⟩

/-- Witness for C27 as amended: `setPath({"a": 1, "b": 2}, "a.x", 3)` leaves
`b` bound to `2`; and in `result = {"p": data, "q": data.a}`, to which no map
refers, `setPath(result, "q.y", true)` leaves `p` bound to the map of `data`. -/
theorem setPath_frame_witness :
    mapGet (setPath [("a".toList, Json.num 1), ("b".toList, Json.num 2)] "a.x".toList
        (Json.num 3)) "b".toList
      = mapGet [("a".toList, Json.num 1), ("b".toList, Json.num 2)] "b".toList ∧
    ((Shared.setPath
        [[("a".toList, Shared.Val.ref 1), ("b".toList, Shared.Val.num 2)],
         [("x".toList, Shared.Val.num 1)],
         [("p".toList, Shared.Val.ref 0), ("q".toList, Shared.Val.ref 1)]]
        2 "q.y".toList (Shared.Val.bool true))[2]?).bind
        (fun m => Shared.cellGet m "p".toList)
      = (([[("a".toList, Shared.Val.ref 1), ("b".toList, Shared.Val.num 2)],
           [("x".toList, Shared.Val.num 1)],
           [("p".toList, Shared.Val.ref 0), ("q".toList, Shared.Val.ref 1)]]
          : Shared.Store)[2]?).bind (fun m => Shared.cellGet m "p".toList) :=
  ⟨(setPath_frame.1 [("a".toList, Json.num 1), ("b".toList, Json.num 2)] "a.x".toList
      (Json.num 3)).1 "a".toList ["x".toList] rfl "b".toList (by decide),
   setPath_frame.2.1
      [[("a".toList, Shared.Val.ref 1), ("b".toList, Shared.Val.num 2)],
       [("x".toList, Shared.Val.num 1)],
       [("p".toList, Shared.Val.ref 0), ("q".toList, Shared.Val.ref 1)]]
      2 "q.y".toList (Shared.Val.bool true) "q".toList ["y".toList] (by decide)
      (by
        intro a m k hm hc
        match a with
        | 0 =>
          simp only [List.getElem?_cons_zero, Option.some.injEq] at hm
          subst hm
          simp only [Shared.cellGet] at hc
          split_ifs at hc <;> cases hc
        | 1 =>
          simp only [List.getElem?_cons_succ, List.getElem?_cons_zero, Option.some.injEq] at hm
          subst hm
          simp only [Shared.cellGet] at hc
          split_ifs at hc
          cases hc
        | 2 =>
          simp only [List.getElem?_cons_succ, List.getElem?_cons_zero, Option.some.injEq] at hm
          subst hm
          simp only [Shared.cellGet] at hc
          split_ifs at hc <;> cases hc
        | n + 3 => simp at hm)
      rfl "p".toList (by decide)⟩

end JsonProcessor

namespace Calculator

/-! ## Properties of `convertUnits` -/

/-- C30: `convertUnits(value, from, to)` returns an error exactly when `from`
differs from `to` and the pair is none of celsius→fahrenheit,
fahrenheit→celsius, meters→feet, feet→meters; and whenever `from` equals `to`,
for any unit string, it returns `value` unchanged without error. -/
theorem convertUnits_error_iff (value : Float) (fromUnit toUnit : List Char) :
    ((∃ msg, convertUnits value fromUnit toUnit = Except.error msg) ↔
      (fromUnit ≠ toUnit ∧
        ¬ (fromUnit = "celsius".toList ∧ toUnit = "fahrenheit".toList) ∧
        ¬ (fromUnit = "fahrenheit".toList ∧ toUnit = "celsius".toList) ∧
        ¬ (fromUnit = "meters".toList ∧ toUnit = "feet".toList) ∧
        ¬ (fromUnit = "feet".toList ∧ toUnit = "meters".toList))) ∧
    (fromUnit = toUnit → convertUnits value fromUnit toUnit = Except.ok value) := by
  constructor
  · unfold convertUnits
    by_cases h1 : fromUnit = "celsius".toList ∧ toUnit = "fahrenheit".toList
    · simp only [if_pos h1]
      constructor
      · rintro ⟨msg, h⟩; cases h
      · rintro ⟨_, h, _⟩; exact absurd h1 h
    · by_cases h2 : fromUnit = "fahrenheit".toList ∧ toUnit = "celsius".toList
      · simp only [if_neg h1, if_pos h2]
        constructor
        · rintro ⟨msg, h⟩; cases h
        · rintro ⟨_, _, h, _⟩; exact absurd h2 h
      · by_cases h3 : fromUnit = "meters".toList ∧ toUnit = "feet".toList
        · simp only [if_neg h1, if_neg h2, if_pos h3]
          constructor
          · rintro ⟨msg, h⟩; cases h
          · rintro ⟨_, _, _, h, _⟩; exact absurd h3 h
        · by_cases h4 : fromUnit = "feet".toList ∧ toUnit = "meters".toList
          · simp only [if_neg h1, if_neg h2, if_neg h3, if_pos h4]
            constructor
            · rintro ⟨msg, h⟩; cases h
            · rintro ⟨_, _, _, _, h⟩; exact absurd h4 h
          · by_cases h5 : fromUnit = toUnit
            · simp only [if_neg h1, if_neg h2, if_neg h3, if_neg h4, if_pos h5]
              constructor
              · rintro ⟨msg, h⟩; cases h
              · rintro ⟨h, _⟩; exact absurd h5 h
            · simp only [if_neg h1, if_neg h2, if_neg h3, if_neg h4, if_neg h5]
              exact ⟨fun _ => ⟨h5, h1, h2, h3, h4⟩, fun _ => ⟨_, rfl⟩⟩
  · intro h
    subst h
    unfold convertUnits
    have h1 : ¬ (fromUnit = "celsius".toList ∧ fromUnit = "fahrenheit".toList) := by
      rintro ⟨a, b⟩; rw [a] at b; exact absurd b (by decide)
    have h2 : ¬ (fromUnit = "fahrenheit".toList ∧ fromUnit = "celsius".toList) := by
      rintro ⟨a, b⟩; rw [a] at b; exact absurd b (by decide)
    have h3 : ¬ (fromUnit = "meters".toList ∧ fromUnit = "feet".toList) := by
      rintro ⟨a, b⟩; rw [a] at b; exact absurd b (by decide)
    have h4 : ¬ (fromUnit = "feet".toList ∧ fromUnit = "meters".toList) := by
      rintro ⟨a, b⟩; rw [a] at b; exact absurd b (by decide)
    simp only [if_neg h1, if_neg h2, if_neg h3, if_neg h4, if_true]

end Calculator
